import Mathlib

/-!
# Qt Installer Framework core: version matching, catalog merge, replacement
bookkeeping, updater packages, install actions, component lookup, rollback,
the maintenance tool, licenses, silent installation, display versions, the
install resolver and the arguments of the repository generator

A shallow embedding of parts of `src/libs/installer/packagemanagercore.cpp`
(class `PackageManagerCore`) and of `main` of `installerbuilder/repogen/repogen.cpp`,
together with theorems about them.

Conventions of the embedding:

* `QString` is `String`; character-level work goes through `String.data`.
* `QHash<QString, T>` is an association list with at most one entry per key
  (`QHash.insert` replaces, `QHash.take` removes); the iteration order of a
  hash is the order of the list, and theorems quantify over every list.
* Heap objects (`Component *`, `Operation *`) are values; two pointers are the
  same pointer when the values are equal.
* Code of the repository that is not part of this source tree is either a
  parameter of the definition that calls it or a definition whose comment
  starts with "Modelled from the spec:".
* A loop or a recursion whose end is not structural runs on a counter of
  allowed steps and returns `none` when the counter runs out; the theorems
  show that the counter the callers pass is enough.
-/

namespace QInstaller

/-! ## Version matching -/

/-- Modelled from the spec: the numeric value of one dotted component of a
version string, as `KDUpdater::compareVersion` (kdtools, not in this source
tree) reads it. The digits are read in base ten; a component that is not a
number counts as zero, as `QString::toInt` yields `0` when it fails. -/
def versionComponentValue (cs : List Char) : Nat :=
  if cs.all Char.isDigit && !cs.isEmpty then
    cs.foldl (fun acc c => 10 * acc + (c.toNat - '0'.toNat)) 0
  else 0

/-- Modelled from the spec: splitting a version at its dots. -/
def splitVersion : List Char → List (List Char)
  | [] => [[]]
  | c :: cs =>
    match splitVersion cs with
    | [] => if c = '.' then [[], []] else [[c]]
    | part :: parts => if c = '.' then [] :: part :: parts else (c :: part) :: parts

/-- Modelled from the spec: component-by-component numeric comparison. The
first differing component decides; when one version is a proper prefix of the
other the shorter one is the smaller. -/
def compareComponents : List Nat → List Nat → Int
  | [], [] => 0
  | [], _ :: _ => -1
  | _ :: _, [] => 1
  | a :: as, b :: bs =>
    if a < b then -1 else if b < a then 1 else compareComponents as bs

end QInstaller

namespace KDUpdater

/-- Modelled from the spec: `KDUpdater::compareVersion` is declared in kdtools,
which is not part of this source tree. The spec asks for a "semantic (not
lexical) version comparison": dotted versions are compared numerically,
component by component. The result is negative, zero or positive as `v1` is
smaller than, equal to or greater than `v2`. -/
def compareVersion (v1 v2 : String) : Int :=
  QInstaller.compareComponents
    ((QInstaller.splitVersion v1.data).map QInstaller.versionComponentValue)
    ((QInstaller.splitVersion v2.data).map QInstaller.versionComponentValue)

end KDUpdater

namespace QInstaller

/-- The character class `[<=>]` of the regular expression in `versionMatches`. -/
def isComparatorChar (c : Char) : Bool :=
  c = '<' || c = '=' || c = '>'

/-- Embedding of `QRegExp("([<=>]+)(.*)").exactMatch(requirement)`: the greedy first group
needs at least one comparator character, the second group takes the rest. -/
def compExExactMatch (requirement : String) : Bool :=
  match requirement.data with
  | [] => false
  | c :: _ => isComparatorChar c

/-- Embedding of `compEx.cap(1)`: the longest prefix of comparator characters. -/
def compExCap1 (requirement : String) : String :=
  String.mk (requirement.data.takeWhile isComparatorChar)

/-- Embedding of `compEx.cap(2)`: what follows the comparator characters. -/
def compExCap2 (requirement : String) : String :=
  String.mk (requirement.data.dropWhile isComparatorChar)

/-- Embedding of `PackageManagerCore::versionMatches` (packagemanagercore.cpp:3169). The
comparison function `KDUpdater::compareVersion` is a parameter. -/
def versionMatches (compareVersion : String → String → Int)
    (version requirement : String) : Bool :=
  let comparator : String :=
    if compExExactMatch requirement then compExCap1 requirement else "="
  let ver : String :=
    if compExExactMatch requirement then compExCap2 requirement else requirement
  let allowEqual := comparator.data.contains '='
  let allowLess := comparator.data.contains '<'
  let allowMore := comparator.data.contains '>'
  if allowEqual && version == ver then true
  else if allowLess && decide (compareVersion ver version > 0) then true
  else if allowMore && decide (compareVersion ver version < 0) then true
  else false

/-! ## Containers -/

/-- Lookup in a hash or map, `QHash::value` without the default: the first
entry with the key. -/
def hashValue {K V : Type} [DecidableEq K] : List (K × V) → K → Option V
  | [], _ => none
  | (k, v) :: rest, key => if k = key then some v else hashValue rest key

/-- Membership test, `QHash::contains`. -/
def hashContains {K V : Type} [DecidableEq K] (m : List (K × V)) (key : K) : Bool :=
  (hashValue m key).isSome

/-- Removal of a key, the effect of `QHash::take` and `QHash::remove` on the
container. -/
def hashTake {K V : Type} [DecidableEq K] : List (K × V) → K → List (K × V)
  | [], _ => []
  | (k, v) :: rest, key =>
    if k = key then hashTake rest key else (k, v) :: hashTake rest key

/-- Insertion, `QHash::insert`: an existing entry for the key is replaced. -/
def hashInsert {K V : Type} [DecidableEq K] (m : List (K × V)) (key : K) (v : V) :
    List (K × V) :=
  (key, v) :: hashTake m key

/-! ## Data model -/

/-- Modelled from the spec: the values of `PackageManagerCore::Status` that
the documentation block of packagemanagercore.cpp lists (the header with the
enum is not in this source tree). -/
inductive Status where
  | Success
  | Failure
  | Running
  | Canceled
  | Unfinished
  | ForceUpdate
  | EssentialUpdated
  deriving DecidableEq, Repr

/-- Modelled from the spec: the magic binary marker. The marker constants of
`BinaryContent` are not in this source tree; the spec fixes one constant per
role. A marker set through `setUserSetBinaryMarker` that names no role is
`other`. -/
inductive BinaryMarker where
  | installer
  | uninstaller
  | updater
  | packageManager
  | reinstaller
  | offlineGenerator
  | other
  deriving DecidableEq, Repr

/-- The null `QDate`, smaller than every valid date. -/
def nullDate : Int := -9223372036854775808

/-- A remote catalog entry, `KDUpdater::Package` (declared outside this source
tree), by the values the embedded code reads. Each field is the value of
one `data(key)` lookup; `essential` and `forcedUpdate` are `none` when the key
is missing, `releaseDate` is the Julian day of `data(scReleaseDate).toDate()`,
`replaces` is `data(scReplaces)` already split at its commas with empty parts
skipped. -/
structure Package where
  name : String := ""
  treeName : String := ""
  version : String := ""
  essential : Option String := none
  forcedUpdate : Option String := none
  releaseDate : Int := nullDate
  replaces : List String := []
  sortingPriority : Int := 0
  deriving DecidableEq, Repr

/-- A record of an installed package, `KDUpdater::LocalPackage` (declared
outside this source tree), by the values the embedded code reads. -/
structure LocalPackage where
  name : String := ""
  treeName : String := ""
  version : String := ""
  lastUpdateDate : Int := nullDate
  deriving DecidableEq, Repr

/-- The check state of a component, `Qt::CheckState`. -/
inductive CheckState where
  | Unchecked
  | PartiallyChecked
  | Checked
  deriving DecidableEq, Repr

/-- A node of the component tree, `QInstaller::Component` (declared outside
this source tree), by the values the embedded code reads and writes: `name()`,
`value(scTreeName)`, `value(scVersion)`, `value(scInstalledVersion)`,
`isInstalled()`, `value(scEssential)` and `value(scForcedUpdate)` (`none` when
the key is missing), the sorting priority, `isUnstable()`, the flag written by
`setUpdateAvailable`, the check state and the flags written by `setEnabled`,
`setCheckable` and `setSelectable`, the lists `dependencies()` and
`autoDependencies()` of requirement strings, and `value(scInheritVersion)`.
The default value is the state of
`new Component(core)`: not installed, unchecked, enabled, checkable and
selectable. -/
structure Component where
  name : String := ""
  treeName : String := ""
  version : String := ""
  installedVersion : String := ""
  installed : Bool := false
  essential : Option String := none
  forcedUpdate : Option String := none
  sortingPriority : Int := 0
  unstable : Bool := false
  updateAvailable : Bool := false
  checkState : CheckState := CheckState.Unchecked
  enabled : Bool := true
  checkable : Bool := true
  selectable : Bool := true
  dependencies : List String := []
  inheritVersion : String := ""
  autoDependencies : List String := []
  deriving DecidableEq, Repr

/-- Modelled from the spec: `Component::treeName()` (component.cpp is not in
this source tree), the key of a component: its tree-name if set, otherwise its
name. -/
def Component.treeNameOrName (c : Component) : String :=
  if c.treeName = "" then c.name else c.treeName

/-- Modelled from the spec: `Component::loadDataFromPackage(const Package &)`
(component.cpp is not in this source tree) copies the descriptor values. -/
def loadDataFromPackage (package : Package) : Component :=
  { name := package.name, treeName := package.treeName, version := package.version,
    essential := package.essential, forcedUpdate := package.forcedUpdate,
    sortingPriority := package.sortingPriority }

/-- Modelled from the spec: `Component::loadDataFromPackage(const LocalPackage &)`
(component.cpp is not in this source tree). A local package is a record of
what is on disk, so the component is installed in the recorded version. -/
def loadDataFromLocalPackage (package : LocalPackage) : Component :=
  { name := package.name, treeName := package.treeName, version := package.version,
    installedVersion := package.version, installed := true }

/-- The local packages hash `LocalPackagesHash`, keyed by package name, as the
list of its values in the order of `keys()`. -/
abbrev LocalPackagesHash := List LocalPackage

/-- The call `QHash::contains` on the local packages hash. -/
def localsContains (locals : LocalPackagesHash) (name : String) : Bool :=
  locals.any (fun p => decide (p.name = name))

/-- The call `QHash::value` on the local packages hash: a default-constructed
record when the name is missing. -/
def localsValue (locals : LocalPackagesHash) (name : String) : LocalPackage :=
  (locals.find? (fun p => decide (p.name = name))).getD {}

/-- Modelled from the spec: the install action of a component,
`ComponentModelHelper::InstallAction` (declared in a header that is not in
this source tree), with the four action states the spec names. -/
inductive InstallAction where
  | Install
  | Uninstall
  | KeepInstalled
  | KeepUninstalled
  deriving DecidableEq, Repr

/-- Modelled from the spec: the install resolver `InstallerCalculator`
(installercalculator.cpp is not in this source tree), a pure graph algorithm
over the components appended to it; the state of an instance is what has been
appended since it was created. -/
structure InstallerCalculator where
  appended : List Component := []
  deriving DecidableEq, Repr

/-- Modelled from the spec: the uninstall resolver `UninstallerCalculator`
(uninstallercalculator.cpp is not in this source tree), a pure graph algorithm
over the components appended to it. -/
structure UninstallerCalculator where
  appended : List Component := []
  deriving DecidableEq, Repr

/-- One reversible mutation, `QInstaller::Operation` (declared outside this
source tree), by the values the embedded code reads: `name()` and the parameters `admin`, `uninstall-only`,
`component` and `forceremoval` (`none` when the parameter is not set). -/
structure Operation where
  name : String := ""
  admin : Bool := false
  uninstallOnly : Bool := false
  component : String := ""
  forceremoval : Option Bool := none
  deriving DecidableEq, Repr

/-- The part of `PackageManagerCorePrivate` that the embedded functions read
and write. `componentsToReplace` and `replacementDependencyComponents` are the
containers that `d->componentsToReplace()` and
`d->replacementDependencyComponents()` return in the current run mode. -/
structure CoreState where
  status : Status := Status.Unfinished
  error : String := ""
  magicBinaryMarker : BinaryMarker := BinaryMarker.installer
  componentsToReplace : List (String × (Component × Component)) := []
  replacementDependencyComponents : List Component := []
  rootComponents : List Component := []
  rootDependencyReplacements : List Component := []
  updaterComponents : List Component := []
  updaterComponentsDeps : List Component := []
  updaterDependencyReplacements : List Component := []
  reinstallerComponents : List Component := []
  reinstallerComponentsDeps : List Component := []
  reinstallerDependencyReplacements : List Component := []
  componentsToInstallCalculated : Bool := false
  installerCalculator : InstallerCalculator := {}
  uninstallerCalculator : UninstallerCalculator := {}
  installActions : List (Component × InstallAction) := []
  performedOperationsOld : List Operation := []
  performedOperationsCurrentSession : List Operation := []
  commandLineInstance : Bool := false
  disableWriteMaintenanceTool : Bool := false
  needToWriteMaintenanceTool : Bool := false
  foundEssentialUpdate : Bool := false
  deriving DecidableEq, Repr

/-- Modelled from the spec: `PackageManagerCorePrivate::statusCanceledOrFailed`
(packagemanagercore_p.cpp is not in this source tree). -/
def statusCanceledOrFailed (core : CoreState) : Bool :=
  decide (core.status = Status.Canceled) || decide (core.status = Status.Failure)

/-- Modelled from the spec: `PackageManagerCorePrivate::setStatus` stores the
status and the error text. -/
def setStatus (core : CoreState) (status : Status) (error : String) : CoreState :=
  { core with status := status, error := error }

/-- Modelled from the spec: the role test `isInstaller` compares the marker
with the installer constant. -/
def isInstaller (core : CoreState) : Bool :=
  decide (core.magicBinaryMarker = BinaryMarker.installer)

/-- Modelled from the spec: the role test `isUpdater`. -/
def isUpdater (core : CoreState) : Bool :=
  decide (core.magicBinaryMarker = BinaryMarker.updater)

/-- Modelled from the spec: the role test `isReinstaller`. -/
def isReinstaller (core : CoreState) : Bool :=
  decide (core.magicBinaryMarker = BinaryMarker.reinstaller)

/-- Modelled from the spec: the role test `isPackageManager`. -/
def isPackageManager (core : CoreState) : Bool :=
  decide (core.magicBinaryMarker = BinaryMarker.packageManager)

/-- Modelled from the spec: the constant `scTrue` (constants.h is not in this
source tree), the text of a flag that is set. -/
def scTrue : String := "true"

/-- Modelled from the spec: the constant `scFalse` (constants.h is not in this
source tree), the text of a flag that is not set. -/
def scFalse : String := "false"

/-- Embedding of `QString::toLower`, on the characters of the string. -/
def toLower (s : String) : String :=
  String.mk (s.data.map Char.toLower)

/-- Collaborators of `PackageManagerCore` whose code is not in this source
tree, or is in it but not embedded; each is a parameter of the functions that
call it. -/
structure External where
  /-- The collaborator `ProductKeyCheck::instance()->isValidPackage(name)`. -/
  isValidPackage : String → Bool
  /-- The collaborator `PackageManagerCorePrivate::packageNeedsUpdate`. -/
  packageNeedsUpdate : LocalPackage → Package → Bool
  /-- The collaborator `PackageManagerCorePrivate::clearAllComponentLists`. -/
  clearAllComponentLists : CoreState → CoreState
  /-- The collaborator `PackageManagerCorePrivate::buildComponentTree(components, loadScript)`. -/
  buildComponentTree : CoreState → List (String × Component) → Bool → Bool × CoreState
  /-- The collaborator `PackageManagerCore::updateDisplayVersions(displayKey)`; it writes display
  values of components, which `Component` does not carry. -/
  updateDisplayVersions : CoreState → CoreState
  /-- The collaborator `PackageManagerCore::fetchReinstallerPackages`. -/
  fetchReinstallerPackages : CoreState → List Package → LocalPackagesHash → Bool × CoreState
  /-- The install resolver on the components appended to a fresh instance: the
  result of `appendComponentsToInstall` and `orderedComponentsToInstall()`. -/
  installResolver : List Component → Bool × List Component
  /-- The uninstall resolver on the components appended to a fresh instance:
  the set `componentsToUninstall()`, in its iteration order. -/
  uninstallResolver : List Component → List Component
  /-- The collaborator `Component::descendantComponents`. -/
  descendantComponents : Component → List Component
  /-- The collaborator `Component::uninstallationRequested`. -/
  uninstallationRequested : Component → Bool
  /-- The collaborator `Component::isSelectedForInstallation`. -/
  isSelectedForInstallation : Component → Bool
  /-- The collaborator `Component::updateRequested`. -/
  updateRequested : Component → Bool
  /-- The collaborator `KDUpdater::compareVersion`. -/
  compareVersion : String → String → Int
  /-- The collaborator `PackageManagerCorePrivate::writeMaintenanceTool(operations)`: the core
  state after the call, and whether the call threw an `Error`. -/
  privateWriteMaintenanceTool : CoreState → List Operation → CoreState × Bool
  /-- The collaborator `settings().allowUnstableComponents()`. -/
  allowUnstableComponents : Bool
  /-- The collaborator `d->m_metadataJob.shaMismatchPackages()`. -/
  shaMismatchPackages : List String
  /-- The collaborator `Component::loadComponentScript`: the component after the call, or the
  message of the `Error` it throws. -/
  loadComponentScript : Component → Except String Component

/-! ## Catalog merge -/

/-- The local `struct Data` of the fetch functions; `package` is passed to
`updateComponentData` as an argument, `installedPackages` likewise. -/
structure Data where
  components : List (String × Component) := []
  replacementToExchangeables : List (Component × List String) := []
  deriving DecidableEq, Repr

/-- The key under which `updateComponentData` looks for an earlier component:
the tree-name of the package, or its name when the tree-name is empty. -/
def packageKey (package : Package) : String :=
  if package.treeName = "" then package.name else package.treeName

/-- The text of the duplicate-identifier error. -/
def duplicateError (name : String) : String :=
  "Cannot register component! Component with identifier " ++ name ++ " already exists."

/-- The loop of `updateComponentData` over the names the component replaces:
the version of the first replaced package that is installed. -/
def firstInstalledReplaced (locals : LocalPackagesHash) : List String → Option String
  | [] => none
  | componentName :: rest =>
    if localsContains locals componentName then
      some (localsValue locals componentName).version
    else firstInstalledReplaced locals rest

/-- Embedding of `PackageManagerCore::updateComponentData` (packagemanagercore.cpp:3740).
Returns the result, the core state, the data and the component after the
call. The repository and archive attributes are not part of `Component`; the
calls in the try block raise nothing but allocation failures, so the catch
branch is not embedded. -/
def updateComponentData (ext : External) (core : CoreState) (data : Data)
    (locals : LocalPackagesHash) (package : Package) (component : Component) :
    Bool × CoreState × Data × Component :=
  let name := packageKey package
  if hashContains data.components name then
    (false, setStatus core Status.Failure (duplicateError name), data, component)
  else
    let name := package.name
    let component : Component :=
      if ext.allowUnstableComponents && ext.shaMismatchPackages.contains component.name then
        { component with unstable := true }
      else component
    let uninstalled : Component := { component with installed := false }
    let componentsToReplace := package.replaces
    let final : Component :=
      if isInstaller core then uninstalled
      else if localsContains locals name then
        { uninstalled with installed := true,
                           installedVersion := (localsValue locals name).version }
      else if isPackageManager core then
        match firstInstalledReplaced locals componentsToReplace with
        | some version => { uninstalled with installed := true, installedVersion := version }
        | none => uninstalled
      else uninstalled
    let data' : Data :=
      if componentsToReplace ≠ [] then
        { data with replacementToExchangeables :=
            data.replacementToExchangeables ++ [(final, componentsToReplace)] }
      else data
    (true, core, data', final)

/-- The first loop of `fetchAllPackages` (packagemanagercore.cpp:3874), over
the remote packages. `none` is the early `return false`. -/
def fetchAllPackagesRemotes (ext : External) (locals : LocalPackagesHash) :
    CoreState → Data → List (String × String) → List Package →
      Option (Data × List (String × String)) × CoreState
  | core, data, treeNameComponents, [] => (some (data, treeNameComponents), core)
  | core, data, treeNameComponents, package :: rest =>
    if statusCanceledOrFailed core then (none, core)
    else if !ext.isValidPackage package.name then
      fetchAllPackagesRemotes ext locals core data treeNameComponents rest
    else
      match updateComponentData ext core data locals package (loadDataFromPackage package) with
      | (true, core', data', component) =>
        let treeName := component.treeName
        let treeNameComponents' :=
          if treeName ≠ "" then hashInsert treeNameComponents component.name treeName
          else treeNameComponents
        let name := component.treeNameOrName
        fetchAllPackagesRemotes ext locals core'
          { data' with components := hashInsert data'.components name component }
          treeNameComponents' rest
      | (false, core', _, _) => (none, core')

/-- One pass of the second loop of `fetchAllPackages`
(packagemanagercore.cpp:3898), for one local package. -/
def fetchAllPackagesLocal (treeNameComponents : List (String × String))
    (components : List (String × Component)) (package : LocalPackage) :
    List (String × Component) :=
  let component := loadDataFromLocalPackage package
  let treeName := component.treeNameOrName
  if !hashContains treeNameComponents component.name && component.treeName ≠ "" then
    hashInsert (hashTake components component.name) treeName component
  else if hashContains treeNameComponents component.name then
    let remoteTreeName := (hashValue treeNameComponents component.name).getD ""
    let componentTreeName := component.treeName
    if remoteTreeName ≠ componentTreeName then
      hashInsert (hashTake components remoteTreeName) treeName component
    else components
  else if !hashContains components treeName then
    hashInsert components treeName component
  else components

/-- The second loop of `fetchAllPackages`, over the local packages. -/
def fetchAllPackagesLocals (treeNameComponents : List (String × String))
    (components : List (String × Component)) (locals : LocalPackagesHash) :
    List (String × Component) :=
  locals.foldl (fetchAllPackagesLocal treeNameComponents) components

/-- The three containers `storeReplacedComponents` works on: the working set,
`d->componentsToReplace()` and `d->replacementDependencyComponents()`. -/
structure ReplaceState where
  components : List (String × Component) := []
  componentsToReplace : List (String × (Component × Component)) := []
  replacementDependencyComponents : List Component := []
  deriving DecidableEq, Repr

/-- The body of the inner loop of `storeReplacedComponents`, for the replacing
component `replacement` and one name of its list. -/
def storeReplacedComponent (replacement : Component) (st : ReplaceState)
    (componentName : String) : ReplaceState :=
  match hashValue st.components componentName with
  | none => st
  | some taken =>
    let components := hashTake st.components componentName
    if !hashContains st.componentsToReplace componentName then
      let componentToReplace : Component := { name := componentName }
      { st with components := components,
                componentsToReplace :=
                  hashInsert st.componentsToReplace componentName (replacement, componentToReplace) }
    else
      { components := components,
        replacementDependencyComponents := st.replacementDependencyComponents ++ [taken],
        componentsToReplace :=
          hashInsert st.componentsToReplace componentName (replacement, taken) }

/-- Embedding of `PackageManagerCore::storeReplacedComponents` (packagemanagercore.cpp:3834).
The hash `replacementToExchangeables` is visited in the order of the list. -/
def storeReplacedComponents (st : ReplaceState)
    (replacementToExchangeables : List (Component × List String)) : ReplaceState :=
  replacementToExchangeables.foldl
    (fun st entry => entry.2.foldl (storeReplacedComponent entry.1) st) st

/-- The working set of `fetchAllPackages` after its two merge loops, before
`storeReplacedComponents`; `none` when the remote loop returns false. -/
def fetchAllPackagesMerge (ext : External) (core : CoreState) (remotes : List Package)
    (locals : LocalPackagesHash) : Option (List (String × Component)) :=
  match fetchAllPackagesRemotes ext locals (ext.clearAllComponentLists core) {} [] remotes with
  | (some (data, treeNameComponents), _) =>
    some (fetchAllPackagesLocals treeNameComponents data.components locals)
  | (none, _) => none

/-- Embedding of `PackageManagerCore::fetchAllPackages` (packagemanagercore.cpp:3862). -/
def fetchAllPackages (ext : External) (core : CoreState) (remotes : List Package)
    (locals : LocalPackagesHash) : Bool × CoreState :=
  match fetchAllPackagesRemotes ext locals (ext.clearAllComponentLists core) {} [] remotes with
  | (none, core') => (false, core')
  | (some (data, treeNameComponents), core') =>
    let components := fetchAllPackagesLocals treeNameComponents data.components locals
    let stored := storeReplacedComponents
      { components := components,
        componentsToReplace := core'.componentsToReplace,
        replacementDependencyComponents := core'.replacementDependencyComponents }
      data.replacementToExchangeables
    let core'' : CoreState :=
      { core' with componentsToReplace := stored.componentsToReplace,
                   replacementDependencyComponents := stored.replacementDependencyComponents }
    ext.buildComponentTree core'' stored.components true

/-! ## Updater packages -/

/-- Modelled from the spec: `PackageManagerCorePrivate::clearUpdaterComponentLists`
(packagemanagercore_p.cpp is not in this source tree) empties the updater
lists; the working set is built fresh in every run. -/
def clearUpdaterComponentLists (core : CoreState) : CoreState :=
  { core with updaterComponents := [], updaterComponentsDeps := [],
              updaterDependencyReplacements := [] }

/-- Whether the value of a flag, after the default `scFalse` for a missing key
and `toLower`, is `scTrue`. -/
def flagIsTrue (value : Option String) : Bool :=
  toLower (value.getD scFalse) == scTrue

/-- The test of the gating loop of `fetchUpdaterPackages`
(packagemanagercore.cpp:4212): the component is essential or a forced
update. -/
def isEssentialOrForced (component : Component) : Bool :=
  flagIsTrue component.essential || flagIsTrue component.forcedUpdate

/-- The variables of the first loop of `fetchUpdaterPackages`: the core state,
the data with the hash `components` of the real updates, the copy
`installedPackages` of the local packages, and the list `replaceMes`. -/
structure UpdaterLoop where
  core : CoreState := {}
  data : Data := {}
  installedPackages : LocalPackagesHash := []
  replaceMes : List String := []
  deriving DecidableEq, Repr

/-- The body of the first loop of `fetchUpdaterPackages` after a successful
`updateComponentData` (packagemanagercore.cpp:4115 to 4155), for the update
`update` and its component. -/
def fetchUpdaterPackage (ext : External) (locals : LocalPackagesHash) (st : UpdaterLoop)
    (update : Package) (component : Component) : UpdaterLoop :=
  let core : CoreState :=
    { st.core with updaterComponentsDeps := st.core.updaterComponentsDeps ++ [component] }
  let name := component.name
  let installedPackages := st.installedPackages.filter (fun package => package.name ≠ name)
  let possibleNames := update.replaces.filter (fun possibleName =>
    localsContains locals possibleName)
  let isValidUpdate := localsContains locals name || decide (possibleNames ≠ [])
  let replaceMes :=
    if !localsContains locals name then st.replaceMes ++ possibleNames else st.replaceMes
  let st : UpdaterLoop :=
    { st with core := core, installedPackages := installedPackages, replaceMes := replaceMes }
  if !isValidUpdate && toLower (update.essential.getD scFalse) == scFalse then st
  else
    let localPackage := localsValue locals name
    if !ext.packageNeedsUpdate localPackage update then st
    else if localPackage.lastUpdateDate > update.releaseDate then st
    else
      let core : CoreState :=
        if flagIsTrue update.essential || flagIsTrue update.forcedUpdate then
          { core with foundEssentialUpdate := true }
        else core
      { st with
        core := { core with updaterComponentsDeps := core.updaterComponentsDeps.dropLast },
        data := { st.data with components := hashInsert st.data.components name component } }

/-- The first loop of `fetchUpdaterPackages` (packagemanagercore.cpp:4104),
over the remote packages. `none` is the early `return false`. -/
def fetchUpdaterPackagesRemotes (ext : External) (locals : LocalPackagesHash) :
    UpdaterLoop → List Package → Option UpdaterLoop × CoreState
  | st, [] => (some st, st.core)
  | st, update :: rest =>
    if statusCanceledOrFailed st.core then (none, st.core)
    else if !ext.isValidPackage update.name then
      fetchUpdaterPackagesRemotes ext locals st rest
    else
      match updateComponentData ext st.core st.data locals update (loadDataFromPackage update) with
      | (true, core, data, component) =>
        fetchUpdaterPackagesRemotes ext locals
          (fetchUpdaterPackage ext locals { st with core := core, data := data } update
            component) rest
      | (false, core, _, _) => (none, core)

/-- How a loop of `fetchUpdaterPackages` over components ends: with the early
`return false` of a canceled or failed status, with an `Error` thrown by
`loadComponentScript`, or after the last component. The lists hold the
components as the loop left them. -/
inductive ScriptLoop where
  | returnedFalse (components : List Component)
  | threw (message : String)
  | finished (components : List Component)
  deriving DecidableEq, Repr

/-- A loop of `fetchUpdaterPackages` that loads the script of every component
of a list and then applies `after` to it (packagemanagercore.cpp:4182 and
4192). -/
def loadScripts (ext : External) (core : CoreState) (after : Component → Component) :
    List Component → ScriptLoop
  | [] => ScriptLoop.finished []
  | component :: rest =>
    if statusCanceledOrFailed core then ScriptLoop.returnedFalse (component :: rest)
    else
      match ext.loadComponentScript component with
      | Except.error message => ScriptLoop.threw message
      | Except.ok loaded =>
        match loadScripts ext core after rest with
        | ScriptLoop.finished done => ScriptLoop.finished (after loaded :: done)
        | ScriptLoop.returnedFalse left => ScriptLoop.returnedFalse (after loaded :: left)
        | ScriptLoop.threw message => ScriptLoop.threw message

/-- What the second loop does with an update after its script is loaded: it
is checked unless it is unstable. -/
def checkUpdate (component : Component) : Component :=
  if !component.unstable then { component with checkState := CheckState.Checked }
  else component

/-- What the third loop does with a possible dependency after its script is
loaded: an installed one is checked unless it is unstable. -/
def checkInstalled (component : Component) : Component :=
  if component.installed then
    if !component.unstable then { component with checkState := CheckState.Checked }
    else component
  else component

/-- The body of the gating loop of `fetchUpdaterPackages`
(packagemanagercore.cpp:4210 to 4220). -/
def gateUpdate (component : Component) : Component :=
  let component : Component := { component with checkable := false, selectable := false }
  if isEssentialOrForced component then { component with enabled := true }
  else { component with enabled := false, checkState := CheckState.Unchecked }

/-- The gating loop of `fetchUpdaterPackages` (packagemanagercore.cpp:4206);
`none` is the early `return false`. -/
def gateUpdates (core : CoreState) : List Component → Option (List Component)
  | [] => some []
  | component :: rest =>
    if statusCanceledOrFailed core then none
    else (gateUpdates core rest).map (fun done => gateUpdate component :: done)

/-- The order of `Component::SortingPriorityGreaterThan`. -/
def sortingPriorityGreaterThan (a b : Component) : Prop :=
  a.sortingPriority ≥ b.sortingPriority

instance : DecidableRel sortingPriorityGreaterThan :=
  fun a b => inferInstanceAs (Decidable (a.sortingPriority ≥ b.sortingPriority))

/-- The catch branch of `fetchUpdaterPackages` (packagemanagercore.cpp:4230). -/
def fetchUpdaterPackagesFailed (core : CoreState) (message : String) : Bool × CoreState :=
  (false, setStatus (clearUpdaterComponentLists core) Status.Failure message)

/-- The try block of `fetchUpdaterPackages` (packagemanagercore.cpp:4174 to
4242) for the real updates `updates`, the values of the hash `components` in
its order. The call `appendUpdaterComponent` marks an update as available and
appends it to `m_updaterComponents`; the components in that list and in the
hash are the same objects, so the list holds them as the loops leave them;
`std::sort` is a sort by insertion. -/
def fetchUpdaterPackagesFinish (ext : External) (core : CoreState) (updates : List Component) :
    Bool × CoreState :=
  if updates ≠ [] then
    let appended := updates.map (fun component => { component with updateAvailable := true })
    match loadScripts ext core checkUpdate appended with
    | ScriptLoop.threw message => fetchUpdaterPackagesFailed core message
    | ScriptLoop.returnedFalse left =>
      (false, { core with updaterComponents := core.updaterComponents ++ left })
    | ScriptLoop.finished checked =>
      match loadScripts ext core checkInstalled core.updaterComponentsDeps with
      | ScriptLoop.threw message => fetchUpdaterPackagesFailed core message
      | ScriptLoop.returnedFalse left =>
        (false, { core with updaterComponents := core.updaterComponents ++ checked,
                            updaterComponentsDeps := left })
      | ScriptLoop.finished deps =>
        let core : CoreState := { core with updaterComponentsDeps := deps }
        if core.foundEssentialUpdate then
          match gateUpdates core checked with
          | none => (false, { core with updaterComponents := core.updaterComponents ++ checked })
          | some gated =>
            (true, { core with
              updaterComponents :=
                (core.updaterComponents ++ gated).insertionSort sortingPriorityGreaterThan })
        else
          (true, { core with
            updaterComponents :=
              (core.updaterComponents ++ checked).insertionSort sortingPriorityGreaterThan })
  else (true, clearUpdaterComponentLists core)

/-- Embedding of `PackageManagerCore::fetchUpdaterPackages`
(packagemanagercore.cpp:4089). The hash handed to `storeReplacedComponents` is
the union of `localReplaceMes` and `components`, whose keys are disjoint; the
records in `componentsToReplace` hold the replacing components as they are at
that call. -/
def fetchUpdaterPackages (ext : External) (core : CoreState) (remotes : List Package)
    (locals : LocalPackagesHash) : Bool × CoreState :=
  let core := clearUpdaterComponentLists core
  let core : CoreState := { core with foundEssentialUpdate := false }
  match fetchUpdaterPackagesRemotes ext locals
      { core := core, installedPackages := locals } remotes with
  | (none, core) => (false, core)
  | (some st, _) =>
    let localComponents := st.installedPackages.map loadDataFromLocalPackage
    let core : CoreState :=
      { st.core with updaterComponentsDeps := st.core.updaterComponentsDeps ++ localComponents }
    let localReplaceMes : List (String × Component) :=
      localComponents.foldl (fun hash component =>
        if st.replaceMes.contains component.name then hashInsert hash component.name component
        else hash) []
    let stored := storeReplacedComponents
      { components := st.data.components ++ localReplaceMes,
        componentsToReplace := core.componentsToReplace,
        replacementDependencyComponents := core.replacementDependencyComponents }
      st.data.replacementToExchangeables
    let core : CoreState :=
      { core with componentsToReplace := stored.componentsToReplace,
                  replacementDependencyComponents := stored.replacementDependencyComponents }
    fetchUpdaterPackagesFinish ext core (st.data.components.map (fun entry => entry.2))

/-! ## Essential and forced update gate -/

/-- The loop of `fetchPackagesTree` over the catalog in package-manager mode
(packagemanagercore.cpp:1571); the result is the value of `success` after it. -/
def essentialUpdateLoop (ext : External) (installedPackages : LocalPackagesHash) :
    Bool → List Package → Bool
  | success, [] => success
  | success, update :: rest =>
    let essentialUpdate := toLower (update.essential.getD scFalse) == scTrue
    let forcedUpdate := toLower (update.forcedUpdate.getD scFalse) == scTrue
    if essentialUpdate || forcedUpdate then
      let name := update.name
      if essentialUpdate && !localsContains installedPackages name then
        essentialUpdateLoop ext installedPackages false rest
      else if forcedUpdate && !localsContains installedPackages name then
        essentialUpdateLoop ext installedPackages success rest
      else
        let localPackage := localsValue installedPackages name
        if !ext.packageNeedsUpdate localPackage update then
          essentialUpdateLoop ext installedPackages success rest
        else if localPackage.lastUpdateDate ≥ update.releaseDate then
          essentialUpdateLoop ext installedPackages success rest
        else false
    else essentialUpdateLoop ext installedPackages success rest

/-- The text of the forced-update refusal. -/
def forceUpdateError : String :=
  "There is an important update available, please run the updater first."

/-- Embedding of `PackageManagerCore::fetchPackagesTree` (packagemanagercore.cpp:1563). -/
def fetchPackagesTree (ext : External) (core : CoreState) (packages : List Package)
    (installedPackages : LocalPackagesHash) : Bool × CoreState :=
  let finish (success : Bool) (core : CoreState) : Bool × CoreState :=
    let core := ext.updateDisplayVersions core
    if success && !statusCanceledOrFailed core then (success, setStatus core Status.Success "")
    else (success, core)
  if !isUpdater core && !isReinstaller core then
    match fetchAllPackages ext core packages installedPackages with
    | (success, core) =>
      if statusCanceledOrFailed core then (false, core)
      else if success && isPackageManager core then
        let success := essentialUpdateLoop ext installedPackages success packages
        if !success && !statusCanceledOrFailed core then
          (false, setStatus (ext.updateDisplayVersions core) Status.ForceUpdate forceUpdateError)
        else finish success core
      else finish success core
  else if isUpdater core then
    match fetchUpdaterPackages ext core packages installedPackages with
    | (success, core) => finish success core
  else
    match ext.fetchReinstallerPackages core packages installedPackages with
    | (success, core) => finish success core

/-- The refusal condition of the package-manager gate in the words of the
specification: the package is essential and not installed, or it is essential
or a forced update, installed, in need of an update, and released strictly
later than the local last-update date. -/
def forcesUpdate (ext : External) (installedPackages : LocalPackagesHash) (update : Package) :
    Bool :=
  (flagIsTrue update.essential && !localsContains installedPackages update.name)
    || ((flagIsTrue update.essential || flagIsTrue update.forcedUpdate)
        && localsContains installedPackages update.name
        && ext.packageNeedsUpdate (localsValue installedPackages update.name) update
        && decide ((localsValue installedPackages update.name).lastUpdateDate
            < update.releaseDate))

/-! ## Component lists and install actions -/

/-- The mask `ComponentTypes` of `components()`, one flag per value of
`ComponentType`. -/
structure ComponentTypes where
  root : Bool := false
  descendants : Bool := false
  dependencies : Bool := false
  replacements : Bool := false
  deriving DecidableEq, Repr

/-- Modelled from the spec: `ComponentType::All`, every kind of component (the
enum is declared in a header that is not in this source tree). -/
def ComponentTypes.All : ComponentTypes :=
  { root := true, descendants := true, dependencies := true, replacements := true }

/-- Embedding of `PackageManagerCore::components(mask)` (packagemanagercore.cpp:1897) for
the empty regular expression, which is what every embedded caller passes. -/
def components (ext : External) (core : CoreState) (mask : ComponentTypes) : List Component :=
  let updater := isUpdater core
  let reinstaller := isReinstaller core
  let roots : List Component :=
    if mask.root then
      if updater then core.updaterComponents
      else if reinstaller then core.reinstallerComponents
      else core.rootComponents
    else []
  let replacements : List Component :=
    if mask.replacements then
      if updater then core.updaterDependencyReplacements
      else if reinstaller then core.reinstallerDependencyReplacements
      else core.rootDependencyReplacements
    else []
  let rest : List Component :=
    if updater then
      if mask.dependencies then core.updaterComponentsDeps else []
    else if reinstaller then
      if mask.dependencies then core.reinstallerComponentsDeps else []
    else
      if mask.descendants then (core.rootComponents.map ext.descendantComponents).flatten else []
  roots ++ replacements ++ rest

/-- Embedding of `PackageManagerCore::componentsMarkedForInstallation`
(packagemanagercore.cpp:2027). -/
def componentsMarkedForInstallation (ext : External) (core : CoreState) : List Component :=
  let relevant := components ext core { root := true, descendants := true }
  if isUpdater core || isReinstaller core then
    relevant.filter (fun component => ext.updateRequested component)
  else
    relevant.filter (fun component =>
      ext.isSelectedForInstallation component
        || (component.installed && !ext.uninstallationRequested component))

/-- Modelled from the spec: `clearInstallerCalculator` drops the resolver, the
next `installerCalculator()` is a fresh instance. -/
def clearInstallerCalculator (core : CoreState) : CoreState :=
  { core with installerCalculator := {} }

/-- Modelled from the spec: `clearUninstallerCalculator` drops the resolver,
the next `uninstallerCalculator()` is a fresh instance. -/
def clearUninstallerCalculator (core : CoreState) : CoreState :=
  { core with uninstallerCalculator := {} }

/-- Embedding of `PackageManagerCore::orderedComponentsToInstall`
(packagemanagercore.cpp:2079): the ordered output of the install resolver. -/
def orderedComponentsToInstall (ext : External) (core : CoreState) : List Component :=
  (ext.installResolver core.installerCalculator.appended).2

/-- Embedding of `PackageManagerCore::componentsToUninstall` (packagemanagercore.cpp:2171):
the set of the uninstall resolver. -/
def componentsToUninstall (ext : External) (core : CoreState) : List Component :=
  ext.uninstallResolver core.uninstallerCalculator.appended

/-- The call `d->installerCalculator()->appendComponentsToInstall(list)`:
the result and the core state after it. -/
def appendComponentsToInstall (ext : External) (core : CoreState) (list : List Component) :
    Bool × CoreState :=
  let appended := core.installerCalculator.appended ++ list
  ((ext.installResolver appended).1, { core with installerCalculator := { appended := appended } })

/-- The call `d->uninstallerCalculator()->appendComponentsToUninstall(list)`. -/
def appendComponentsToUninstall (core : CoreState) (list : List Component) : CoreState :=
  { core with uninstallerCalculator :=
      { appended := core.uninstallerCalculator.appended ++ list } }

/-- Embedding of `Component::setInstallAction`. -/
def setInstallAction (core : CoreState) (component : Component) (action : InstallAction) :
    CoreState :=
  { core with installActions := hashInsert core.installActions component action }

/-- Embedding of `Component::installAction`; `none` for a component whose action was never
set. -/
def installAction (core : CoreState) (component : Component) : Option InstallAction :=
  hashValue core.installActions component

/-- Embedding of `PackageManagerCore::componentsToInstallNeedsRecalculation`
(packagemanagercore.cpp:564). The closing `updateUncompressedSize` pass writes
sizes, which `Component` does not carry. -/
def componentsToInstallNeedsRecalculation (ext : External) (core : CoreState) : CoreState :=
  let core := clearInstallerCalculator core
  let core := clearUninstallerCalculator core
  let selectedComponentsToInstall := componentsMarkedForInstallation ext core
  let core :=
    match appendComponentsToInstall ext core selectedComponentsToInstall with
    | (calculated, core) => { core with componentsToInstallCalculated := calculated }
  let componentsToInstall := orderedComponentsToInstall ext core
  let selectedComponentsToUninstall :=
    (components ext core ComponentTypes.All).filter (fun component =>
      ext.uninstallationRequested component
        && !selectedComponentsToInstall.contains component)
  let core := appendComponentsToUninstall core selectedComponentsToUninstall
  let componentsToUninstall := componentsToUninstall ext core
  let core := (components ext core ComponentTypes.All).foldl
    (fun core component =>
      setInstallAction core component
        (if component.installed then InstallAction.KeepInstalled
         else InstallAction.KeepUninstalled)) core
  let core := componentsToUninstall.foldl
    (fun core component => setInstallAction core component InstallAction.Uninstall) core
  componentsToInstall.foldl
    (fun core component => setInstallAction core component InstallAction.Install) core

/-- Embedding of `PackageManagerCore::calculateComponentsToUninstall`
(packagemanagercore.cpp:2143). The call `storeCheckState` saves check states,
which are not part of the core state. -/
def calculateComponentsToUninstall (ext : External) (core : CoreState) : Bool × CoreState :=
  if !isUpdater core && !isReinstaller core then
    let componentsToInstall := orderedComponentsToInstall ext core
    let componentsToUninstall :=
      (components ext core ComponentTypes.All).filter (fun component =>
        ext.uninstallationRequested component && !componentsToInstall.contains component)
    let core := clearUninstallerCalculator core
    (true, appendComponentsToUninstall core componentsToUninstall)
  else (true, core)

/-! ## Component lookup -/

/-- Embedding of `PackageManagerCore::checkableName` (packagemanagercore.cpp:4335). -/
def checkableName (name : String) : String :=
  if !name.data.contains ':' then
    if name.data.contains '-' then name ++ ":" else name
  else name

/-- Embedding of `PackageManagerCore::parseNameAndVersion` (packagemanagercore.cpp:4349);
the result is the pair written to `name` and `version`. -/
def parseNameAndVersion (requirement : String) : String × String :=
  if requirement = "" then ("", "")
  else
    let pos : Option Nat :=
      if requirement.data.contains ':' then some (requirement.data.indexOf ':')
      else if requirement.data.contains '-' then some (requirement.data.indexOf '-')
      else none
    match pos with
    | some pos =>
      (String.mk (requirement.data.take pos), String.mk (requirement.data.drop (pos + 1)))
    | none => (requirement, "")

/-- The static function `componentMatches` (packagemanagercore.cpp:449). -/
def componentMatches (compareVersion : String → String → Int) (component : Component)
    (name : String) (version : String) : Bool :=
  if name = "" || component.name ≠ name then false
  else if version = "" then true
  else versionMatches compareVersion component.version version

/-- Embedding of `PackageManagerCore::componentByName(name, components)`
(packagemanagercore.cpp:1996); `none` is the null pointer. -/
def componentByNameIn (compareVersion : String → String → Int) (name : String)
    (components : List Component) : Option Component :=
  if name = "" then none
  else
    let fixed := parseNameAndVersion name
    components.find? (fun component => componentMatches compareVersion component fixed.1 fixed.2)

/-- Modelled from the spec: `ComponentType::AllNoReplacements`, every kind of
component but the replacements. -/
def ComponentTypes.AllNoReplacements : ComponentTypes :=
  { root := true, descendants := true, dependencies := true }

/-- Embedding of `PackageManagerCore::componentByName(name)` (packagemanagercore.cpp:1984). -/
def componentByName (ext : External) (core : CoreState) (name : String) : Option Component :=
  componentByNameIn ext.compareVersion name (components ext core ComponentTypes.AllNoReplacements)

/-- The match of a component against a parsed requirement: the parsed name is
not empty and is the name of the component, and the parsed version is empty or
is satisfied by the version of the component. -/
def requirementMatches (compareVersion : String → String → Int) (name version : String)
    (component : Component) : Bool :=
  decide (name ≠ "") && decide (component.name = name)
    && (decide (version = "") || versionMatches compareVersion component.version version)

/-- The inner loop of `dependees` (packagemanagercore.cpp:2217) over the
dependencies of `component`: the list `dependees` after it. -/
def dependeesOfComponent (compareVersion : String → String → Int) (target : Component)
    (component : Component) : List Component → List String → List Component
  | dependees, [] => dependees
  | dependees, dependency :: rest =>
    let parsed := parseNameAndVersion dependency
    if componentMatches compareVersion target parsed.1 parsed.2 then
      dependeesOfComponent compareVersion target component (dependees ++ [component]) rest
    else dependeesOfComponent compareVersion target component dependees rest

/-- The outer loop of `dependees` (packagemanagercore.cpp:2215) over the
available components. -/
def dependeesLoop (compareVersion : String → String → Int) (target : Component) :
    List Component → List Component → List Component
  | dependees, [] => dependees
  | dependees, component :: rest =>
    dependeesLoop compareVersion target
      (dependeesOfComponent compareVersion target component dependees component.dependencies)
      rest

/-- Embedding of `PackageManagerCore::dependees` (packagemanagercore.cpp:2204); the
null pointer is `none`. -/
def dependees (ext : External) (core : CoreState) (component : Option Component) :
    List Component :=
  match component with
  | none => []
  | some target =>
    let availableComponents := components ext core ComponentTypes.All
    if availableComponents.isEmpty then []
    else dependeesLoop ext.compareVersion target [] availableComponents

/-- Whether a dependency string parses to a name and a version that the
component `target` matches. -/
def dependsOn (compareVersion : String → String → Int) (target : Component)
    (dependency : String) : Bool :=
  componentMatches compareVersion target (parseNameAndVersion dependency).1
    (parseNameAndVersion dependency).2

/-! ## Rollback -/

/-- What `performOperationThreaded(operation, Operation::Undo)` does with one
operation: it returns a result, throws an `Error`, or throws something else. -/
inductive UndoOutcome where
  | returned (ok : Bool)
  | threwError
  | threwOther
  deriving DecidableEq, Repr

/-- The world outside the core during a rollback. -/
structure RollbackEnv where
  /-- The collaborator `AdminAuthorization::hasAdminRights()`. -/
  hasAdminRights : Bool
  /-- Whether `RemoteClient::instance().setActive(true)` leaves the client
  active. -/
  activationWorks : Bool
  /-- The collaborator `QVariant(value(scRemoveTargetDir)).toBool()`. -/
  removeTargetDir : Bool
  /-- The outcome of undoing an operation. -/
  undo : Operation → UndoOutcome
  /-- Whether `m_localPackageHub->writeToDisk()` throws an `Error`, given the
  names of the recorded packages. -/
  writeToDiskThrows : List String → Bool
  /-- The collaborator `directoryWritable(d->targetDir())`. -/
  targetDirWritable : Bool := true

/-- What a rollback changes: the two operation lists of the core, the state of
the remote client, and a record of the calls made on collaborators. `undone`
lists the operations handed to `performOperationThreaded` for undo, first call
first; `uninstalled` lists the components on which `setUninstalled` was
called; `localPackages` holds the names recorded in the local package hub;
`messages` lists the identifiers of the critical message boxes;
`handedToPersister` lists the operation logs handed to the private
`writeMaintenanceTool`, first call first. -/
structure RollbackState where
  core : CoreState := {}
  remoteClientActive : Bool := false
  undone : List Operation := []
  uninstalled : List Component := []
  localPackages : List String := []
  packagesFileRemoved : Bool := false
  messages : List String := []
  handedToPersister : List (List Operation) := []
  deriving DecidableEq, Repr

/-- Embedding of `PackageManagerCorePrivate::addPerformed` (packagemanagercore_p.h:159). -/
def addPerformed (core : CoreState) (op : Operation) : CoreState :=
  { core with performedOperationsCurrentSession := core.performedOperationsCurrentSession ++ [op] }

/-- Embedding of `PackageManagerCorePrivate::commitSessionOperations`
(packagemanagercore_p.h:163). -/
def commitSessionOperations (core : CoreState) : CoreState :=
  { core with
    performedOperationsOld := core.performedOperationsOld ++ core.performedOperationsCurrentSession,
    performedOperationsCurrentSession := [] }

/-- Embedding of `PackageManagerCore::gainAdminRights` (packagemanagercore.cpp:2735):
`none` when it throws, otherwise the state of the remote client after it. -/
def gainAdminRights (env : RollbackEnv) (core : CoreState) (remoteClientActive : Bool) :
    Bool × Option Unit :=
  if env.hasAdminRights then (remoteClientActive, some ())
  else if core.commandLineInstance then (remoteClientActive, none)
  else if !env.activationWorks then (false, none)
  else (true, some ())

/-- The operation as `rollBackInstallation` hands it to the undo: a Mkdir
operation flagged uninstall-only loses its forced removal when the target
directory is to be removed. -/
def prepareUndo (env : RollbackEnv) (operation : Operation) : Operation :=
  if operation.uninstallOnly && env.removeTargetDir && operation.name == "Mkdir" then
    { operation with forceremoval := some false }
  else operation

/-- The component that `rollBackInstallation` looks up for a component name
(packagemanagercore.cpp:894): the component of that name, or else the replaced
component recorded for the name. -/
def rollBackComponent (ext : External) (core : CoreState) (componentName : String) :
    Option Component :=
  match componentByName ext core (checkableName componentName) with
  | some component => some component
  | none => (hashValue core.componentsToReplace componentName).map (fun pair => pair.2)

/-- The bookkeeping of `rollBackInstallation` for the component of an undone
operation (packagemanagercore.cpp:892 to 901): the component is set
uninstalled and its package leaves the local package hub. -/
def markUninstalled (ext : External) (st : RollbackState) (operation : Operation) :
    RollbackState :=
  if operation.component ≠ "" then
    match rollBackComponent ext st.core operation.component with
    | some component =>
      { st with uninstalled := st.uninstalled ++ [component],
                localPackages := st.localPackages.filter (fun name => name ≠ component.name) }
    | none => st
  else st

/-- The end of the loop body of `rollBackInstallation`, after the local
package hub was written (packagemanagercore.cpp:904 to 911). -/
def finishUndo (st : RollbackState) (becameAdmin : Bool) : RollbackState :=
  let st : RollbackState :=
    if isInstaller st.core && st.localPackages.isEmpty then { st with packagesFileRemoved := true }
    else st
  if becameAdmin then { st with remoteClientActive := false } else st

/-- The part of the loop body of `rollBackInstallation` that follows a
returned undo (packagemanagercore.cpp:892 to 911). -/
def afterUndo (ext : External) (env : RollbackEnv) (st : RollbackState) (operation : Operation)
    (becameAdmin : Bool) : RollbackState :=
  let st := markUninstalled ext st operation
  if env.writeToDiskThrows st.localPackages then
    { st with messages := st.messages ++ ["ElevationError"] }
  else finishUndo st becameAdmin

/-- The computation of `becameAdmin` in `rollBackInstallation`
(packagemanagercore.cpp:876): the state of the remote client after it, and
`none` when `gainAdminRights` throws. -/
def becomeAdmin (env : RollbackEnv) (core : CoreState) (remoteClientActive admin : Bool) :
    Bool × Option Bool :=
  if !remoteClientActive && admin then
    match gainAdminRights env core remoteClientActive with
    | (active, some _) => (active, some true)
    | (active, none) => (active, none)
  else (remoteClientActive, some false)

/-- The loop body of `rollBackInstallation` from the undo on, for the
operation as prepared for the undo. -/
def undoOperation (ext : External) (env : RollbackEnv) (st : RollbackState)
    (prepared : Operation) (becameAdmin : Bool) : RollbackState :=
  let st : RollbackState := { st with undone := st.undone ++ [prepared] }
  match env.undo prepared with
  | UndoOutcome.returned _ => afterUndo ext env st prepared becameAdmin
  | UndoOutcome.threwError => { st with messages := st.messages ++ ["ElevationError"] }
  | UndoOutcome.threwOther => { st with messages := st.messages ++ ["unknown"] }

/-- The body of the while loop of `rollBackInstallation` for the operation
that `takeLast` returned. -/
def rollBackOperation (ext : External) (env : RollbackEnv) (st : RollbackState)
    (operation : Operation) : RollbackState :=
  match becomeAdmin env st.core st.remoteClientActive operation.admin with
  | (active, none) =>
    { st with remoteClientActive := active, messages := st.messages ++ ["ElevationError"] }
  | (active, some becameAdmin) =>
    undoOperation ext env { st with remoteClientActive := active } (prepareUndo env operation)
      becameAdmin

/-- The while loop of `rollBackInstallation` (packagemanagercore.cpp:873).
`pending` is the session list in reverse, so its head is what `takeLast`
returns next; after each pass the session list of the core is what remains. -/
def rollBackLoop (ext : External) (env : RollbackEnv) :
    RollbackState → List Operation → RollbackState
  | st, [] => st
  | st, operation :: pending =>
    let st : RollbackState :=
      { st with core := { st.core with performedOperationsCurrentSession := pending.reverse } }
    rollBackLoop ext env (rollBackOperation ext env st operation) pending

/-- Embedding of `PackageManagerCore::rollBackInstallation` (packagemanagercore.cpp:852).
The title message and the progress registration before the loop reach only the
user interface. -/
def rollBackInstallation (ext : External) (env : RollbackEnv) (st : RollbackState) :
    RollbackState :=
  rollBackLoop ext env st st.core.performedOperationsCurrentSession.reverse

/-- Whether privilege elevation is out of reach during a rollback that starts
in state `st`: the remote client is not active, the process has no admin
rights, and `gainAdminRights` throws because the core is a command line
instance or because the remote client cannot be activated. -/
def elevationDenied (env : RollbackEnv) (st : RollbackState) : Bool :=
  !st.remoteClientActive && !env.hasAdminRights
    && (st.core.commandLineInstance || !env.activationWorks)

/-! ## Maintenance tool -/

/-- The attempt of `PackageManagerCore::writeMaintenanceTool` to gain admin
rights when the target directory is not writable (packagemanagercore.cpp:476):
the state of the remote client after it, and `none` when `gainAdminRights`
throws. -/
def gainForWrite (env : RollbackEnv) (core : CoreState) (remoteClientActive : Bool) :
    Bool × Option Bool :=
  if !env.targetDirWritable then
    match gainAdminRights env core remoteClientActive with
    | (active, some _) => (active, some true)
    | (active, none) => (active, none)
  else (remoteClientActive, some false)

/-- The part of `PackageManagerCore::writeMaintenanceTool` that follows a
returned private `writeMaintenanceTool` (packagemanagercore.cpp:476 to 484). -/
def writeLocalPackages (env : RollbackEnv) (st : RollbackState) : RollbackState :=
  match gainForWrite env st.core st.remoteClientActive with
  | (active, none) =>
    { st with remoteClientActive := active, messages := st.messages ++ ["WriteError"] }
  | (active, some gainedAdminRights) =>
    if env.writeToDiskThrows st.localPackages then
      { st with remoteClientActive := active, messages := st.messages ++ ["WriteError"] }
    else
      { st with
        remoteClientActive := if gainedAdminRights then false else active,
        core := { st.core with needToWriteMaintenanceTool := false } }

/-- Embedding of `PackageManagerCore::writeMaintenanceTool`
(packagemanagercore.cpp:465). -/
def writeMaintenanceTool (ext : External) (env : RollbackEnv) (st : RollbackState) :
    RollbackState :=
  if st.core.disableWriteMaintenanceTool then st
  else if st.core.needToWriteMaintenanceTool then
    let operations :=
      st.core.performedOperationsOld ++ st.core.performedOperationsCurrentSession
    let st : RollbackState :=
      { st with handedToPersister := st.handedToPersister ++ [operations] }
    match ext.privateWriteMaintenanceTool st.core operations with
    | (core, true) =>
      { st with core := core, messages := st.messages ++ ["WriteError"] }
    | (core, false) => writeLocalPackages env { st with core := core }
  else st

/-- Embedding of `PackageManagerCore::finishedWithSuccess`
(packagemanagercore.cpp:3382). -/
def finishedWithSuccess (core : CoreState) : Bool :=
  decide (core.status = Status.Success) || core.needToWriteMaintenanceTool

/-! ## Licenses -/

/-- A license record, `QVariantMap`, as the list of its keys and values, with
a value as its text. -/
abbrev QVariantMap := List (String × String)

/-- Embedding of `PackageManagerCore::addLicenseItem` (packagemanagercore.cpp:2559):
the store `d->m_licenseItems` after the call, for the store before it and the
hash `licenses`. The loop visits the entries of `licenses` in the order of
the list. -/
def addLicenseItem (licenseItems : List (String × QVariantMap)) :
    List (String × QVariantMap) → List (String × QVariantMap)
  | [] => licenseItems
  | (key, value) :: rest =>
    if !hashContains licenseItems key then
      addLicenseItem (hashInsert licenseItems key value) rest
    else addLicenseItem licenseItems rest

/-! ## Silent installation -/

/-- Embedding of `QStringList::removeDuplicates`: the first occurrence of
every string stays, in the order of the list. -/
def removeDuplicates : List String → List String
  | [] => []
  | s :: rest => s :: (removeDuplicates rest).filter (fun t => decide (t ≠ s))

/-- The call `QHash::keys` on the local packages hash: every name once. -/
def localsKeys (locals : LocalPackagesHash) : List String :=
  removeDuplicates (locals.map (fun package => package.name))

/-- The call `QHash::count` on the local packages hash. -/
def localsCount (locals : LocalPackagesHash) : Nat :=
  (localsKeys locals).length

/-- Embedding of `PackageManagerCore::setPackageManager` (packagemanagercore.cpp:3549). -/
def setPackageManager (core : CoreState) : CoreState :=
  { core with magicBinaryMarker := BinaryMarker.packageManager }

/-- What `installSelectedComponentsSilently` calls outside of its own body:
the process check and the local packages of the private class, the fetch of
the remote tree (which reads the repositories), the check of the requested
components against the component model, and the run. -/
structure SilentEnv where
  /-- The collaborator `PackageManagerCorePrivate::runningProcessesFound`. -/
  runningProcessesFound : Bool
  /-- The collaborator `PackageManagerCorePrivate::localInstalledPackages`. -/
  localInstalledPackages : LocalPackagesHash
  /-- The collaborator `PackageManagerCore::fetchRemotePackagesTree`. -/
  fetchRemotePackagesTree : CoreState → Bool × CoreState
  /-- The collaborator `PackageManagerCore::checkComponentsForInstallation`. -/
  checkComponentsForInstallation : CoreState → List String → Bool × CoreState
  /-- The collaborator `PackageManagerCorePrivate::calculateComponentsAndRun`. -/
  calculateComponentsAndRun : CoreState → Bool × CoreState

/-- The result of `installSelectedComponentsSilently`: the returned status,
the core state after the call, and whether `fetchRemotePackagesTree` was
called. -/
structure SilentResult where
  status : Status
  core : CoreState
  fetchedRemoteTree : Bool
  deriving DecidableEq, Repr

/-- The part of `installSelectedComponentsSilently` after the check of the
installed packages (packagemanagercore.cpp:2682). -/
def installSelectedComponents (env : SilentEnv) (core : CoreState)
    (components : List String) : SilentResult :=
  match env.fetchRemotePackagesTree core with
  | (false, core) => { status := core.status, core := core, fetchedRemoteTree := true }
  | (true, core) =>
    match env.checkComponentsForInstallation core components with
    | (true, core) =>
      let core := (env.calculateComponentsAndRun core).2
      { status := core.status, core := core, fetchedRemoteTree := true }
    | (false, core) => { status := core.status, core := core, fetchedRemoteTree := true }

/-- Embedding of `PackageManagerCore::installSelectedComponentsSilently`
(packagemanagercore.cpp:2662); the error is the message of the thrown
`Error`. -/
def installSelectedComponentsSilently (env : SilentEnv) (core : CoreState)
    (components : List String) : Except String SilentResult :=
  if !isInstaller core then
    if env.runningProcessesFound then Except.error "Running processes found."
    else
      let core := setPackageManager core
      let installedPackages := env.localInstalledPackages
      let helperStrList := removeDuplicates (components ++ localsKeys installedPackages)
      if helperStrList.length = localsCount installedPackages then
        Except.ok { status := Status.Canceled, core := core, fetchedRemoteTree := false }
      else Except.ok (installSelectedComponents env core components)
  else Except.ok (installSelectedComponents env core components)

/-! ## Repository generator -/

namespace Repogen

/-- What `main` of repogen reads from the file system: the tests of
`QFileInfo` on a path, and `makeAbsolute`, which asks for the current
directory. -/
structure FileSystem where
  /-- The collaborator `QFileInfo(path).exists()`. -/
  fileExists : String → Bool
  /-- The collaborator `QFileInfo(path).isDir()`. -/
  isDir : String → Bool
  /-- The collaborator `QFileInfo(path).isReadable()`. -/
  isReadable : String → Bool
  /-- The static function `makeAbsolute` (repogen.cpp:79). -/
  makeAbsolute : String → String

/-- The local variables of `main` that the option loop writes: the list
`args` and the values of the options; `verbose` is the flag that `setVerbose`
sets. -/
structure Options where
  args : List String := []
  excludedPackages : List String := []
  replaceSingleComponent : Bool := false
  packagesDir : String := ""
  configDir : String := ""
  redirectUpdateUrl : String := ""
  verbose : Bool := false
  deriving DecidableEq, Repr

/-- The test `startsWith(QLatin1Char('-'))`. -/
def startsWithDash (s : String) : Bool :=
  match s.data with
  | [] => false
  | c :: _ => decide (c = '-')

/-- Embedding of `QString::split(QLatin1Char(','))` on the characters of a string:
empty parts are kept. -/
def splitAtComma : List Char → List (List Char)
  | [] => [[]]
  | c :: cs =>
    if c = ',' then [] :: splitAtComma cs
    else
      match splitAtComma cs with
      | [] => [[c]]
      | part :: parts => (c :: part) :: parts

/-- The body of the option loop of `main` (repogen.cpp:103 to 158) for the list
`args` with the first argument `first` and the arguments `rest` after it; the
error is the value that `main` returns. -/
def optionStep (fs : FileSystem) (st : Options) (first : String) (rest : List String) :
    Except Int Options :=
  if first = "--verbose" || first = "-v" then
    Except.ok { st with args := rest, verbose := true }
  else if first = "--exclude" || first = "-e" then
    match rest with
    | [] => Except.error 1
    | packages :: rest =>
      if startsWithDash packages then Except.error 1
      else
        Except.ok { st with
          excludedPackages := (splitAtComma packages.data).map String.mk, args := rest }
  else if first = "--single" then
    Except.ok { st with args := rest, replaceSingleComponent := true }
  else if first = "-p" || first = "--packages" then
    match rest with
    | [] => Except.error 1
    | dir :: rest =>
      if !fs.fileExists dir then Except.error 1
      else Except.ok { st with packagesDir := dir, args := rest }
  else if first = "-c" || first = "--config" then
    match rest with
    | [] => Except.error 1
    | dir :: rest =>
      if !fs.fileExists dir then Except.error 1
      else if !fs.isDir dir then Except.error 1
      else if !fs.isReadable dir then Except.error 1
      else Except.ok { st with configDir := dir, args := rest }
  else if first = "-u" || first = "--updateurl" then
    match rest with
    | [] => Except.error 1
    | url :: rest => Except.ok { st with redirectUpdateUrl := url, args := rest }
  else Except.error 1

/-- The option loop of `main` (repogen.cpp:103), run for at most `fuel`
iterations; `none` means that the loop is still running after them. -/
def optionLoop (fs : FileSystem) : Nat → Options → Option (Except Int Options)
  | fuel, st =>
    match st.args with
    | [] => some (Except.ok st)
    | first :: rest =>
      if startsWithDash first then
        match fuel with
        | 0 => none
        | fuel + 1 =>
          match optionStep fs st first rest with
          | Except.error code => some (Except.error code)
          | Except.ok st => optionLoop fs fuel st
      else some (Except.ok st)

/-- The check of the number of arguments of `main` (repogen.cpp:161): true
when `main` prints the usage and returns. -/
def tooFewArguments (st : Options) : Bool :=
  (st.packagesDir = "" && st.configDir = "" && decide (st.args.length < 4))
    || ((st.packagesDir = "" || st.configDir = "") && decide (st.args.length < 3))
    || decide (st.args.length < 2)

/-- The directories and the component list that `main` reads from the
positional arguments. -/
structure Positional where
  packagesDir : String
  configDir : String
  repositoryDir : String
  components : List String
  deriving DecidableEq, Repr

/-- The positional part of `main` (repogen.cpp:169 to 189). The access
`args[argsPosition++]` is `List.get?`; `none` is an access past the end of the
list. -/
def positionalArguments (fs : FileSystem) (st : Options) : Option Positional :=
  let argsPosition := 0
  let packages : Option (String × Nat) :=
    if st.packagesDir = "" then
      (st.args.get? argsPosition).map (fun arg => (fs.makeAbsolute arg, argsPosition + 1))
    else some (st.packagesDir, argsPosition)
  match packages with
  | none => none
  | some (packagesDir, argsPosition) =>
    let config : Option (String × Nat) :=
      if st.configDir = "" then
        (st.args.get? argsPosition).map (fun arg => (fs.makeAbsolute arg, argsPosition + 1))
      else some (st.configDir, argsPosition)
    match config with
    | none => none
    | some (configDir, argsPosition) =>
      match st.args.get? argsPosition with
      | none => none
      | some arg =>
        some { packagesDir := packagesDir, configDir := configDir,
               repositoryDir := fs.makeAbsolute arg,
               components := st.args.drop (argsPosition + 1) }

/-- How the argument handling of `main` ends: with a returned value, with an
access past the end of `args`, or with the options and the positional
arguments that the rest of `main` works on. -/
inductive Outcome where
  | returned (code : Int)
  | outOfBounds
  | proceeds (st : Options) (positional : Positional)
  deriving DecidableEq, Repr

/-- Embedding of the argument handling of `main` (repogen.cpp:88 to 189) for the
arguments after the program name; the option loop runs for at most one
iteration per argument. -/
def main (fs : FileSystem) (args : List String) : Option Outcome :=
  match optionLoop fs args.length { args := args } with
  | none => none
  | some (Except.error code) => some (Outcome.returned code)
  | some (Except.ok st) =>
    if tooFewArguments st then some (Outcome.returned 1)
    else
      match positionalArguments fs st with
      | none => some Outcome.outOfBounds
      | some positional => some (Outcome.proceeds st positional)

end Repogen

/-! ## Display versions -/

/-- Embedding of `PackageManagerCore::findDisplayVersion` (packagemanagercore.cpp:4275),
run for at most `fuel` calls; `none` means that the recursion is still running
after them. The hash `components` is a list of names and components,
`versionKey` is the lookup `value(versionKey)`, the hash `visited` is the list
of its keys. Both calls in `updateDisplayVersions` pass an empty `visited`. -/
def findDisplayVersion (components : List (String × Component))
    (versionKey : Component → String) : Nat → String → List String → Option String
  | 0, _, _ => none
  | fuel + 1, componentName, visited =>
    match hashValue components componentName with
    | none => some ""
    | some component =>
      let replaceWith := component.inheritVersion
      let visited := componentName :: visited
      if replaceWith = "" then some (versionKey component)
      else if visited.contains replaceWith then some ""
      else findDisplayVersion components versionKey fuel replaceWith visited

/-- The chain of `inheritVersion` references in the words of the
specification: `InheritChain components start names last` says that `names`
are the names of the chain that starts at `start`, each of them in the map and
each but the last with the next name as its `inheritVersion`, and that `last`
is the component of the last name. -/
inductive InheritChain (components : List (String × Component)) :
    String → List String → Component → Prop where
  | last (name : String) (component : Component)
      (hcomponent : hashValue components name = some component) :
      InheritChain components name [name] component
  | step (name : String) (component : Component) (rest : List String) (last : Component)
      (hcomponent : hashValue components name = some component)
      (hinherit : component.inheritVersion ≠ "")
      (hrest : InheritChain components component.inheritVersion rest last) :
      InheritChain components name (name :: rest) last

/-! ## Install resolver -/

/-- Embedding of `PackageManagerCore::calculateComponentsToInstall`
(packagemanagercore.cpp:2061). The call `storeCheckState` saves check states,
which are not part of the core state. -/
def calculateComponentsToInstall (ext : External) (core : CoreState) : Bool × CoreState :=
  if !core.componentsToInstallCalculated then
    let core := clearInstallerCalculator core
    let selectedComponentsToInstall := componentsMarkedForInstallation ext core
    match appendComponentsToInstall ext core selectedComponentsToInstall with
    | (calculated, core) => (calculated, { core with componentsToInstallCalculated := calculated })
  else (core.componentsToInstallCalculated, core)

/-- Modelled from the spec: the state of the install resolver
(installercalculator.cpp is not in this source tree), the ordered output and
the accumulated error strings. -/
structure ResolverState where
  ordered : List Component := []
  errors : List String := []
  deriving DecidableEq, Repr

/-- Modelled from the spec: the dependency requirements of a component,
"auto-dependencies included": the requirement strings of `dependencies()`
followed by those of `autoDependencies()`. -/
def Component.requirements (component : Component) : List String :=
  component.dependencies ++ component.autoDependencies

/-- Modelled from the spec: the resolution of one dependency requirement. A
requirement that no component of the catalog satisfies, by name and version,
is recorded as an error and the resolution goes on; otherwise the component
that satisfies it is added by `visit`. -/
def resolveDependency (compareVersion : String → String → Int) (catalog : List Component)
    (visit : ResolverState → Component → Option ResolverState)
    (st : Option ResolverState) (dependency : String) : Option ResolverState :=
  match st with
  | none => none
  | some st =>
    match componentByNameIn compareVersion dependency catalog with
    | none => some { st with errors := st.errors ++ ["Cannot find " ++ dependency ++ "."] }
    | some found => visit st found

/-- Modelled from the spec: the install resolver adds one component. A
component that is already in the output is skipped; a component whose
resolution reaches itself again is reported as an error; otherwise the
components that satisfy its dependency requirements, auto-dependencies
included, are added first, then the component itself, so that every
dependency precedes its dependents. The list `path` holds the components
under resolution; `none` means that the resolution is still running after
`fuel` nested calls. -/
def resolveComponent (compareVersion : String → String → Int) (catalog : List Component) :
    Nat → List Component → ResolverState → Component → Option ResolverState
  | 0, _, _, _ => none
  | fuel + 1, path, st, component =>
    if component ∈ st.ordered then some st
    else if component ∈ path then
      some { st with errors := st.errors ++ ["Recursion detected at " ++ component.name ++ "."] }
    else
      match component.requirements.foldl
          (resolveDependency compareVersion catalog
            (resolveComponent compareVersion catalog fuel (component :: path))) (some st) with
      | none => none
      | some st => some { st with ordered := st.ordered ++ [component] }

/-- Modelled from the spec: the install resolver adds one selected component,
with no component under resolution. -/
def resolveSelected (compareVersion : String → String → Int) (catalog : List Component)
    (fuel : Nat) (st : Option ResolverState) (component : Component) : Option ResolverState :=
  match st with
  | none => none
  | some st => resolveComponent compareVersion catalog fuel [] st component

/-- Modelled from the spec: the install resolver on the selected components,
in their order, with one nested call allowed per component and one more. -/
def resolveComponents (compareVersion : String → String → Int) (catalog : List Component)
    (selected : List Component) : Option ResolverState :=
  selected.foldl
    (resolveSelected compareVersion catalog (selected.length + catalog.length + 1)) (some {})

/-- Modelled from the spec: the result of `appendComponentsToInstall` and
`orderedComponentsToInstall()` of the install resolver for the selected
components: whether the resolution recorded no error, and the ordered
output. -/
def installResolver (compareVersion : String → String → Int) (catalog : List Component)
    (selected : List Component) : Bool × List Component :=
  match resolveComponents compareVersion catalog selected with
  | some st => (decide (st.errors = []), st.ordered)
  | none => (false, [])

/-- A topological order in the words of the specification: no component is
listed twice, and every dependency requirement of a listed component,
auto-dependencies included, is satisfied by a component that is listed before
it. -/
def TopologicalOrder (compareVersion : String → String → Int) (catalog : List Component)
    (ordered : List Component) : Prop :=
  ∀ before component after, ordered = before ++ component :: after →
    component ∉ before ∧
    ∀ requirement ∈ component.requirements,
      ∃ found, componentByNameIn compareVersion requirement catalog = some found ∧
        found ∈ before

/-- The edges of the dependency graph in the words of the specification: a
component depends on the component of the catalog that satisfies one of its
dependency requirements, auto-dependencies included. -/
def DependsOn (compareVersion : String → String → Int) (catalog : List Component)
    (component found : Component) : Prop :=
  ∃ requirement ∈ component.requirements,
    componentByNameIn compareVersion requirement catalog = some found

/-- The components that a selection reaches in the dependency graph: the
selected components and, step by step, the components they depend on. -/
def Reachable (compareVersion : String → String → Int) (catalog : List Component)
    (selected : List Component) (component : Component) : Prop :=
  ∃ root ∈ selected, Relation.ReflTransGen (DependsOn compareVersion catalog) root component

/-! ## Sample data -/

/-- Collaborators that accept every package, report every package as in need
of an update, build every tree and leave the core state alone. -/
def sampleExternal : External where
  isValidPackage := fun _ => true
  packageNeedsUpdate := fun _ _ => true
  clearAllComponentLists := fun core => core
  buildComponentTree := fun core _ _ => (true, core)
  updateDisplayVersions := fun core => core
  fetchReinstallerPackages := fun core _ _ => (true, core)
  installResolver := fun selected => (true, selected)
  uninstallResolver := fun selected => selected
  descendantComponents := fun _ => []
  uninstallationRequested := fun c => c.installed && decide (c.name = "old")
  isSelectedForInstallation := fun c => !c.installed
  updateRequested := fun _ => false
  compareVersion := KDUpdater.compareVersion
  privateWriteMaintenanceTool := fun core _ => (core, false)
  allowUnstableComponents := false
  shaMismatchPackages := []
  loadComponentScript := fun component => Except.ok component

/-- A core in package-manager mode with status Running. -/
def samplePackageManagerCore : CoreState :=
  { status := Status.Running, magicBinaryMarker := BinaryMarker.packageManager }

/-- An essential package. -/
def sampleEssentialPackage : Package :=
  { name := "tool", version := "2.0", essential := some "True" }

/-- A normal update. -/
def sampleNormalPackage : Package :=
  { name := "app", version := "1.1" }

/-- Collaborators as in `sampleExternal`, with an uninstall resolver that also
returns the component named new. -/
def sampleOverlapExternal : External :=
  { sampleExternal with
    uninstallResolver := fun selected => ({ name := "new" } : Component) :: selected }

/-- A core in package-manager mode with three root components and one
replacement component; the component named old has its uninstallation
requested, the component named new is selected for installation. -/
def sampleTreeCore : CoreState :=
  { status := Status.Running, magicBinaryMarker := BinaryMarker.packageManager,
    rootComponents := [{ name := "new" }, { name := "old", installed := true },
      { name := "keep", installed := true }],
    rootDependencyReplacements := [{ name := "gone", installed := true }] }

/-- A rollback world without admin rights in which the remote client cannot
be activated; every undo returns true. -/
def sampleDeniedEnv : RollbackEnv where
  hasAdminRights := false
  activationWorks := false
  removeTargetDir := false
  undo := fun _ => UndoOutcome.returned true
  writeToDiskThrows := fun _ => false

/-- A rollback world like `sampleDeniedEnv` in which the process has admin
rights. -/
def sampleAdminEnv : RollbackEnv :=
  { sampleDeniedEnv with hasAdminRights := true }

/-- A rollback state with one committed operation in the old log and two
operations performed in the current session, the first of which needs admin
rights. -/
def sampleSessionState : RollbackState :=
  { core :=
      { status := Status.Running,
        performedOperationsOld := [{ name := "Extract", component := "base" }],
        performedOperationsCurrentSession :=
          [{ name := "Copy", admin := true, component := "app" },
           { name := "Mkdir", component := "app" }] },
    localPackages := ["base", "app"] }

/-- A remote package with the explicit tree-name `tools.new`. -/
def sampleMovedRemote : Package :=
  { name := "viewer", treeName := "tools.new", version := "2.0" }

/-- The installed package of the same name with the tree-name `tools.old`. -/
def sampleMovedLocal : LocalPackage :=
  { name := "viewer", treeName := "tools.old", version := "1.0" }

/-- Another installed package, without a tree-name. -/
def sampleOtherLocal : LocalPackage :=
  { name := "editor", version := "1.0" }

/-- A remote package without a tree-name; its key is its name `docs`. -/
def sampleDocsRemote : Package :=
  { name := "docs", version := "3.0" }

/-- An installed package of another name whose tree-name is `docs`. -/
def sampleManualLocal : LocalPackage :=
  { name := "manual", treeName := "docs", version := "1.0" }

/-- An installed package named `core` with the tree-name `base`. -/
def sampleCoreLocal : LocalPackage :=
  { name := "core", treeName := "base", version := "1.0" }

/-- An installed package named `base` with the tree-name `platform`. -/
def sampleBaseLocal : LocalPackage :=
  { name := "base", treeName := "platform", version := "1.0" }

/-- A component that is to be replaced, with its data. -/
def sampleLegacyComponent : Component :=
  { name := "legacy", version := "1.0", installedVersion := "1.0", installed := true }

/-- A first component that replaces `legacy`. -/
def sampleSuccessor : Component :=
  { name := "successor", version := "2.0" }

/-- A second component that replaces `legacy`. -/
def sampleRival : Component :=
  { name := "rival", version := "2.0" }

/-- A working set with the three components and empty replacement records. -/
def sampleReplaceState : ReplaceState :=
  { components := [("legacy", sampleLegacyComponent), ("successor", sampleSuccessor),
      ("rival", sampleRival)] }

/-- Collaborators as in `sampleExternal`, with an install resolver that puts
the component named old, a dependency, in front of the selected components. -/
def sampleDependencyExternal : External :=
  { sampleExternal with
    installResolver := fun selected =>
      (true, ({ name := "old", installed := true } : Component) :: selected) }

/-- A core in updater mode whose uninstall resolver holds one component. -/
def sampleUpdaterCore : CoreState :=
  { status := Status.Running, magicBinaryMarker := BinaryMarker.updater,
    updaterComponents := [{ name := "old", installed := true }],
    uninstallerCalculator := { appended := [{ name := "stale", installed := true }] } }

/-- A rollback world without admin rights in which the remote client can be
activated, the target directory is to be removed, and the undo of an operation
that needs admin rights throws an `Error`. -/
def sampleThrowingEnv : RollbackEnv where
  hasAdminRights := false
  activationWorks := true
  removeTargetDir := true
  undo := fun operation =>
    if operation.admin then UndoOutcome.threwError else UndoOutcome.returned true
  writeToDiskThrows := fun _ => false

/-- A rollback state with an inactive remote client and two operations
performed in the current session, the second of which needs admin rights. -/
def sampleElevatedState : RollbackState :=
  { core :=
      { status := Status.Running,
        performedOperationsCurrentSession :=
          [{ name := "Copy", component := "app" },
           { name := "Registry", admin := true, component := "app" }] },
    localPackages := ["app"] }

/-- The Mkdir operation that creates the target directory, flagged
uninstall-only, with forced removal. -/
def sampleTargetMkdir : Operation :=
  { name := "Mkdir", uninstallOnly := true, forceremoval := some true }

/-- A rollback world in which writing the local package hub to disk throws an
`Error`. -/
def sampleFailingWriteEnv : RollbackEnv where
  hasAdminRights := true
  activationWorks := true
  removeTargetDir := false
  undo := fun _ => UndoOutcome.returned true
  writeToDiskThrows := fun _ => true

/-- A state after a run in which every operation succeeded: the status is
Success, the maintenance tool is still to be written, one operation is in the
old log and one in the session list. -/
def sampleFinishedState : RollbackState :=
  { core :=
      { status := Status.Success, needToWriteMaintenanceTool := true,
        performedOperationsOld := [{ name := "Extract", component := "base" }],
        performedOperationsCurrentSession := [{ name := "Copy", component := "app" }] },
    localPackages := ["base", "app"] }

/-- The component of the documentation of `componentByName`, in version 4.6. -/
def sampleQtComponent : Component :=
  { name := "org.qt-project.sdk.qt", version := "4.6" }

/-- A component without a name, in version 1.0. -/
def sampleNamelessComponent : Component :=
  { name := "", version := "1.0" }

/-- A core in updater mode with status Running. -/
def sampleRunningUpdaterCore : CoreState :=
  { status := Status.Running, magicBinaryMarker := BinaryMarker.updater }

/-- The installed packages named tool and app, last updated on day 10. -/
def sampleInstalledPackages : LocalPackagesHash :=
  [{ name := "tool", version := "1.0", lastUpdateDate := 10 },
   { name := "app", version := "1.0", lastUpdateDate := 10 }]

/-- A component with the name base in version 1.0. -/
def sampleBase : Component :=
  { name := "base", version := "1.0" }

/-- A component that names the component base in two of its dependency
strings. -/
def sampleDocs : Component :=
  { name := "docs", version := "1.0", dependencies := ["base", "base:1.0"] }

/-- A core in package-manager mode with the root components base and docs. -/
def sampleDependeesCore : CoreState :=
  { status := Status.Running, magicBinaryMarker := BinaryMarker.packageManager,
    rootComponents := [sampleBase, sampleDocs] }

/-- A maintenance tool without running processes whose local packages are
app and tool; the remote tree cannot be fetched. -/
def sampleSilentEnv : SilentEnv where
  runningProcessesFound := false
  localInstalledPackages :=
    [{ name := "app", version := "1.0" }, { name := "tool", version := "1.0" }]
  fetchRemotePackagesTree := fun core => (false, setStatus core Status.Failure "offline")
  checkComponentsForInstallation := fun core _ => (false, core)
  calculateComponentsAndRun := fun core => (false, core)

/-- A file system in which every path is a readable directory and every path
is absolute. -/
def sampleFileSystem : Repogen.FileSystem where
  fileExists := fun _ => true
  isDir := fun _ => true
  isReadable := fun _ => true
  makeAbsolute := fun path => path

/-- The arguments of the usage example of repogen. -/
def sampleArguments : List String :=
  ["-p", "../examples/packages", "-c", "../examples/config", "-u",
   "http://www.some-server.com:8080", "repository/", "com.nokia.sdk"]

/-- A catalog with a forced update of a package that is not installed and an
essential update of tool, released on day 20. -/
def sampleGateCatalog : List Package :=
  [{ name := "extra", version := "1.0", forcedUpdate := some "true", releaseDate := 20 },
   { name := "tool", version := "2.0", essential := some "true", releaseDate := 20 }]

/-- An essential update of tool, released on day 20, after the last update of
the installed tool. -/
def sampleLaterUpdate : Package :=
  { name := "tool", version := "2.0", essential := some "true", releaseDate := 20 }

/-- An essential update of tool, released on day 10, the day of the last
update of the installed tool. -/
def sampleSameDayUpdate : Package :=
  { name := "tool", version := "2.0", essential := some "true", releaseDate := 10 }

/-- A component map in which a and b inherit their version from each other,
c inherits from d, and d has a version of its own. -/
def sampleVersionMap : List (String × Component) :=
  [("a", { name := "a", version := "1.0", inheritVersion := "b" }),
   ("b", { name := "b", version := "2.0", inheritVersion := "a" }),
   ("c", { name := "c", version := "3.0", inheritVersion := "d" }),
   ("d", { name := "d", version := "4.0" })]

/-- The component lib, without a requirement. -/
def sampleLib : Component :=
  { name := "lib", version := "2.0" }

/-- The component tools, which needs lib. -/
def sampleTools : Component :=
  { name := "tools", version := "1.2", dependencies := ["lib"] }

/-- The component app, which needs lib and tools. -/
def sampleApp : Component :=
  { name := "app", version := "1.0", dependencies := ["lib", "tools:>=1.0"] }

/-- The component plugin, which needs tools and has app as its
auto-dependency. -/
def samplePlugin : Component :=
  { name := "plugin", version := "0.9", dependencies := ["tools"], autoDependencies := ["app"] }

/-- A catalog in which plugin comes first and lib last. -/
def sampleCatalog : List Component :=
  [samplePlugin, sampleApp, sampleTools, sampleLib]

/-- A rank on the components of `sampleCatalog` that falls along every edge of
the dependency graph. -/
def sampleRank (component : Component) : Nat :=
  component.requirements.length + component.autoDependencies.length

/-- Collaborators as in `sampleExternal`, with the install resolver of the
specification over `sampleCatalog`. -/
def sampleResolverExternal : External :=
  { sampleExternal with
    installResolver := installResolver KDUpdater.compareVersion sampleCatalog }

/-- A core in installer mode whose root components are those of
`sampleCatalog`; none of them is installed, so all of them are selected,
plugin first. -/
def sampleResolverCore : CoreState :=
  { status := Status.Running, magicBinaryMarker := BinaryMarker.installer,
    rootComponents := sampleCatalog }

/-- A catalog in which ping needs pong and pong needs ping, and solo needs a
component that the catalog does not hold. -/
def sampleCyclicCatalog : List Component :=
  [{ name := "ping", version := "1.0", dependencies := ["pong"] },
   { name := "pong", version := "1.0", dependencies := ["ping"] },
   { name := "solo", version := "1.0", dependencies := ["missing"] }]

/-! ## Theorems -/

/-- C1: with the numeric component-by-component `compareVersion`,
`versionMatches` accepts version 2.0 for the requirement `>=1.5`, rejects
version 1.0 for `>=1.5`, and accepts version 1.5 for `=1.5`. -/
theorem versionMatches_spec_examples :
    versionMatches KDUpdater.compareVersion "2.0" ">=1.5" = true ∧
    versionMatches KDUpdater.compareVersion "1.0" ">=1.5" = false ∧
    versionMatches KDUpdater.compareVersion "1.5" "=1.5" = true := by
  refine ⟨?_, ?_, ?_⟩ <;> decide

/-- C2 (evaluation at the failing input): version 1.05 and requirement version
1.5 compare as equal under `compareVersion`, yet `versionMatches` rejects 1.05
for each of `=1.5`, `>=1.5` and `<=1.5`, because the equality branch compares
the two strings character by character. -/
theorem versionMatches_equal_is_textual :
    KDUpdater.compareVersion "1.5" "1.05" = 0 ∧
    versionMatches KDUpdater.compareVersion "1.05" "=1.5" = false ∧
    versionMatches KDUpdater.compareVersion "1.05" ">=1.5" = false ∧
    versionMatches KDUpdater.compareVersion "1.05" "<=1.5" = false := by
  refine ⟨?_, ?_, ?_, ?_⟩ <;> decide


/-- A requirement version that does not start with a comparator character has
an empty first capture group. -/
theorem compEx_plain (r : String) (h : compExExactMatch r = false) :
    r.data.takeWhile isComparatorChar = [] ∧ r.data.dropWhile isComparatorChar = r.data := by
  unfold compExExactMatch at h
  cases hr : r.data with
  | nil => simp
  | cons c cs =>
    rw [hr] at h
    simp only [] at h
    simp [List.takeWhile, List.dropWhile, h]

/-- Whatever the comparison function is: when it deems the requirement version
and the version equal while the two strings differ, `versionMatches` rejects
the version for the comparators `=`, `>=` and `<=`. -/
theorem versionMatches_equal_needs_same_text (cmp : String → String → Int) (v r : String)
    (hplain : compExExactMatch r = false) (hne : v ≠ r) (hcmp : cmp r v = 0) :
    versionMatches cmp v ("=" ++ r) = false ∧
    versionMatches cmp v (">=" ++ r) = false ∧
    versionMatches cmp v ("<=" ++ r) = false := by
  obtain ⟨ht, hd⟩ := compEx_plain r hplain
  have hv : (v == r) = false := by simpa using hne
  refine ⟨?_, ?_, ?_⟩ <;>
    simp [versionMatches, compExExactMatch, compExCap1, compExCap2, String.data_append,
      List.takeWhile, List.dropWhile, isComparatorChar, ht, hd, hcmp, hv, hne]

/-! ### Essential update gate -/

/-- Once `success` is false the loop of `fetchPackagesTree` keeps it false. -/
theorem essentialUpdateLoop_false (ext : External) (installedPackages : LocalPackagesHash)
    (packages : List Package) :
    essentialUpdateLoop ext installedPackages false packages = false := by
  induction packages with
  | nil => rfl
  | cons update rest ih =>
    simp only [essentialUpdateLoop]
    split_ifs <;> first | rfl | exact ih

/-- An essential package that is not installed makes the loop end with
`success` false, wherever it stands in the catalog. -/
theorem essentialUpdateLoop_of_essential (ext : External) (installedPackages : LocalPackagesHash)
    (packages : List Package) (a : Package) (ha : a ∈ packages)
    (hess : toLower (a.essential.getD scFalse) = scTrue)
    (hnot : localsContains installedPackages a.name = false) (success : Bool) :
    essentialUpdateLoop ext installedPackages success packages = false := by
  induction packages generalizing success with
  | nil => cases ha
  | cons update rest ih =>
    rcases List.mem_cons.mp ha with h | h
    · subst h
      simp only [essentialUpdateLoop, hess, hnot, beq_self_eq_true, Bool.true_or, Bool.not_false,
        Bool.and_self, if_true]
      exact essentialUpdateLoop_false ext installedPackages rest
    · simp only [essentialUpdateLoop]
      split_ifs <;> first | rfl | exact ih h _

/-- C3: in package-manager mode, when `fetchAllPackages` has succeeded (it
returned true and the status is neither canceled nor failed) and the catalog
holds an essential package that is not installed, `fetchPackagesTree` returns
false and sets the status ForceUpdate, at every position of that package and
for every other content of the catalog. -/
theorem fetchPackagesTree_essential_forceUpdate (ext : External) (core core' : CoreState)
    (packages : List Package) (installedPackages : LocalPackagesHash) (a : Package)
    (hmode : core.magicBinaryMarker = BinaryMarker.packageManager)
    (hfetch : fetchAllPackages ext core packages installedPackages = (true, core'))
    (hmode' : core'.magicBinaryMarker = BinaryMarker.packageManager)
    (hstatus : statusCanceledOrFailed core' = false)
    (ha : a ∈ packages)
    (hess : toLower (a.essential.getD scFalse) = scTrue)
    (hnot : localsContains installedPackages a.name = false) :
    (fetchPackagesTree ext core packages installedPackages).1 = false ∧
    (fetchPackagesTree ext core packages installedPackages).2.status = Status.ForceUpdate ∧
    (fetchPackagesTree ext core packages installedPackages).2.error = forceUpdateError := by
  have hloop := essentialUpdateLoop_of_essential ext installedPackages packages a ha hess hnot true
  simp [fetchPackagesTree, isUpdater, isReinstaller, isPackageManager, hmode, hmode', hfetch,
    hstatus, hloop, setStatus]

/-- Witness for C3: the catalog holds a normal update followed by an essential
package, nothing is installed. -/
theorem fetchPackagesTree_essential_forceUpdate_witness :
    (fetchPackagesTree sampleExternal samplePackageManagerCore
      [sampleNormalPackage, sampleEssentialPackage] []).1 = false ∧
    (fetchPackagesTree sampleExternal samplePackageManagerCore
      [sampleNormalPackage, sampleEssentialPackage] []).2.status = Status.ForceUpdate ∧
    (fetchPackagesTree sampleExternal samplePackageManagerCore
      [sampleNormalPackage, sampleEssentialPackage] []).2.error = forceUpdateError :=
  fetchPackagesTree_essential_forceUpdate sampleExternal samplePackageManagerCore
    samplePackageManagerCore [sampleNormalPackage, sampleEssentialPackage] []
    sampleEssentialPackage (by rfl) (by decide) (by rfl) (by decide) (by decide) (by decide)
    (by decide)

/-! ### Containers -/

/-- Lookup after a removal. -/
theorem hashValue_hashTake {K V : Type} [DecidableEq K] (m : List (K × V)) (key key' : K) :
    hashValue (hashTake m key) key' = if key = key' then none else hashValue m key' := by
  induction m with
  | nil => simp [hashTake, hashValue]
  | cons e rest ih =>
    obtain ⟨k, v⟩ := e
    by_cases hk : k = key
    · subst hk
      simp only [hashTake, if_true, ih, hashValue]
      by_cases hk' : k = key' <;> simp [hk']
    · simp only [hashTake, hk, if_false, hashValue, ih]
      by_cases hk' : k = key'
      · subst hk'
        simp [Ne.symm hk]
      · simp [hk']

/-- Lookup after an insertion. -/
theorem hashValue_hashInsert {K V : Type} [DecidableEq K] (m : List (K × V)) (key key' : K)
    (v : V) :
    hashValue (hashInsert m key v) key' = if key = key' then some v else hashValue m key' := by
  by_cases h : key = key' <;> simp [hashInsert, hashValue, hashValue_hashTake, h]

/-! ### Install actions -/

/-- Setting the action of every component of a list touches only the action
store. -/
theorem foldl_setInstallAction (f : Component → InstallAction) (l : List Component)
    (core : CoreState) :
    l.foldl (fun core component => setInstallAction core component (f component)) core =
      { core with
        installActions :=
          l.foldl (fun m component => hashInsert m component (f component))
            core.installActions } := by
  induction l generalizing core with
  | nil => rfl
  | cons c rest ih =>
    rw [List.foldl_cons, ih]
    rfl

/-- The action store after setting the action of every component of a list. -/
theorem hashValue_foldl_hashInsert (f : Component → InstallAction) (l : List Component)
    (m : List (Component × InstallAction)) (c : Component) :
    hashValue (l.foldl (fun m component => hashInsert m component (f component)) m) c =
      if c ∈ l then some (f c) else hashValue m c := by
  induction l generalizing m with
  | nil => simp
  | cons d rest ih =>
    simp only [List.foldl, ih, hashValue_hashInsert, List.mem_cons]
    by_cases h1 : c ∈ rest
    · simp [h1]
    · by_cases h2 : d = c
      · subst h2
        simp [h1]
      · have h3 : ¬ c = d := fun h => h2 h.symm
        simp [h1, h2, h3]

/-- C4: after `componentsToInstallNeedsRecalculation`, whatever the two
resolvers return, a component of the install resolver's ordered output has the
action Install (also when it is in the uninstall set), any other component of
the uninstall set has the action Uninstall, and any other component of
`components(All)` has KeepInstalled when installed and KeepUninstalled when
not. -/
theorem componentsToInstallNeedsRecalculation_actions (ext : External) (core : CoreState)
    (c : Component) :
    (c ∈ orderedComponentsToInstall ext (componentsToInstallNeedsRecalculation ext core) →
      installAction (componentsToInstallNeedsRecalculation ext core) c
        = some InstallAction.Install) ∧
    (c ∉ orderedComponentsToInstall ext (componentsToInstallNeedsRecalculation ext core) →
      c ∈ componentsToUninstall ext (componentsToInstallNeedsRecalculation ext core) →
      installAction (componentsToInstallNeedsRecalculation ext core) c
        = some InstallAction.Uninstall) ∧
    (c ∉ orderedComponentsToInstall ext (componentsToInstallNeedsRecalculation ext core) →
      c ∉ componentsToUninstall ext (componentsToInstallNeedsRecalculation ext core) →
      c ∈ components ext (componentsToInstallNeedsRecalculation ext core) ComponentTypes.All →
      installAction (componentsToInstallNeedsRecalculation ext core) c
        = some (if c.installed then InstallAction.KeepInstalled
                else InstallAction.KeepUninstalled)) := by
  simp only [componentsToInstallNeedsRecalculation, foldl_setInstallAction, installAction,
    orderedComponentsToInstall, componentsToUninstall, appendComponentsToInstall,
    appendComponentsToUninstall, clearInstallerCalculator, clearUninstallerCalculator,
    hashValue_foldl_hashInsert, components, isUpdater, isReinstaller, List.nil_append]
  refine ⟨?_, ?_, ?_⟩
  · intro h
    rw [if_pos h]
  · intro h1 h2
    rw [if_neg h1, if_pos h2]
  · intro h1 h2 h3
    rw [if_neg h1, if_neg h2, if_pos h3]

/-- Witness for C4: the component named new is in the output of both
resolvers and gets Install, the component named old gets Uninstall, the
replacement component named gone is in neither output and keeps its installed
state. -/
theorem componentsToInstallNeedsRecalculation_actions_witness :
    installAction (componentsToInstallNeedsRecalculation sampleOverlapExternal sampleTreeCore)
      { name := "new" } = some InstallAction.Install ∧
    installAction (componentsToInstallNeedsRecalculation sampleOverlapExternal sampleTreeCore)
      { name := "old", installed := true } = some InstallAction.Uninstall ∧
    installAction (componentsToInstallNeedsRecalculation sampleOverlapExternal sampleTreeCore)
      { name := "gone", installed := true } = some InstallAction.KeepInstalled :=
  ⟨(componentsToInstallNeedsRecalculation_actions sampleOverlapExternal sampleTreeCore
      { name := "new" }).1 (by decide),
   (componentsToInstallNeedsRecalculation_actions sampleOverlapExternal sampleTreeCore
      { name := "old", installed := true }).2.1 (by decide) (by decide),
   (componentsToInstallNeedsRecalculation_actions sampleOverlapExternal sampleTreeCore
      { name := "gone", installed := true }).2.2 (by decide) (by decide) (by decide)⟩

/-! ### Input of the uninstall resolver -/

/-- C10: outside updater and reinstaller mode, `calculateComponentsToUninstall`
hands to a fresh uninstall resolver exactly the components of
`components(All)` that have their uninstallation requested and are not in the
ordered output of the install resolver, in the order of `components(All)`; no
component of that output is among them. -/
theorem calculateComponentsToUninstall_input (ext : External) (core : CoreState)
    (hupdater : isUpdater core = false) (hreinstaller : isReinstaller core = false) :
    (calculateComponentsToUninstall ext core).2.uninstallerCalculator.appended =
      (components ext core ComponentTypes.All).filter (fun component =>
        ext.uninstallationRequested component
          && !(orderedComponentsToInstall ext core).contains component) ∧
    List.Sublist (calculateComponentsToUninstall ext core).2.uninstallerCalculator.appended
      (components ext core ComponentTypes.All) ∧
    ∀ component ∈ (calculateComponentsToUninstall ext core).2.uninstallerCalculator.appended,
      component ∉ orderedComponentsToInstall ext core := by
  have happended : (calculateComponentsToUninstall ext core).2.uninstallerCalculator.appended =
      (components ext core ComponentTypes.All).filter (fun component =>
        ext.uninstallationRequested component
          && !(orderedComponentsToInstall ext core).contains component) := by
    simp [calculateComponentsToUninstall, hupdater, hreinstaller, appendComponentsToUninstall,
      clearUninstallerCalculator]
  refine ⟨happended, ?_, ?_⟩
  · rw [happended]
    exact List.filter_sublist _
  · intro component hmem
    rw [happended] at hmem
    have h := (List.mem_filter.mp hmem).2
    simp only [Bool.and_eq_true, Bool.not_eq_true'] at h
    intro hin
    have hcontains : (orderedComponentsToInstall ext core).contains component = true :=
      List.elem_eq_true_of_mem hin
    rw [h.2] at hcontains
    exact Bool.false_ne_true hcontains

/-- Witness for C10: in package-manager mode with the components named new
and keep in the install resolver, only the component named old is handed to
the uninstall resolver. -/
theorem calculateComponentsToUninstall_input_witness :
    (calculateComponentsToUninstall sampleExternal
      { sampleTreeCore with
        installerCalculator :=
          { appended := [{ name := "new" }, { name := "keep", installed := true }] } }
      ).2.uninstallerCalculator.appended = [{ name := "old", installed := true }] :=
  (calculateComponentsToUninstall_input sampleExternal
    { sampleTreeCore with
      installerCalculator :=
        { appended := [{ name := "new" }, { name := "keep", installed := true }] } }
    (by decide) (by decide)).1.trans (by decide)

/-! ### Rollback -/

/-- The bookkeeping for the component of an undone operation leaves the core,
the undo record and the remote client alone. -/
theorem markUninstalled_frame (ext : External) (st : RollbackState) (operation : Operation) :
    (markUninstalled ext st operation).core = st.core ∧
    (markUninstalled ext st operation).undone = st.undone ∧
    (markUninstalled ext st operation).remoteClientActive = st.remoteClientActive := by
  unfold markUninstalled
  split_ifs
  · cases rollBackComponent ext st.core operation.component <;> exact ⟨rfl, rfl, rfl⟩
  · exact ⟨rfl, rfl, rfl⟩

/-- The end of the loop body leaves the core and the undo record alone, and
changes the remote client only by dropping rights that were gained. -/
theorem finishUndo_frame (st : RollbackState) (becameAdmin : Bool) :
    (finishUndo st becameAdmin).core = st.core ∧
    (finishUndo st becameAdmin).undone = st.undone ∧
    (finishUndo st false).remoteClientActive = st.remoteClientActive := by
  unfold finishUndo
  refine ⟨?_, ?_, ?_⟩ <;> split_ifs <;> first | rfl | contradiction

/-- The steps after a returned undo leave the core and the undo record alone,
and change the remote client only by dropping rights that were gained. -/
theorem afterUndo_frame (ext : External) (env : RollbackEnv) (st : RollbackState)
    (operation : Operation) (becameAdmin : Bool) :
    (afterUndo ext env st operation becameAdmin).core = st.core ∧
    (afterUndo ext env st operation becameAdmin).undone = st.undone ∧
    (afterUndo ext env st operation false).remoteClientActive = st.remoteClientActive := by
  have hm := markUninstalled_frame ext st operation
  have hf := finishUndo_frame (markUninstalled ext st operation)
  simp only [afterUndo]
  refine ⟨?_, ?_, ?_⟩ <;> split_ifs
  · exact hm.1
  · exact (hf becameAdmin).1.trans hm.1
  · exact hm.2.1
  · exact (hf becameAdmin).2.1.trans hm.2.1
  · exact hm.2.2
  · exact (hf false).2.2.trans hm.2.2

/-- The undo of one operation records it, leaves the core alone, and changes
the remote client only by dropping rights that were gained. -/
theorem undoOperation_frame (ext : External) (env : RollbackEnv) (st : RollbackState)
    (prepared : Operation) (becameAdmin : Bool) :
    (undoOperation ext env st prepared becameAdmin).core = st.core ∧
    (undoOperation ext env st prepared becameAdmin).undone = st.undone ++ [prepared] ∧
    (undoOperation ext env st prepared false).remoteClientActive = st.remoteClientActive := by
  simp only [undoOperation]
  refine ⟨?_, ?_, ?_⟩ <;> split <;>
    first
      | rfl
      | exact (afterUndo_frame ext env _ _ _).1
      | exact (afterUndo_frame ext env _ _ _).2.1
      | exact (afterUndo_frame ext env _ _ false).2.2

/-- The outcome of the attempt to become admin: it throws exactly when the
operation needs admin rights and elevation is out of reach, and then the
remote client stays inactive; rights are gained only when elevation is within
reach; otherwise the remote client is left alone. -/
theorem becomeAdmin_cases (env : RollbackEnv) (core : CoreState) (active admin : Bool) :
    let denied := !active && !env.hasAdminRights && (core.commandLineInstance || !env.activationWorks)
    ((denied && admin) = true ∧ becomeAdmin env core active admin = (active, none)) ∨
    ((denied && admin) = false ∧
      (!env.hasAdminRights && (core.commandLineInstance || !env.activationWorks)) = false ∧
      ∃ active', becomeAdmin env core active admin = (active', some true)) ∨
    ((denied && admin) = false ∧ becomeAdmin env core active admin = (active, some false)) := by
  simp only [becomeAdmin, gainAdminRights]
  cases active <;> cases admin <;> cases env.hasAdminRights <;>
    cases core.commandLineInstance <;> cases env.activationWorks <;> simp

/-- One pass of the rollback loop leaves the core alone, hands the operation
to the undo unless it needs admin rights while elevation is out of reach, and
does not change whether elevation is out of reach. -/
theorem rollBackOperation_step (ext : External) (env : RollbackEnv) (st : RollbackState)
    (operation : Operation) :
    (rollBackOperation ext env st operation).core = st.core ∧
    (rollBackOperation ext env st operation).undone =
      st.undone ++
        (if elevationDenied env st && operation.admin then [] else [prepareUndo env operation]) ∧
    elevationDenied env (rollBackOperation ext env st operation) = elevationDenied env st := by
  rcases becomeAdmin_cases env st.core st.remoteClientActive operation.admin with
    ⟨hd, hb⟩ | ⟨hd, hden, active', hb⟩ | ⟨hd, hb⟩
  · simp only [rollBackOperation, hb, elevationDenied, hd]
    simp
  · have hf := undoOperation_frame ext env { st with remoteClientActive := active' }
      (prepareUndo env operation) true
    simp only [rollBackOperation, hb, elevationDenied, hd, hf.1, hf.2.1, Bool.and_assoc, hden]
    simp
  · have hf := undoOperation_frame ext env { st with remoteClientActive := st.remoteClientActive }
      (prepareUndo env operation) false
    simp only [rollBackOperation, hb, elevationDenied, hd, hf.1, hf.2.1, hf.2.2]
    simp

/-- The rollback loop: the session list ends empty, the old log is untouched,
and the undo record grows by the pending operations in order, without those
that need admin rights while elevation is out of reach. -/
theorem rollBackLoop_spec (ext : External) (env : RollbackEnv) (pending : List Operation)
    (st : RollbackState) (hsession : st.core.performedOperationsCurrentSession = pending.reverse) :
    (rollBackLoop ext env st pending).core.performedOperationsCurrentSession = [] ∧
    (rollBackLoop ext env st pending).core.performedOperationsOld
      = st.core.performedOperationsOld ∧
    (rollBackLoop ext env st pending).undone =
      st.undone ++
        (pending.filter (fun operation => !(elevationDenied env st && operation.admin))).map
          (prepareUndo env) := by
  induction pending generalizing st with
  | nil => simpa [rollBackLoop] using hsession
  | cons operation pending ih =>
    have hstep := rollBackOperation_step ext env
      { st with core := { st.core with performedOperationsCurrentSession := pending.reverse } }
      operation
    have hdenied : elevationDenied env
        { st with core := { st.core with performedOperationsCurrentSession := pending.reverse } }
        = elevationDenied env st := rfl
    rw [hdenied] at hstep
    obtain ⟨hcore, hundone, hden⟩ := hstep
    have ih' := ih (rollBackOperation ext env
      { st with core := { st.core with performedOperationsCurrentSession := pending.reverse } }
      operation) (by rw [hcore])
    simp only [rollBackLoop]
    refine ⟨ih'.1, ?_, ?_⟩
    · rw [ih'.2.1, hcore]
    · rw [ih'.2.2, hundone, hden]
      cases h : (elevationDenied env st && operation.admin) <;>
        simp only [List.filter_cons, h, Bool.not_false, Bool.not_true, if_true, if_false,
          Bool.false_eq_true, List.map_cons, List.append_assoc, List.singleton_append,
          List.nil_append]

/-- C5, as amended: `rollBackInstallation` ends with the session list empty
and the old log untouched, and it hands to the undo, one at a time and in
exactly the reverse order of the session list, every operation of the session
except those that need admin rights while elevation is out of reach; this
holds whatever the individual undos return or throw. -/
theorem rollBackInstallation_undone (ext : External) (env : RollbackEnv) (st : RollbackState) :
    (rollBackInstallation ext env st).core.performedOperationsCurrentSession = [] ∧
    (rollBackInstallation ext env st).core.performedOperationsOld
      = st.core.performedOperationsOld ∧
    (rollBackInstallation ext env st).undone =
      st.undone ++
        (st.core.performedOperationsCurrentSession.reverse.filter
          (fun operation => !(elevationDenied env st && operation.admin))).map
          (prepareUndo env) :=
  rollBackLoop_spec ext env st.core.performedOperationsCurrentSession.reverse st
    (List.reverse_reverse _).symm

/-- C5, as stated, fails: with no admin rights and a remote client that cannot
be activated, the session operation that needs admin rights is taken off the
session list but never handed to the undo, so the undo record is not the
reverse of the session list. -/
theorem rollBackInstallation_skips_admin_operation :
    (rollBackInstallation sampleExternal sampleDeniedEnv sampleSessionState).undone
      = [{ name := "Mkdir", component := "app" }] ∧
    (rollBackInstallation sampleExternal sampleDeniedEnv sampleSessionState).undone
      ≠ sampleSessionState.core.performedOperationsCurrentSession.reverse ∧
    (rollBackInstallation sampleExternal sampleDeniedEnv
      sampleSessionState).core.performedOperationsCurrentSession = [] := by
  decide

/-! ### Catalog merge -/

/-- A key is in a hash exactly when its lookup yields a value. -/
theorem hashContains_iff {K V : Type} [DecidableEq K] (m : List (K × V)) (key : K) :
    hashContains m key = true ↔ ∃ v, hashValue m key = some v := by
  unfold hashContains
  cases hashValue m key <;> simp

/-- After the merge of one local package, an entry of the working set is the
component of that package or was there before. -/
theorem fetchAllPackagesLocal_value (treeNameComponents : List (String × String))
    (components : List (String × Component)) (package : LocalPackage) (key : String)
    (c : Component)
    (h : hashValue (fetchAllPackagesLocal treeNameComponents components package) key = some c) :
    c = loadDataFromLocalPackage package ∨ hashValue components key = some c := by
  unfold fetchAllPackagesLocal at h
  simp only [] at h
  split_ifs at h <;>
    first
      | exact Or.inr h
      | (rw [hashValue_hashInsert] at h
         split_ifs at h
         · exact Or.inl (Option.some.inj h).symm
         · first
             | exact Or.inr h
             | (rw [hashValue_hashTake] at h
                split_ifs at h
                exact Or.inr h))

/-- The merge of one local package leaves alone every key that is neither the
key of the package, nor its name, nor the remote tree-name recorded for its
name. -/
theorem fetchAllPackagesLocal_other (treeNameComponents : List (String × String))
    (components : List (String × Component)) (package : LocalPackage) (key : String)
    (hkey : (loadDataFromLocalPackage package).treeNameOrName ≠ key)
    (hname : package.name ≠ key)
    (hremote : hashValue treeNameComponents package.name ≠ some key) :
    hashValue (fetchAllPackagesLocal treeNameComponents components package) key
      = hashValue components key := by
  have hname' : (loadDataFromLocalPackage package).name ≠ key := hname
  unfold fetchAllPackagesLocal
  simp only []
  split_ifs with h1 h2 h3 h4
  · rw [hashValue_hashInsert, if_neg hkey, hashValue_hashTake, if_neg hname']
  · rw [hashValue_hashInsert, if_neg hkey, hashValue_hashTake]
    have hne : (hashValue treeNameComponents (loadDataFromLocalPackage package).name).getD "" ≠ key := by
      obtain ⟨tr, htr⟩ := (hashContains_iff _ _).mp h2
      rw [htr]
      intro heq
      apply hremote
      have : (loadDataFromLocalPackage package).name = package.name := rfl
      rw [← this, htr]
      exact congrArg some heq
    rw [if_neg hne]
  · rfl
  · rw [hashValue_hashInsert, if_neg hkey]
  · rfl

/-- The merge of a local package whose name has a remote tree-name different
from its own tree-name: the local component is stored under its own key, and
under the remote tree-name there is nothing but, when the two keys coincide,
the local component. -/
theorem fetchAllPackagesLocal_remote_differs (treeNameComponents : List (String × String))
    (components : List (String × Component)) (package : LocalPackage) (remoteTreeName : String)
    (hremote : hashValue treeNameComponents package.name = some remoteTreeName)
    (hdiff : remoteTreeName ≠ package.treeName) :
    hashValue (fetchAllPackagesLocal treeNameComponents components package)
        (loadDataFromLocalPackage package).treeNameOrName
      = some (loadDataFromLocalPackage package) ∧
    ∀ c, hashValue (fetchAllPackagesLocal treeNameComponents components package) remoteTreeName
        = some c → c = loadDataFromLocalPackage package := by
  have hname : (loadDataFromLocalPackage package).name = package.name := rfl
  have htree : (loadDataFromLocalPackage package).treeName = package.treeName := rfl
  have hcontains : hashContains treeNameComponents package.name = true :=
    (hashContains_iff _ _).mpr ⟨remoteTreeName, hremote⟩
  unfold fetchAllPackagesLocal
  simp only [hname, htree, hcontains, hremote, Option.getD_some, Bool.not_true, Bool.false_and,
    Bool.false_eq_true, if_false, if_true, ne_eq, hdiff, not_false_eq_true]
  constructor
  · rw [hashValue_hashInsert, if_pos rfl]
  · intro c hc
    rw [hashValue_hashInsert] at hc
    split_ifs at hc
    · exact (Option.some.inj hc).symm
    · rw [hashValue_hashTake, if_pos rfl] at hc
      cases hc

/-- After the merge of a list of local packages, an entry of the working set
is the component of one of them or was there before. -/
theorem fetchAllPackagesLocals_value (treeNameComponents : List (String × String))
    (locals : LocalPackagesHash) (components : List (String × Component)) (key : String)
    (c : Component)
    (h : hashValue (fetchAllPackagesLocals treeNameComponents components locals) key = some c) :
    (∃ package ∈ locals, c = loadDataFromLocalPackage package) ∨
      hashValue components key = some c := by
  induction locals generalizing components with
  | nil => exact Or.inr h
  | cons package rest ih =>
    simp only [fetchAllPackagesLocals, List.foldl_cons] at h
    rcases ih _ h with ⟨p, hp, hc⟩ | hprev
    · exact Or.inl ⟨p, List.mem_cons_of_mem _ hp, hc⟩
    · rcases fetchAllPackagesLocal_value _ _ _ _ _ hprev with hc | hold
      · exact Or.inl ⟨package, List.mem_cons_self _ _, hc⟩
      · exact Or.inr hold

/-- Once the component of a local package with a differing remote tree-name is
stored under its key, the merge of further local packages keeps it there, as
long as none of them claims that key through its own key, its name or its
remote tree-name. -/
theorem fetchAllPackagesLocals_keeps (treeNameComponents : List (String × String))
    (package : LocalPackage) (remoteTreeName : String)
    (hremote : hashValue treeNameComponents package.name = some remoteTreeName)
    (hdiff : remoteTreeName ≠ package.treeName)
    (locals : LocalPackagesHash) (components : List (String × Component))
    (hothers : ∀ other ∈ locals, other ≠ package →
      (loadDataFromLocalPackage other).treeNameOrName
          ≠ (loadDataFromLocalPackage package).treeNameOrName ∧
        other.name ≠ (loadDataFromLocalPackage package).treeNameOrName ∧
        hashValue treeNameComponents other.name
          ≠ some (loadDataFromLocalPackage package).treeNameOrName)
    (hstored : hashValue components (loadDataFromLocalPackage package).treeNameOrName
      = some (loadDataFromLocalPackage package)) :
    hashValue (fetchAllPackagesLocals treeNameComponents components locals)
        (loadDataFromLocalPackage package).treeNameOrName
      = some (loadDataFromLocalPackage package) := by
  induction locals generalizing components with
  | nil => exact hstored
  | cons other rest ih =>
    simp only [fetchAllPackagesLocals, List.foldl_cons]
    apply ih _ (fun o ho => hothers o (List.mem_cons_of_mem _ ho))
    by_cases hsame : other = package
    · subst hsame
      exact (fetchAllPackagesLocal_remote_differs _ _ _ _ hremote hdiff).1
    · obtain ⟨h1, h2, h3⟩ := hothers other (List.mem_cons_self _ _) hsame
      rw [fetchAllPackagesLocal_other _ _ _ _ h1 h2 h3]
      exact hstored

/-- C7, as amended: when the remote loop of `fetchAllPackages` has recorded for
the name of a local package a tree-name different from the tree-name of the
local package, the local entry wins. After the merge the working set holds the
component of the local package under its own key (its tree-name, or its name
when it has none), provided no other local package claims that key through its
own key, its name or its remote tree-name; and whatever the working set holds
under the remote tree-name is the component of a local package, not the remote
component. -/
theorem fetchAllPackagesMerge_local_wins (ext : External) (core core' : CoreState)
    (remotes : List Package) (locals : LocalPackagesHash) (data : Data)
    (treeNameComponents : List (String × String)) (package : LocalPackage)
    (remoteTreeName : String)
    (hremotes : fetchAllPackagesRemotes ext locals (ext.clearAllComponentLists core) {} [] remotes
      = (some (data, treeNameComponents), core'))
    (hpackage : package ∈ locals)
    (hremote : hashValue treeNameComponents package.name = some remoteTreeName)
    (hdiff : remoteTreeName ≠ package.treeName)
    (hothers : ∀ other ∈ locals, other ≠ package →
      (loadDataFromLocalPackage other).treeNameOrName
          ≠ (loadDataFromLocalPackage package).treeNameOrName ∧
        other.name ≠ (loadDataFromLocalPackage package).treeNameOrName ∧
        hashValue treeNameComponents other.name
          ≠ some (loadDataFromLocalPackage package).treeNameOrName) :
    ∃ components, fetchAllPackagesMerge ext core remotes locals = some components ∧
      hashValue components (loadDataFromLocalPackage package).treeNameOrName
        = some (loadDataFromLocalPackage package) ∧
      ∀ c, hashValue components remoteTreeName = some c →
        ∃ other ∈ locals, c = loadDataFromLocalPackage other := by
  refine ⟨fetchAllPackagesLocals treeNameComponents data.components locals, ?_, ?_, ?_⟩
  · simp only [fetchAllPackagesMerge, hremotes]
  · obtain ⟨before, after, hsplit⟩ := List.append_of_mem hpackage
    have hafter : ∀ other ∈ after, other ≠ package →
        (loadDataFromLocalPackage other).treeNameOrName
            ≠ (loadDataFromLocalPackage package).treeNameOrName ∧
          other.name ≠ (loadDataFromLocalPackage package).treeNameOrName ∧
          hashValue treeNameComponents other.name
            ≠ some (loadDataFromLocalPackage package).treeNameOrName := by
      intro other hother
      apply hothers
      rw [hsplit]
      exact List.mem_append_right _ (List.mem_cons_of_mem _ hother)
    rw [hsplit]
    simp only [fetchAllPackagesLocals, List.foldl_append, List.foldl_cons]
    exact fetchAllPackagesLocals_keeps treeNameComponents package remoteTreeName hremote hdiff
      after _ hafter (fetchAllPackagesLocal_remote_differs _ _ _ _ hremote hdiff).1
  · intro c hc
    obtain ⟨before, after, hsplit⟩ := List.append_of_mem hpackage
    rw [hsplit] at hc
    simp only [fetchAllPackagesLocals, List.foldl_append, List.foldl_cons] at hc
    rcases fetchAllPackagesLocals_value treeNameComponents after _ _ _ hc with ⟨p, hp, hpc⟩ | hstep
    · refine ⟨p, ?_, hpc⟩
      rw [hsplit]
      exact List.mem_append_right _ (List.mem_cons_of_mem _ hp)
    · exact ⟨package, hpackage,
        (fetchAllPackagesLocal_remote_differs _ _ _ _ hremote hdiff).2 c hstep⟩

/-- Witness for C7: the remote package `viewer` has the tree-name `tools.new`,
the installed package `viewer` has the tree-name `tools.old`, and a second
package is installed. -/
theorem fetchAllPackagesMerge_local_wins_witness :
    ∃ components,
      fetchAllPackagesMerge sampleExternal samplePackageManagerCore [sampleMovedRemote]
        [sampleOtherLocal, sampleMovedLocal] = some components ∧
      hashValue components "tools.old" = some (loadDataFromLocalPackage sampleMovedLocal) ∧
      ∀ c, hashValue components "tools.new" = some c →
        ∃ other ∈ [sampleOtherLocal, sampleMovedLocal], c = loadDataFromLocalPackage other :=
  fetchAllPackagesMerge_local_wins sampleExternal samplePackageManagerCore
    samplePackageManagerCore [sampleMovedRemote] [sampleOtherLocal, sampleMovedLocal]
    { components := [("tools.new",
        { name := "viewer", treeName := "tools.new", version := "2.0",
          installedVersion := "1.0", installed := true })] }
    [("viewer", "tools.new")] sampleMovedLocal "tools.new"
    (by decide) (by decide) (by decide) (by decide) (by decide)

/-- C7, as stated, fails: with the remote package `viewer` under the tree-name
`tools.new` and the installed package `viewer` under `tools.old`, the merged
working set holds the local component under `tools.old` and nothing under
`tools.new`. -/
theorem fetchAllPackagesMerge_remote_loses :
    fetchAllPackagesMerge sampleExternal samplePackageManagerCore [sampleMovedRemote]
        [sampleMovedLocal]
      = some [("tools.old", loadDataFromLocalPackage sampleMovedLocal)] ∧
    hashValue [("tools.old", loadDataFromLocalPackage sampleMovedLocal)] "tools.new" = none ∧
    hashValue [("tools.old", loadDataFromLocalPackage sampleMovedLocal)] "tools.old"
      = some (loadDataFromLocalPackage sampleMovedLocal) := by
  decide

/-- The duplicate check that the remote loop does make: when it reaches a
valid remote package whose key is already in the working set, the loop returns
false with the status Failure and an error that names the key. -/
theorem fetchAllPackagesRemotes_duplicate (ext : External) (locals : LocalPackagesHash)
    (core : CoreState) (data : Data) (treeNameComponents : List (String × String))
    (package : Package) (rest : List Package)
    (hstatus : statusCanceledOrFailed core = false)
    (hvalid : ext.isValidPackage package.name = true)
    (hduplicate : hashContains data.components (packageKey package) = true) :
    fetchAllPackagesRemotes ext locals core data treeNameComponents (package :: rest)
      = (none, setStatus core Status.Failure (duplicateError (packageKey package))) := by
  simp [fetchAllPackagesRemotes, updateComponentData, hstatus, hvalid, hduplicate]

/-- C6 (evaluation at the failing input): the remote package `docs` and the
installed package `manual` with the tree-name `docs` have different names and
the same key. `fetchAllPackages` returns true and leaves the status alone, and
the merged working set holds the local component under `docs`: the remote
entry is overwritten without an error. -/
theorem fetchAllPackages_local_overwrites_remote :
    sampleDocsRemote.name ≠ sampleManualLocal.name ∧
    packageKey sampleDocsRemote = (loadDataFromLocalPackage sampleManualLocal).treeNameOrName ∧
    fetchAllPackagesMerge sampleExternal samplePackageManagerCore [sampleDocsRemote]
        [sampleManualLocal]
      = some [("docs", loadDataFromLocalPackage sampleManualLocal)] ∧
    (fetchAllPackages sampleExternal samplePackageManagerCore [sampleDocsRemote]
        [sampleManualLocal]).1 = true ∧
    (fetchAllPackages sampleExternal samplePackageManagerCore [sampleDocsRemote]
        [sampleManualLocal]).2.status = Status.Running := by
  decide

/-- C8 (evaluation at the failing input): with no remote package and the
installed packages `core` (tree-name `base`) and `base` (tree-name `platform`),
visited in this order, the merged working set holds only `base` under
`platform`; the component of `core` was removed again when `base` was merged.
Visited in the other order, both components are in the working set. -/
theorem fetchAllPackagesMerge_drops_local :
    fetchAllPackagesMerge sampleExternal samplePackageManagerCore []
        [sampleCoreLocal, sampleBaseLocal]
      = some [("platform", loadDataFromLocalPackage sampleBaseLocal)] ∧
    hashValue [("platform", loadDataFromLocalPackage sampleBaseLocal)]
        (loadDataFromLocalPackage sampleCoreLocal).treeNameOrName = none ∧
    fetchAllPackagesMerge sampleExternal samplePackageManagerCore []
        [sampleBaseLocal, sampleCoreLocal]
      = some [("base", loadDataFromLocalPackage sampleCoreLocal),
              ("platform", loadDataFromLocalPackage sampleBaseLocal)] := by
  decide

/-! ### Replaced components -/

/-- A name that is not a key of the working set is ignored. -/
theorem storeReplacedComponent_absent (replacement : Component) (st : ReplaceState)
    (componentName : String) (h : hashContains st.components componentName = false) :
    storeReplacedComponent replacement st componentName = st := by
  unfold hashContains at h
  unfold storeReplacedComponent
  cases hv : hashValue st.components componentName with
  | none => rfl
  | some taken => simp [hv] at h

/-- Handling one name leaves the entries of every other name alone. -/
theorem storeReplacedComponent_other (replacement : Component) (st : ReplaceState)
    (componentName key : String) (hne : componentName ≠ key) :
    hashValue (storeReplacedComponent replacement st componentName).components key
      = hashValue st.components key ∧
    hashValue (storeReplacedComponent replacement st componentName).componentsToReplace key
      = hashValue st.componentsToReplace key := by
  unfold storeReplacedComponent
  cases hv : hashValue st.components componentName with
  | none => exact ⟨rfl, rfl⟩
  | some taken =>
    simp only []
    split_ifs <;> simp [hashValue_hashInsert, hashValue_hashTake, hne]

/-- Handling a name that is a key of the working set removes the key and
records the replacing component for the name. -/
theorem storeReplacedComponent_hit (replacement : Component) (st : ReplaceState)
    (componentName : String) (h : hashContains st.components componentName = true) :
    hashValue (storeReplacedComponent replacement st componentName).components componentName
      = none ∧
    ∃ c, hashValue (storeReplacedComponent replacement st componentName).componentsToReplace
      componentName = some (replacement, c) := by
  obtain ⟨taken, hv⟩ := (hashContains_iff _ _).mp h
  unfold storeReplacedComponent
  simp only [hv]
  split_ifs
  · exact ⟨by simp [hashValue_hashTake], { name := componentName },
      by simp [hashValue_hashInsert]⟩
  · exact ⟨by simp [hashValue_hashTake], taken, by simp [hashValue_hashInsert]⟩

/-- A key that is not in the working set stays out of it, and its record is
left alone, whatever names one replacing component lists. -/
theorem storeReplaced_list_absent (replacement : Component) (names : List String)
    (st : ReplaceState) (key : String) (h : hashValue st.components key = none) :
    hashValue (names.foldl (storeReplacedComponent replacement) st).components key = none ∧
    hashValue (names.foldl (storeReplacedComponent replacement) st).componentsToReplace key
      = hashValue st.componentsToReplace key := by
  induction names generalizing st with
  | nil => exact ⟨h, rfl⟩
  | cons name rest ih =>
    simp only [List.foldl_cons]
    by_cases hname : name = key
    · subst hname
      have hst : storeReplacedComponent replacement st name = st :=
        storeReplacedComponent_absent replacement st name (by simp [hashContains, h])
      rw [hst]
      exact ih st h
    · obtain ⟨h1, h2⟩ := storeReplacedComponent_other replacement st name key hname
      obtain ⟨h3, h4⟩ := ih (storeReplacedComponent replacement st name) (h1.trans h)
      exact ⟨h3, h4.trans h2⟩

/-- A replacing component that does not list a key leaves its entries alone. -/
theorem storeReplaced_list_other (replacement : Component) (names : List String)
    (st : ReplaceState) (key : String) (h : key ∉ names) :
    hashValue (names.foldl (storeReplacedComponent replacement) st).components key
      = hashValue st.components key ∧
    hashValue (names.foldl (storeReplacedComponent replacement) st).componentsToReplace key
      = hashValue st.componentsToReplace key := by
  induction names generalizing st with
  | nil => exact ⟨rfl, rfl⟩
  | cons name rest ih =>
    simp only [List.foldl_cons]
    have hname : name ≠ key := fun heq => h (heq ▸ List.mem_cons_self _ _)
    have hrest : key ∉ rest := fun hmem => h (List.mem_cons_of_mem _ hmem)
    obtain ⟨h1, h2⟩ := storeReplacedComponent_other replacement st name key hname
    obtain ⟨h3, h4⟩ := ih (storeReplacedComponent replacement st name) hrest
    exact ⟨h3.trans h1, h4.trans h2⟩

/-- A replacing component that lists a key of the working set removes the key
and is recorded for it. -/
theorem storeReplaced_list_hit (replacement : Component) (names : List String)
    (st : ReplaceState) (key : String) (hmem : key ∈ names)
    (h : hashContains st.components key = true) :
    hashValue (names.foldl (storeReplacedComponent replacement) st).components key = none ∧
    ∃ c, hashValue (names.foldl (storeReplacedComponent replacement) st).componentsToReplace key
      = some (replacement, c) := by
  induction names generalizing st with
  | nil => cases hmem
  | cons name rest ih =>
    simp only [List.foldl_cons]
    by_cases hname : name = key
    · subst hname
      obtain ⟨h1, c, h2⟩ := storeReplacedComponent_hit replacement st name h
      obtain ⟨h3, h4⟩ := storeReplaced_list_absent replacement rest
        (storeReplacedComponent replacement st name) name h1
      exact ⟨h3, c, h4.trans h2⟩
    · have hrest : key ∈ rest := by
        rcases List.mem_cons.mp hmem with heq | hr
        · exact absurd heq.symm hname
        · exact hr
      obtain ⟨h1, _⟩ := storeReplacedComponent_other replacement st name key hname
      apply ih _ hrest
      unfold hashContains at h ⊢
      rw [h1]
      exact h

/-- A key that is not in the working set stays out of it, and its record is
left alone, by the whole of `storeReplacedComponents`. -/
theorem storeReplacedComponents_absent (entries : List (Component × List String))
    (st : ReplaceState) (key : String) (h : hashValue st.components key = none) :
    hashValue (storeReplacedComponents st entries).components key = none ∧
    hashValue (storeReplacedComponents st entries).componentsToReplace key
      = hashValue st.componentsToReplace key := by
  induction entries generalizing st with
  | nil => exact ⟨h, rfl⟩
  | cons entry rest ih =>
    simp only [storeReplacedComponents, List.foldl_cons]
    obtain ⟨h1, h2⟩ := storeReplaced_list_absent entry.1 entry.2 st key h
    obtain ⟨h3, h4⟩ := ih (entry.2.foldl (storeReplacedComponent entry.1) st) h1
    exact ⟨h3, h4.trans h2⟩

/-- The first visited replacing component that lists a key of the working set
removes the key and is the one recorded for it after
`storeReplacedComponents`. -/
theorem storeReplacedComponents_first (entries : List (Component × List String))
    (st : ReplaceState) (key : String) (h : hashContains st.components key = true)
    (first : Component × List String)
    (hfirst : entries.find? (fun entry => decide (key ∈ entry.2)) = some first) :
    hashValue (storeReplacedComponents st entries).components key = none ∧
    ∃ c, hashValue (storeReplacedComponents st entries).componentsToReplace key
      = some (first.1, c) := by
  induction entries generalizing st with
  | nil => cases hfirst
  | cons entry rest ih =>
    simp only [storeReplacedComponents, List.foldl_cons]
    by_cases hlists : key ∈ entry.2
    · have hentry : first = entry := by
        simp [List.find?_cons, hlists] at hfirst
        exact hfirst.symm
      subst hentry
      obtain ⟨h1, c, h2⟩ := storeReplaced_list_hit first.1 first.2 st key hlists h
      obtain ⟨h3, h4⟩ := storeReplacedComponents_absent rest
        (first.2.foldl (storeReplacedComponent first.1) st) key h1
      exact ⟨h3, c, h4.trans h2⟩
    · have hrest : rest.find? (fun entry => decide (key ∈ entry.2)) = some first := by
        simpa [List.find?_cons, hlists] using hfirst
      obtain ⟨h1, _⟩ := storeReplaced_list_other entry.1 entry.2 st key hlists
      apply ih _ _ hrest
      unfold hashContains at h ⊢
      rw [h1]
      exact h

/-- C9, as amended: after `storeReplacedComponents`, every name that some
replacing component lists and that was a key of the working set is no longer a
key of the working set, and `componentsToReplace` has an entry for the name
whose replacing component lists the name: the first visited one that does.
A listed name that is not a key of the working set is ignored and changes
nothing. -/
theorem storeReplacedComponents_replaced (entries : List (Component × List String))
    (st : ReplaceState) (replacement : Component) (names : List String) (key : String)
    (hentry : (replacement, names) ∈ entries) (hlisted : key ∈ names)
    (hkey : hashContains st.components key = true) :
    hashContains (storeReplacedComponents st entries).components key = false ∧
    (∃ first c, entries.find? (fun entry => decide (key ∈ entry.2)) = some first ∧
      first ∈ entries ∧ key ∈ first.2 ∧
      hashValue (storeReplacedComponents st entries).componentsToReplace key
        = some (first.1, c)) ∧
    (∀ (other : Component) (s : ReplaceState) (absent : String),
      hashContains s.components absent = false →
        storeReplacedComponent other s absent = s) := by
  have hsome : ∃ first, entries.find? (fun entry => decide (key ∈ entry.2)) = some first := by
    cases hfind : entries.find? (fun entry => decide (key ∈ entry.2)) with
    | some first => exact ⟨first, rfl⟩
    | none =>
      have hnone := List.find?_eq_none.mp hfind (replacement, names) hentry
      simp [hlisted] at hnone
  obtain ⟨first, hfirst⟩ := hsome
  obtain ⟨h1, c, h2⟩ := storeReplacedComponents_first entries st key hkey first hfirst
  refine ⟨by simp [hashContains, h1], ⟨first, c, hfirst, List.mem_of_find?_eq_some hfirst, ?_, h2⟩,
    storeReplacedComponent_absent⟩
  have := List.find?_some hfirst
  simpa using this

/-- Witness for C9: `successor` and `rival` both replace `legacy`, `successor`
is visited first and also lists a name that is not in the working set. -/
theorem storeReplacedComponents_replaced_witness :
    hashContains
      (storeReplacedComponents sampleReplaceState
        [(sampleSuccessor, ["legacy", "missing"]), (sampleRival, ["legacy"])]).components
      "legacy" = false ∧
    (∃ first c,
      [(sampleSuccessor, ["legacy", "missing"]), (sampleRival, ["legacy"])].find?
          (fun entry => decide ("legacy" ∈ entry.2)) = some first ∧
      first ∈ [(sampleSuccessor, ["legacy", "missing"]), (sampleRival, ["legacy"])] ∧
      "legacy" ∈ first.2 ∧
      hashValue
        (storeReplacedComponents sampleReplaceState
          [(sampleSuccessor, ["legacy", "missing"]),
           (sampleRival, ["legacy"])]).componentsToReplace
        "legacy" = some (first.1, c)) ∧
    (∀ (other : Component) (s : ReplaceState) (absent : String),
      hashContains s.components absent = false →
        storeReplacedComponent other s absent = s) :=
  storeReplacedComponents_replaced
    [(sampleSuccessor, ["legacy", "missing"]), (sampleRival, ["legacy"])] sampleReplaceState
    sampleRival ["legacy"] "legacy" (by decide) (by decide) (by decide)

/-- C9, as stated, fails: `successor` and `rival` both replace `legacy`, which
is in the working set with its data. Afterwards `componentsToReplace` maps
`legacy` to `successor` and a new component that holds only the name: not to
`rival`, and not to the component that was stored under `legacy`. -/
theorem storeReplacedComponents_not_the_stored_component :
    (storeReplacedComponents sampleReplaceState
        [(sampleSuccessor, ["legacy"]), (sampleRival, ["legacy"])]).componentsToReplace
      = [("legacy", (sampleSuccessor, { name := "legacy" }))] ∧
    hashValue
        (storeReplacedComponents sampleReplaceState
          [(sampleSuccessor, ["legacy"]), (sampleRival, ["legacy"])]).componentsToReplace
        "legacy" ≠ some (sampleRival, sampleLegacyComponent) ∧
    hashValue
        (storeReplacedComponents sampleReplaceState
          [(sampleSuccessor, ["legacy"]), (sampleRival, ["legacy"])]).componentsToReplace
        "legacy" ≠ some (sampleSuccessor, sampleLegacyComponent) := by
  decide

/-! ### Recalculation and the uninstall resolver -/

/-- What `componentsToInstallNeedsRecalculation` hands to the fresh uninstall
resolver: the components of `components(All)` that have their uninstallation
requested and are not among the components marked for installation, which are
the input of the install resolver and not its output. -/
theorem componentsToInstallNeedsRecalculation_input (ext : External) (core : CoreState) :
    (componentsToInstallNeedsRecalculation ext core).uninstallerCalculator.appended =
      (components ext core ComponentTypes.All).filter (fun component =>
        ext.uninstallationRequested component
          && !(componentsMarkedForInstallation ext core).contains component) := by
  simp only [componentsToInstallNeedsRecalculation, foldl_setInstallAction,
    appendComponentsToInstall, appendComponentsToUninstall, clearInstallerCalculator,
    clearUninstallerCalculator, List.nil_append]
  rfl

/-- C11 (evaluation at the failing input): the component named old is
installed and has its uninstallation requested, and the install resolver
returns it as a dependency in front of the selected components named new and
keep. After `componentsToInstallNeedsRecalculation` it is in the ordered
output of the install resolver and also among the components handed to the
uninstall resolver. -/
theorem componentsToInstallNeedsRecalculation_passes_dependency :
    orderedComponentsToInstall sampleDependencyExternal
        (componentsToInstallNeedsRecalculation sampleDependencyExternal sampleTreeCore)
      = [{ name := "old", installed := true }, { name := "new" },
         { name := "keep", installed := true }] ∧
    (componentsToInstallNeedsRecalculation sampleDependencyExternal
        sampleTreeCore).uninstallerCalculator.appended
      = [{ name := "old", installed := true }] ∧
    (calculateComponentsToUninstall sampleDependencyExternal
        (componentsToInstallNeedsRecalculation sampleDependencyExternal
          sampleTreeCore)).2.uninstallerCalculator.appended = [] := by
  decide

/-- C12: `calculateComponentsToUninstall` returns true in every state and
every run mode and leaves the status and the error text alone; in updater and
in reinstaller mode it leaves the whole core state, the uninstall resolver
included, as it was. -/
theorem calculateComponentsToUninstall_never_fails (ext : External) (core : CoreState) :
    (calculateComponentsToUninstall ext core).1 = true ∧
    (calculateComponentsToUninstall ext core).2.status = core.status ∧
    (calculateComponentsToUninstall ext core).2.error = core.error ∧
    (isUpdater core = true ∨ isReinstaller core = true →
      (calculateComponentsToUninstall ext core).2 = core) := by
  unfold calculateComponentsToUninstall
  split_ifs with h
  · refine ⟨rfl, rfl, rfl, ?_⟩
    intro hmode
    rcases hmode with hu | hr
    · simp [hu] at h
    · simp [hr] at h
  · exact ⟨rfl, rfl, rfl, fun _ => rfl⟩

/-- Witness for C12: in updater mode the call returns true and the uninstall
resolver keeps the component it held. -/
theorem calculateComponentsToUninstall_never_fails_witness :
    (calculateComponentsToUninstall sampleExternal sampleUpdaterCore).1 = true ∧
    (calculateComponentsToUninstall sampleExternal sampleUpdaterCore).2 = sampleUpdaterCore :=
  ⟨(calculateComponentsToUninstall_never_fails sampleExternal sampleUpdaterCore).1,
   (calculateComponentsToUninstall_never_fails sampleExternal sampleUpdaterCore).2.2.2
     (Or.inl (by decide))⟩

/-! ### Forced removal and admin rights during the rollback -/

/-- C14: every operation that `rollBackInstallation` hands to the undo is a
session operation as `prepareUndo` leaves it, and `prepareUndo` sets the
parameter `forceremoval` to false when the operation is named Mkdir, is
flagged uninstall-only and the RemoveTargetDir value is set, and otherwise
returns the operation with every parameter as it was. -/
theorem rollBackInstallation_forceremoval (ext : External) (env : RollbackEnv)
    (st : RollbackState) :
    (rollBackInstallation ext env st).undone =
      st.undone ++
        (st.core.performedOperationsCurrentSession.reverse.filter
          (fun operation => !(elevationDenied env st && operation.admin))).map
          (prepareUndo env) ∧
    ∀ operation : Operation,
      (operation.name = "Mkdir" ∧ operation.uninstallOnly = true ∧ env.removeTargetDir = true →
        prepareUndo env operation = { operation with forceremoval := some false }) ∧
      (¬ (operation.name = "Mkdir" ∧ operation.uninstallOnly = true
            ∧ env.removeTargetDir = true) →
        prepareUndo env operation = operation) := by
  refine ⟨(rollBackLoop_spec ext env st.core.performedOperationsCurrentSession.reverse st
    (List.reverse_reverse _).symm).2.2, ?_⟩
  intro operation
  constructor
  · rintro ⟨hname, honly, hremove⟩
    simp [prepareUndo, hname, honly, hremove]
  · intro hnot
    unfold prepareUndo
    split_ifs with hcond
    · exfalso
      apply hnot
      simpa [Bool.and_eq_true, and_assoc, and_comm, and_left_comm] using hcond
    · rfl

/-- Witness for C14: with the RemoveTargetDir value set, the uninstall-only
Mkdir operation loses its forced removal and a Copy operation is left as it
is. -/
theorem rollBackInstallation_forceremoval_witness :
    prepareUndo sampleThrowingEnv sampleTargetMkdir
      = { sampleTargetMkdir with forceremoval := some false } ∧
    prepareUndo sampleThrowingEnv { name := "Copy", component := "app" }
      = { name := "Copy", component := "app" } :=
  ⟨((rollBackInstallation_forceremoval sampleExternal sampleThrowingEnv sampleElevatedState).2
      sampleTargetMkdir).1 (by decide),
   ((rollBackInstallation_forceremoval sampleExternal sampleThrowingEnv sampleElevatedState).2
      { name := "Copy", component := "app" }).2 (by decide)⟩

/-- C15 (evaluation at the failing input): the remote client is inactive when
the rollback starts. The operation that needs admin rights is undone first;
its rights are gained through the remote client and its undo throws, so the
pass ends without the drop. The remote client is still active when the Copy
operation is undone, and it is still active after the rollback. -/
theorem rollBackInstallation_keeps_admin_rights :
    sampleElevatedState.remoteClientActive = false ∧
    (rollBackOperation sampleExternal sampleThrowingEnv
      { sampleElevatedState with
        core := { sampleElevatedState.core with
          performedOperationsCurrentSession := [{ name := "Copy", component := "app" }] } }
      { name := "Registry", admin := true, component := "app" }).remoteClientActive = true ∧
    (rollBackInstallation sampleExternal sampleThrowingEnv sampleElevatedState).undone
      = [{ name := "Registry", admin := true, component := "app" },
         { name := "Copy", component := "app" }] ∧
    (rollBackInstallation sampleExternal sampleThrowingEnv
      sampleElevatedState).remoteClientActive = true := by
  decide

/-! ### Maintenance tool -/

/-- The steps after the private `writeMaintenanceTool` leave the record of
what was handed to the persister alone; when they end in an `Error` the core
state is as it was and a WriteError message is shown. -/
theorem writeLocalPackages_frame (env : RollbackEnv) (st : RollbackState) :
    (writeLocalPackages env st).handedToPersister = st.handedToPersister ∧
    (env.writeToDiskThrows st.localPackages = true →
      (writeLocalPackages env st).core = st.core ∧
      (writeLocalPackages env st).messages = st.messages ++ ["WriteError"]) := by
  unfold writeLocalPackages
  rcases gainForWrite env st.core st.remoteClientActive with ⟨active, _ | gained⟩
  · exact ⟨rfl, fun _ => ⟨rfl, rfl⟩⟩
  · refine ⟨?_, ?_⟩
    · simp only []
      split_ifs <;> rfl
    · intro hthrows
      simp [hthrows]

/-- C16, as amended: when the private `writeMaintenanceTool` or the write of
the local package hub throws an `Error` inside
`PackageManagerCore::writeMaintenanceTool`, the error is caught and shown in a
WriteError message box, and the core state, with its status and its flag
`m_needToWriteMaintenanceTool`, is as the private function left it; so
`finishedWithSuccess` answers as it would have right after the private
function. -/
theorem writeMaintenanceTool_error_caught (ext : External) (env : RollbackEnv)
    (st : RollbackState)
    (hdisable : st.core.disableWriteMaintenanceTool = false)
    (hneed : st.core.needToWriteMaintenanceTool = true)
    (hthrows :
      (ext.privateWriteMaintenanceTool st.core
        (st.core.performedOperationsOld ++ st.core.performedOperationsCurrentSession)).2 = true ∨
      env.writeToDiskThrows st.localPackages = true) :
    (writeMaintenanceTool ext env st).core =
      (ext.privateWriteMaintenanceTool st.core
        (st.core.performedOperationsOld ++ st.core.performedOperationsCurrentSession)).1 ∧
    (writeMaintenanceTool ext env st).messages = st.messages ++ ["WriteError"] ∧
    finishedWithSuccess (writeMaintenanceTool ext env st).core =
      finishedWithSuccess (ext.privateWriteMaintenanceTool st.core
        (st.core.performedOperationsOld ++ st.core.performedOperationsCurrentSession)).1 := by
  have hcore : (writeMaintenanceTool ext env st).core =
      (ext.privateWriteMaintenanceTool st.core
        (st.core.performedOperationsOld ++ st.core.performedOperationsCurrentSession)).1 ∧
      (writeMaintenanceTool ext env st).messages = st.messages ++ ["WriteError"] := by
    simp only [writeMaintenanceTool, hdisable, hneed, Bool.false_eq_true, if_false, if_true]
    rcases hprivate : ext.privateWriteMaintenanceTool st.core
        (st.core.performedOperationsOld ++ st.core.performedOperationsCurrentSession)
      with ⟨core, threw⟩
    rw [hprivate] at hthrows
    cases threw with
    | true => exact ⟨rfl, rfl⟩
    | false =>
      have hwrite : env.writeToDiskThrows st.localPackages = true := by
        rcases hthrows with h | h
        · cases h
        · exact h
      exact (writeLocalPackages_frame env _).2 hwrite
  exact ⟨hcore.1, hcore.2, by rw [hcore.1]⟩

/-- Witness for C16: every operation succeeded and the write of the local
package hub throws. -/
theorem writeMaintenanceTool_error_caught_witness :
    (writeMaintenanceTool sampleExternal sampleFailingWriteEnv sampleFinishedState).core
      = sampleFinishedState.core ∧
    (writeMaintenanceTool sampleExternal sampleFailingWriteEnv sampleFinishedState).messages
      = ["WriteError"] ∧
    finishedWithSuccess
        (writeMaintenanceTool sampleExternal sampleFailingWriteEnv sampleFinishedState).core
      = finishedWithSuccess sampleFinishedState.core :=
  writeMaintenanceTool_error_caught sampleExternal sampleFailingWriteEnv sampleFinishedState
    (by decide) (by decide) (Or.inr (by decide))

/-- C16, as stated, fails: every operation succeeded, the status is Success
and the write of the local package hub throws inside
`PackageManagerCore::writeMaintenanceTool`. Afterwards the status is still
Success, not Failure, and `finishedWithSuccess` returns true. The same holds
for a run whose status is Running, because the flag
`m_needToWriteMaintenanceTool` stays set. -/
theorem writeMaintenanceTool_failure_not_reported :
    (writeMaintenanceTool sampleExternal sampleFailingWriteEnv sampleFinishedState).core.status
      = Status.Success ∧
    finishedWithSuccess
        (writeMaintenanceTool sampleExternal sampleFailingWriteEnv sampleFinishedState).core
      = true ∧
    finishedWithSuccess
        (writeMaintenanceTool sampleExternal sampleFailingWriteEnv
          { sampleFinishedState with
            core := { sampleFinishedState.core with status := Status.Running } }).core
      = true := by
  decide

/-- C17: when `writeMaintenanceTool` writes, the operation log it hands to the
persister is the old log followed by the operations of the session;
`addPerformed` appends to the end of the session list, so this is the
performed order; `commitSessionOperations` leaves the concatenation as it was,
empties the session list, and changes nothing when it is applied again. -/
theorem writeMaintenanceTool_operation_log (ext : External) (env : RollbackEnv)
    (st : RollbackState) :
    (st.core.disableWriteMaintenanceTool = false → st.core.needToWriteMaintenanceTool = true →
      (writeMaintenanceTool ext env st).handedToPersister =
        st.handedToPersister ++
          [st.core.performedOperationsOld ++ st.core.performedOperationsCurrentSession]) ∧
    (∀ (core : CoreState) (operation : Operation),
      (addPerformed core operation).performedOperationsCurrentSession
        = core.performedOperationsCurrentSession ++ [operation]) ∧
    (∀ core : CoreState,
      (commitSessionOperations core).performedOperationsOld
          ++ (commitSessionOperations core).performedOperationsCurrentSession
        = core.performedOperationsOld ++ core.performedOperationsCurrentSession ∧
      (commitSessionOperations core).performedOperationsCurrentSession = [] ∧
      commitSessionOperations (commitSessionOperations core) = commitSessionOperations core) := by
  refine ⟨?_, fun _ _ => rfl, ?_⟩
  · intro hdisable hneed
    simp only [writeMaintenanceTool, hdisable, hneed, Bool.false_eq_true, if_false, if_true]
    rcases ext.privateWriteMaintenanceTool st.core
        (st.core.performedOperationsOld ++ st.core.performedOperationsCurrentSession)
      with ⟨core, threw⟩
    cases threw with
    | true => rfl
    | false => exact (writeLocalPackages_frame env _).1
  · intro core
    refine ⟨?_, rfl, ?_⟩
    · simp [commitSessionOperations]
    · simp [commitSessionOperations]

/-- Witness for C17: the old log holds the Extract operation and the session
the Copy operation. -/
theorem writeMaintenanceTool_operation_log_witness :
    (writeMaintenanceTool sampleExternal sampleAdminEnv sampleFinishedState).handedToPersister
      = [[{ name := "Extract", component := "base" }, { name := "Copy", component := "app" }]] :=
  (writeMaintenanceTool_operation_log sampleExternal sampleAdminEnv sampleFinishedState).1
    (by decide) (by decide)

/-! ### Component lookup -/

/-- The position of the first occurrence of a character that does not occur
before it. -/
theorem indexOf_split (c : Char) (l r : List Char) (h : c ∉ l) :
    (l ++ c :: r).indexOf c = l.length := by
  induction l with
  | nil => simp
  | cons d rest ih =>
    have hd : d ≠ c := fun heq => h (heq ▸ List.mem_cons_self _ _)
    have hrest : c ∉ rest := fun hm => h (List.mem_cons_of_mem _ hm)
    simp [List.indexOf_cons, hd, ih hrest]

/-- The two parts around a separator. -/
theorem take_drop_split (c : Char) (l r : List Char) :
    (l ++ c :: r).take l.length = l ∧ (l ++ c :: r).drop (l.length + 1) = r := by
  induction l with
  | nil => simp
  | cons d rest ih => simp [ih]

/-- Splitting a requirement at the first occurrence of a separator that does
not occur in the name yields the name and the version. -/
theorem parse_split (c : Char) (name version : String) (h : c ∉ name.data) :
    String.mk ((name ++ String.singleton c ++ version).data.take
        ((name ++ String.singleton c ++ version).data.indexOf c)) = name ∧
    String.mk ((name ++ String.singleton c ++ version).data.drop
        ((name ++ String.singleton c ++ version).data.indexOf c + 1)) = version := by
  have hdata : (name ++ String.singleton c ++ version).data = name.data ++ c :: version.data := by
    simp [String.data_append, String.singleton]
  rw [hdata, indexOf_split c _ _ h, (take_drop_split c _ _).1, (take_drop_split c _ _).2]
  exact ⟨rfl, rfl⟩

/-- C20: for a name without a colon, `parseNameAndVersion` splits the name, a
colon and a version into the name and the version, also when the name holds a
dash; a dash is the separator when the requirement holds no colon; a
requirement with neither separator is the name and the version is empty; the
empty requirement yields two empty strings. -/
theorem parseNameAndVersion_spec :
    (∀ name version : String, ':' ∉ name.data →
      parseNameAndVersion (name ++ ":" ++ version) = (name, version)) ∧
    (∀ name version : String, '-' ∉ name.data → ':' ∉ name.data → ':' ∉ version.data →
      parseNameAndVersion (name ++ "-" ++ version) = (name, version)) ∧
    (∀ requirement : String, ':' ∉ requirement.data → '-' ∉ requirement.data →
      parseNameAndVersion requirement = (requirement, "")) ∧
    parseNameAndVersion "" = ("", "") := by
  refine ⟨?_, ?_, ?_, rfl⟩
  · intro name version h
    have hdata : (name ++ ":" ++ version).data = name.data ++ ':' :: version.data := by
      simp [String.data_append]
    have hne : name ++ ":" ++ version ≠ "" := by
      intro heq
      have := congrArg String.data heq
      rw [hdata] at this
      simp at this
    have hs := parse_split ':' name version h
    have hsing : String.singleton ':' = ":" := rfl
    rw [hsing] at hs
    have hc : (name ++ ":" ++ version).data.contains ':' = true := by
      rw [hdata]; simp
    simp only [parseNameAndVersion, hne, if_false, hc, if_true, hs.1, hs.2]
  · intro name version hdash hcolon hversion
    have hdata : (name ++ "-" ++ version).data = name.data ++ '-' :: version.data := by
      simp [String.data_append]
    have hne : name ++ "-" ++ version ≠ "" := by
      intro heq
      have := congrArg String.data heq
      rw [hdata] at this
      simp at this
    have hs := parse_split '-' name version hdash
    have hsing : String.singleton '-' = "-" := rfl
    rw [hsing] at hs
    have hc : (name ++ "-" ++ version).data.contains ':' = false := by
      rw [hdata]; simp [hcolon, hversion]
    have hd : (name ++ "-" ++ version).data.contains '-' = true := by
      rw [hdata]; simp
    simp only [parseNameAndVersion, hne, if_false, hc, hd, Bool.false_eq_true, if_true, hs.1,
      hs.2]
  · intro requirement hcolon hdash
    have hc : requirement.data.contains ':' = false := by simp [hcolon]
    have hd : requirement.data.contains '-' = false := by simp [hdash]
    by_cases hempty : requirement = ""
    · subst hempty
      rfl
    · simp only [parseNameAndVersion, hempty, if_false, hc, hd, Bool.false_eq_true]

/-- Witness for C20: a name that holds a dash, and a requirement with a dash
and no colon. -/
theorem parseNameAndVersion_spec_witness :
    parseNameAndVersion ("org.qt-project.sdk.qt" ++ ":" ++ ">=4.5")
      = ("org.qt-project.sdk.qt", ">=4.5") ∧
    parseNameAndVersion ("base" ++ "-" ++ "1.0") = ("base", "1.0") ∧
    parseNameAndVersion "base" = ("base", "") :=
  ⟨parseNameAndVersion_spec.1 "org.qt-project.sdk.qt" ">=4.5" (by decide),
   parseNameAndVersion_spec.2.1 "base" "1.0" (by decide) (by decide) (by decide),
   parseNameAndVersion_spec.2.2.1 "base" (by decide) (by decide)⟩

/-- C18 (evaluation at the failing input): the requirement of the
documentation of `componentByName` holds no colon, so it is split at its first
dash, inside the name. The lookup asks for a component named `org.qt` and
returns null although the list holds the component `org.qt-project.sdk.qt` in
version 4.6; the name alone is split in the same way. -/
theorem componentByName_splits_inside_name :
    parseNameAndVersion "org.qt-project.sdk.qt->=4.5" = ("org.qt", "project.sdk.qt->=4.5") ∧
    versionMatches KDUpdater.compareVersion sampleQtComponent.version ">=4.5" = true ∧
    componentByNameIn KDUpdater.compareVersion "org.qt-project.sdk.qt->=4.5"
      [sampleQtComponent] = none ∧
    componentByNameIn KDUpdater.compareVersion "org.qt-project.sdk.qt" [sampleQtComponent]
      = none ∧
    componentByNameIn KDUpdater.compareVersion "org.qt-project.sdk.qt:>=4.5"
      [sampleQtComponent] = some sampleQtComponent := by
  decide

/-- The static function `componentMatches` is the match of the component
against the parsed requirement. -/
theorem componentMatches_eq (cmp : String → String → Int) (component : Component)
    (name version : String) :
    componentMatches cmp component name version
      = requirementMatches cmp name version component := by
  unfold componentMatches requirementMatches
  by_cases hname : name = ""
  · simp [hname]
  · by_cases hc : component.name = name
    · by_cases hv : version = ""
      · simp [hname, hc, hv]
      · simp [hname, hc, hv]
    · simp [hname, hc]

/-- C19, as amended: for every requirement and every list of components,
`componentByName` returns null when the requirement is empty, and otherwise
the first component in list order whose name is the parsed name part, that
part being not empty, and whose version satisfies the parsed version part
(any version when that part is empty); it returns null exactly when the
requirement is empty or no component of the list matches in this way. -/
theorem componentByName_first_match (cmp : String → String → Int) (requirement : String)
    (components : List Component) :
    componentByNameIn cmp requirement components =
      (if requirement = "" then none
       else components.find? (requirementMatches cmp (parseNameAndVersion requirement).1
         (parseNameAndVersion requirement).2)) ∧
    (componentByNameIn cmp requirement components = none ↔
      requirement = "" ∨
        ∀ component ∈ components,
          requirementMatches cmp (parseNameAndVersion requirement).1
            (parseNameAndVersion requirement).2 component = false) := by
  have hfun : (fun component => componentMatches cmp component
      (parseNameAndVersion requirement).1 (parseNameAndVersion requirement).2)
      = requirementMatches cmp (parseNameAndVersion requirement).1
          (parseNameAndVersion requirement).2 := by
    funext component
    exact componentMatches_eq cmp component _ _
  have heq : componentByNameIn cmp requirement components =
      (if requirement = "" then none
       else components.find? (requirementMatches cmp (parseNameAndVersion requirement).1
         (parseNameAndVersion requirement).2)) := by
    simp only [componentByNameIn, hfun]
  refine ⟨heq, ?_⟩
  rw [heq]
  by_cases hempty : requirement = ""
  · simp [hempty]
  · simp only [hempty, if_false, false_or, List.find?_eq_none]
    constructor
    · intro h component hmem
      simpa using h component hmem
    · intro h component hmem
      simp [h component hmem]

/-- C19, as stated, fails: the requirement `:1.0` is not empty and parses to
an empty name and the version 1.0; the component without a name has the parsed
name and a version that satisfies 1.0, yet the lookup returns null, because
`componentMatches` rejects an empty name. -/
theorem componentByName_empty_parsed_name :
    parseNameAndVersion ":1.0" = ("", "1.0") ∧
    sampleNamelessComponent.name = (parseNameAndVersion ":1.0").1 ∧
    versionMatches KDUpdater.compareVersion sampleNamelessComponent.version
      (parseNameAndVersion ":1.0").2 = true ∧
    componentByNameIn KDUpdater.compareVersion ":1.0" [sampleNamelessComponent] = none := by
  decide

/-! ### Updater packages -/

/-- C21: a requirement given as a fixed version number behaves like the same
requirement with the comparator `=` in front of it: for every comparison
function, every version and every requirement that does not start with `<`,
`=` or `>`, `versionMatches` gives the same answer for both. -/
theorem versionMatches_fixed_version (cmp : String → String → Int) (v r : String)
    (hplain : ∀ c rest, r.data = c :: rest → c ≠ '<' ∧ c ≠ '=' ∧ c ≠ '>') :
    versionMatches cmp v r = versionMatches cmp v ("=" ++ r) := by
  have hmatch : compExExactMatch r = false := by
    unfold compExExactMatch
    cases hr : r.data with
    | nil => rfl
    | cons c rest =>
      obtain ⟨h1, h2, h3⟩ := hplain c rest hr
      simp [isComparatorChar, h1, h2, h3]
  obtain ⟨ht, hd⟩ := compEx_plain r hmatch
  have hdata : ("=" ++ r).data = '=' :: r.data := by simp [String.data_append]
  have hmatch' : compExExactMatch ("=" ++ r) = true := by
    simp [compExExactMatch, hdata, isComparatorChar]
  have hcap1 : compExCap1 ("=" ++ r) = "=" := by
    simp [compExCap1, hdata, List.takeWhile, isComparatorChar, ht]
  have hcap2 : compExCap2 ("=" ++ r) = r := by
    simp [compExCap2, hdata, List.dropWhile, isComparatorChar, hd]
  simp only [versionMatches, hmatch, hmatch', hcap1, hcap2, if_true, Bool.false_eq_true,
    if_false]

/-- C21 at the requirement `1.0.0` and the version `1.0.0`. -/
theorem versionMatches_fixed_version_witness :
    versionMatches KDUpdater.compareVersion "1.0.0" "1.0.0" =
      versionMatches KDUpdater.compareVersion "1.0.0" ("=" ++ "1.0.0") :=
  versionMatches_fixed_version KDUpdater.compareVersion "1.0.0" "1.0.0"
    (by intro c rest h; simp at h; obtain ⟨h1, _⟩ := h; subst h1; decide)

/-! ### Checkable names -/

/-- C29: for every name without a colon, `parseNameAndVersion` applied to
`checkableName` of the name yields the name itself and an empty version, so a
name with a dash that is looked up through `checkableName` is not split at the
dash; `checkableName` leaves a name that holds a colon or holds no dash as it
is. -/
theorem parseNameAndVersion_checkableName :
    (∀ n : String, ':' ∉ n.data → parseNameAndVersion (checkableName n) = (n, "")) ∧
    (∀ n : String, ':' ∈ n.data ∨ '-' ∉ n.data → checkableName n = n) := by
  constructor
  · intro n hcolon
    have hc : n.data.contains ':' = false := by simp [hcolon]
    by_cases hdash : '-' ∈ n.data
    · have hd : n.data.contains '-' = true := by simp [hdash]
      have hname : checkableName n = n ++ ":" ++ "" := by
        simp [checkableName, hcolon, hdash]
      have hdata : (n ++ ":" ++ "").data = n.data ++ ':' :: ("" : String).data := by
        simp [String.data_append]
      have hne : n ++ ":" ++ "" ≠ "" := by
        intro heq
        have := congrArg String.data heq
        rw [hdata] at this
        simp at this
      have hs := parse_split ':' n "" hcolon
      have hsing : String.singleton ':' = ":" := rfl
      rw [hsing] at hs
      have hc' : (n ++ ":" ++ "").data.contains ':' = true := by
        rw [hdata]; simp
      rw [hname]
      simp only [parseNameAndVersion, hne, if_false, hc', if_true, hs.1, hs.2]
    · have hd : n.data.contains '-' = false := by simp [hdash]
      have hname : checkableName n = n := by
        simp [checkableName, hcolon, hdash]
      rw [hname]
      by_cases hempty : n = ""
      · subst hempty
        rfl
      · simp only [parseNameAndVersion, hempty, if_false, hc, hd, Bool.false_eq_true]
  · intro n h
    rcases h with h | h
    · simp [checkableName, h]
    · simp [checkableName, h]

/-- C29 at a name with a dash, a name with a colon and a name without a
dash. -/
theorem parseNameAndVersion_checkableName_witness :
    parseNameAndVersion (checkableName "org.qt-project.sdk.qt")
      = ("org.qt-project.sdk.qt", "") ∧
    checkableName "org.qt-project.sdk:4.5" = "org.qt-project.sdk:4.5" ∧
    checkableName "base" = "base" :=
  ⟨parseNameAndVersion_checkableName.1 "org.qt-project.sdk.qt" (by decide),
   parseNameAndVersion_checkableName.2 "org.qt-project.sdk:4.5" (Or.inl (by decide)),
   parseNameAndVersion_checkableName.2 "base" (Or.inr (by decide))⟩

/-! ### Licenses -/

/-- A key of an entry of a hash has a value in it. -/
theorem hashContains_of_mem {K V : Type} [DecidableEq K] (m : List (K × V)) (entry : K × V)
    (h : entry ∈ m) : hashContains m entry.1 = true := by
  induction m with
  | nil => simp at h
  | cons e rest ih =>
    obtain ⟨k, v⟩ := e
    by_cases hk : k = entry.1
    · simp [hashContains, hashValue, hk]
    · have hrest : entry ∈ rest := by
        rcases List.mem_cons.1 h with h | h
        · exact absurd (by rw [h]) hk
        · exact h
      have := ih hrest
      simpa [hashContains, hashValue, hk] using this

/-- The value of a key after `addLicenseItem`: the old value of a key of the
store, otherwise the value given in `licenses`. -/
theorem addLicenseItem_value (licenses licenseItems : List (String × QVariantMap))
    (key : String) :
    hashValue (addLicenseItem licenseItems licenses) key =
      if hashContains licenseItems key then hashValue licenseItems key
      else hashValue licenses key := by
  induction licenses generalizing licenseItems with
  | nil =>
    by_cases h : hashContains licenseItems key = true
    · simp [addLicenseItem, h]
    · have hnone : hashValue licenseItems key = none := by
        simpa [hashContains] using h
      simp [addLicenseItem, h, hashValue, hnone]
  | cons entry rest ih =>
    obtain ⟨k, v⟩ := entry
    by_cases hk : hashContains licenseItems k = true
    · simp only [addLicenseItem, hk, Bool.not_true, Bool.false_eq_true, if_false, ih]
      by_cases hkey : hashContains licenseItems key = true
      · simp [hkey]
      · have hne : k ≠ key := fun heq => hkey (heq ▸ hk)
        simp [hkey, hashValue, hne]
    · simp only [addLicenseItem, hk, Bool.not_false, if_true, ih]
      have hnone : hashValue licenseItems k = none := by
        simpa [hashContains] using hk
      simp only [hashContains, hashValue_hashInsert]
      by_cases hkey : k = key
      · subst hkey
        simp [hashValue, hnone]
      · simp [hashValue, hkey]

/-- A hash whose keys are all in the store adds nothing to it. -/
theorem addLicenseItem_present (licenses licenseItems : List (String × QVariantMap))
    (h : ∀ entry ∈ licenses, hashContains licenseItems entry.1 = true) :
    addLicenseItem licenseItems licenses = licenseItems := by
  induction licenses with
  | nil => rfl
  | cons entry rest ih =>
    obtain ⟨k, v⟩ := entry
    have hk : hashContains licenseItems k = true := h (k, v) (List.mem_cons_self _ _)
    simp only [addLicenseItem, hk, Bool.not_true, Bool.false_eq_true, if_false]
    exact ih (fun entry hentry => h entry (List.mem_cons_of_mem _ hentry))

/-- C24: `addLicenseItem` never replaces a license of the store: afterwards a
key that was in the store has its old value and any other key has the value
given in `licenses`; a second call with the same `licenses` leaves the store
as the first call left it. -/
theorem addLicenseItem_keeps_existing (licenseItems licenses : List (String × QVariantMap))
    (key : String) :
    hashValue (addLicenseItem licenseItems licenses) key =
      (if hashContains licenseItems key then hashValue licenseItems key
       else hashValue licenses key) ∧
    addLicenseItem (addLicenseItem licenseItems licenses) licenses =
      addLicenseItem licenseItems licenses := by
  refine ⟨addLicenseItem_value licenses licenseItems key, ?_⟩
  apply addLicenseItem_present
  intro entry hentry
  have hvalue := addLicenseItem_value licenses licenseItems entry.1
  have hin := hashContains_of_mem licenses entry hentry
  by_cases hstore : hashContains licenseItems entry.1 = true
  · rw [if_pos hstore] at hvalue
    simpa [hashContains, hvalue] using hstore
  · rw [if_neg hstore] at hvalue
    simpa [hashContains, hvalue] using hin

/-! ### Dependees -/

/-- The inner loop of `dependees` appends the component once for every
dependency string that the target matches. -/
theorem dependeesOfComponent_eq (cmp : String → String → Int) (target component : Component)
    (deps : List String) (acc : List Component) :
    dependeesOfComponent cmp target component acc deps =
      acc ++ List.replicate (List.countP (dependsOn cmp target) deps) component := by
  induction deps generalizing acc with
  | nil => simp [dependeesOfComponent]
  | cons d rest ih =>
    by_cases hd : dependsOn cmp target d = true
    · have hd' : componentMatches cmp target (parseNameAndVersion d).1
          (parseNameAndVersion d).2 = true := hd
      simp only [dependeesOfComponent, hd', if_true, ih, List.countP_cons_of_pos _ _ hd,
        List.replicate_succ, List.append_assoc]
      rfl
    · have hd' : ¬ componentMatches cmp target (parseNameAndVersion d).1
          (parseNameAndVersion d).2 = true := hd
      simp only [dependeesOfComponent, hd', if_false, ih, List.countP_cons_of_neg _ _ hd,
        Bool.false_eq_true]

/-- How often a component is in the list after the outer loop of `dependees`. -/
theorem dependeesLoop_count (cmp : String → String → Int) (target x : Component)
    (available acc : List Component) :
    List.count x (dependeesLoop cmp target acc available) =
      List.count x acc +
        List.count x available * List.countP (dependsOn cmp target) x.dependencies := by
  induction available generalizing acc with
  | nil => simp [dependeesLoop]
  | cons component rest ih =>
    simp only [dependeesLoop, ih, dependeesOfComponent_eq, List.count_append,
      List.count_replicate, List.count_cons]
    by_cases hx : component = x
    · subst hx
      simp [Nat.add_mul, Nat.add_assoc, Nat.add_comm]
    · simp [hx]

/-- How often a component is in the result of `dependees`. -/
theorem dependees_count (ext : External) (core : CoreState) (c x : Component) :
    List.count x (dependees ext core (some c)) =
      List.count x (components ext core ComponentTypes.All) *
        List.countP (dependsOn ext.compareVersion c) x.dependencies := by
  simp only [dependees]
  cases havailable : components ext core ComponentTypes.All with
  | nil => simp
  | cons first rest =>
    simp only [List.isEmpty_cons, Bool.false_eq_true, if_false]
    rw [dependeesLoop_count]
    simp

/-- C23 (amended): `dependees` of the null pointer is empty; a component is in
`dependees(c)` exactly if it is in `components(All)` and one of its dependency
strings parses to a name and a version that `c` matches; it is listed once
for every such dependency string and every occurrence in `components(All)`. -/
theorem dependees_spec (ext : External) (core : CoreState) (c x : Component) :
    dependees ext core none = [] ∧
    (x ∈ dependees ext core (some c) ↔
      x ∈ components ext core ComponentTypes.All ∧
        ∃ d ∈ x.dependencies,
          componentMatches ext.compareVersion c (parseNameAndVersion d).1
            (parseNameAndVersion d).2 = true) ∧
    List.count x (dependees ext core (some c)) =
      List.count x (components ext core ComponentTypes.All) *
        List.countP (fun d => componentMatches ext.compareVersion c (parseNameAndVersion d).1
          (parseNameAndVersion d).2) x.dependencies := by
  refine ⟨rfl, ?_, dependees_count ext core c x⟩
  rw [← List.count_pos_iff, dependees_count, Nat.pos_iff_ne_zero, Nat.mul_ne_zero_iff,
    ← Nat.pos_iff_ne_zero, ← Nat.pos_iff_ne_zero, List.count_pos_iff, List.countP_pos_iff]
  rfl

/-- C23 (counterexample): the component docs names the component base in two
of its dependency strings, and `dependees` lists it twice. -/
theorem dependees_lists_twice :
    components sampleExternal sampleDependeesCore ComponentTypes.All
      = [sampleBase, sampleDocs] ∧
    dependees sampleExternal sampleDependeesCore (some sampleBase)
      = [sampleDocs, sampleDocs] := by
  decide

/-! ### Silent installation -/

/-- The strings of a list without its duplicates are the strings of the list. -/
theorem mem_removeDuplicates (l : List String) (t : String) :
    t ∈ removeDuplicates l ↔ t ∈ l := by
  induction l with
  | nil => simp [removeDuplicates]
  | cons s rest ih =>
    simp only [removeDuplicates, List.mem_cons, List.mem_filter, ih, decide_eq_true_eq]
    by_cases h : t = s <;> simp [h]

/-- No string is twice in a list without its duplicates. -/
theorem nodup_removeDuplicates (l : List String) : (removeDuplicates l).Nodup := by
  induction l with
  | nil => simp [removeDuplicates]
  | cons s rest ih =>
    simp only [removeDuplicates, List.nodup_cons, List.mem_filter, decide_eq_true_eq]
    exact ⟨fun h => h.2 rfl, ih.filter _⟩

/-- The number of strings of a list without its duplicates. -/
theorem length_removeDuplicates (l : List String) :
    (removeDuplicates l).length = l.toFinset.card := by
  rw [← List.toFinset_card_of_nodup (nodup_removeDuplicates l)]
  congr 1
  ext t
  simp [mem_removeDuplicates]

/-- The size test of `installSelectedComponentsSilently`: the requested names
add nothing to the keys exactly if each of them is a key. -/
theorem removeDuplicates_length_eq (requested keys : List String) :
    (removeDuplicates (requested ++ removeDuplicates keys)).length
        = (removeDuplicates keys).length ↔
      ∀ name ∈ requested, name ∈ keys := by
  rw [length_removeDuplicates, length_removeDuplicates]
  have hkeys : (removeDuplicates keys).toFinset = keys.toFinset := by
    ext t
    simp [mem_removeDuplicates]
  rw [List.toFinset_append, hkeys]
  constructor
  · intro h name hname
    have hsub : keys.toFinset ⊆ requested.toFinset ∪ keys.toFinset :=
      Finset.subset_union_right
    have heq := Finset.eq_of_subset_of_card_le hsub (le_of_eq h)
    have hmem : name ∈ requested.toFinset ∪ keys.toFinset :=
      Finset.mem_union_left _ (List.mem_toFinset.2 hname)
    rw [← heq] at hmem
    exact List.mem_toFinset.1 hmem
  · intro h
    have hsub : requested.toFinset ⊆ keys.toFinset := by
      intro t ht
      exact List.mem_toFinset.2 (h t (List.mem_toFinset.1 ht))
    rw [Finset.union_eq_right.2 hsub]

/-- A name is a key of the local packages hash exactly if the hash contains
it. -/
theorem localsContains_iff (locals : LocalPackagesHash) (name : String) :
    localsContains locals name = true ↔ name ∈ locals.map (fun package => package.name) := by
  simp only [localsContains, List.any_eq_true, decide_eq_true_eq, List.mem_map]

/-- The part of `installSelectedComponentsSilently` after the check of the
installed packages fetches the remote tree. -/
theorem installSelectedComponents_fetches (env : SilentEnv) (core : CoreState)
    (components : List String) :
    (installSelectedComponents env core components).fetchedRemoteTree = true := by
  unfold installSelectedComponents
  rcases env.fetchRemotePackagesTree core with ⟨fetched, core'⟩
  cases fetched
  · rfl
  · simp only []
    rcases env.checkComponentsForInstallation core' components with ⟨found, core''⟩
    cases found <;> rfl

/-- What `installSelectedComponentsSilently` returns from the maintenance tool
without running processes. -/
theorem installSelectedComponentsSilently_cases (env : SilentEnv) (core : CoreState)
    (components : List String) (hmode : isInstaller core = false)
    (hprocesses : env.runningProcessesFound = false) :
    installSelectedComponentsSilently env core components =
      if ∀ name ∈ components, localsContains env.localInstalledPackages name = true then
        Except.ok { status := Status.Canceled, core := setPackageManager core,
                    fetchedRemoteTree := false }
      else Except.ok (installSelectedComponents env (setPackageManager core) components) := by
  have hsize := removeDuplicates_length_eq components
    (env.localInstalledPackages.map (fun package => package.name))
  simp only [installSelectedComponentsSilently, hmode, hprocesses, Bool.not_false, if_true,
    Bool.false_eq_true, if_false, localsKeys, localsCount, hsize, localsContains_iff]

/-- C28: from the maintenance tool, without running processes,
`installSelectedComponentsSilently` returns Canceled without a call of
`fetchRemotePackagesTree` exactly if every requested name is the name of an
installed package; in that case the core is left in package-manager mode, and
that is the result for the empty list. -/
theorem installSelectedComponentsSilently_canceled (env : SilentEnv) (core : CoreState)
    (components : List String) (hmode : isInstaller core = false)
    (hprocesses : env.runningProcessesFound = false) :
    ((∃ result, installSelectedComponentsSilently env core components = Except.ok result ∧
        result.status = Status.Canceled ∧ result.fetchedRemoteTree = false) ↔
      ∀ name ∈ components, localsContains env.localInstalledPackages name = true) ∧
    ((∀ name ∈ components, localsContains env.localInstalledPackages name = true) →
      installSelectedComponentsSilently env core components =
        Except.ok { status := Status.Canceled, core := setPackageManager core,
                    fetchedRemoteTree := false }) ∧
    installSelectedComponentsSilently env core [] =
      Except.ok { status := Status.Canceled, core := setPackageManager core,
                  fetchedRemoteTree := false } := by
  have hcases := installSelectedComponentsSilently_cases env core components hmode hprocesses
  refine ⟨⟨?_, ?_⟩, ?_, ?_⟩
  · rintro ⟨result, hresult, -, hfetched⟩
    by_contra hall
    rw [hcases, if_neg hall] at hresult
    injection hresult with hresult
    rw [← hresult, installSelectedComponents_fetches] at hfetched
    exact Bool.noConfusion hfetched
  · intro hall
    rw [hcases, if_pos hall]
    exact ⟨_, rfl, rfl, rfl⟩
  · intro hall
    rw [hcases, if_pos hall]
  · rw [installSelectedComponentsSilently_cases env core [] hmode hprocesses, if_pos]
    intro name hname
    simp at hname

/-- C28 for a maintenance tool with the installed packages app and tool and
the request for both. -/
theorem installSelectedComponentsSilently_canceled_witness :
    installSelectedComponentsSilently sampleSilentEnv samplePackageManagerCore ["tool", "app"] =
      Except.ok { status := Status.Canceled,
                  core := setPackageManager samplePackageManagerCore,
                  fetchedRemoteTree := false } :=
  (installSelectedComponentsSilently_canceled sampleSilentEnv samplePackageManagerCore
    ["tool", "app"] (by decide) (by decide)).2.1 (by decide)

/-! ### Repository generator -/

/-- An iteration of the option loop that does not return removes the first
argument, and the value of an option with it. -/
theorem optionStep_shorter (fs : Repogen.FileSystem) (st st' : Repogen.Options)
    (first : String) (rest : List String)
    (h : Repogen.optionStep fs st first rest = Except.ok st') :
    st'.args.length ≤ rest.length := by
  unfold Repogen.optionStep at h
  split_ifs at h
  · injection h with h; subst h; simp
  · split at h
    · cases h
    · split_ifs at h
      injection h with h; subst h; simp
  · injection h with h; subst h; simp
  · split at h
    · cases h
    · split_ifs at h
      injection h with h; subst h; simp
  · split at h
    · cases h
    · split_ifs at h
      injection h with h; subst h; simp
  · split at h
    · cases h
    · injection h with h; subst h; simp

/-- The option loop ends within one iteration per argument, and more
iterations do not change its result. -/
theorem optionLoop_total (fs : Repogen.FileSystem) (n : Nat) :
    ∀ (st : Repogen.Options) (fuel : Nat), st.args.length ≤ n → n ≤ fuel →
      Repogen.optionLoop fs fuel st = Repogen.optionLoop fs n st ∧
      (Repogen.optionLoop fs n st).isSome = true := by
  induction n with
  | zero =>
    intro st fuel hlen _
    have hnil : st.args = [] := List.length_eq_zero.1 (Nat.le_zero.1 hlen)
    unfold Repogen.optionLoop
    simp [hnil]
  | succ m ih =>
    intro st fuel hlen hfuel
    obtain ⟨f, rfl⟩ : ∃ f, fuel = f + 1 := ⟨fuel - 1, by omega⟩
    unfold Repogen.optionLoop
    cases hargs : st.args with
    | nil => simp
    | cons first rest =>
      simp only []
      by_cases hdash : Repogen.startsWithDash first = true
      · simp only [hdash, if_true]
        cases hstep : Repogen.optionStep fs st first rest with
        | error code => simp
        | ok st' =>
          simp only []
          have hshort := optionStep_shorter fs st st' first rest hstep
          have hrest : rest.length ≤ m := by
            rw [hargs] at hlen
            simp at hlen
            exact hlen
          exact ih st' f (le_trans hshort hrest) (by omega)
      · simp [hdash]

/-- After a passed check of the number of arguments, with both directories
read from the positional arguments: three accesses and a component list of
at least one argument. -/
theorem positionalArguments_both (fs : Repogen.FileSystem) (st : Repogen.Options)
    (hcheck : Repogen.tooFewArguments st = false)
    (hpackages : st.packagesDir = "") (hconfig : st.configDir = "") :
    ∃ a b c d rest, st.args = a :: b :: c :: d :: rest ∧
      Repogen.positionalArguments fs st =
        some { packagesDir := fs.makeAbsolute a, configDir := fs.makeAbsolute b,
               repositoryDir := fs.makeAbsolute c, components := d :: rest } := by
  rcases hargs : st.args with _ | ⟨a, _ | ⟨b, _ | ⟨c, _ | ⟨d, rest⟩⟩⟩⟩ <;>
    simp [Repogen.tooFewArguments, hargs, hpackages, hconfig] at hcheck
  exact ⟨a, b, c, d, rest, rfl, by
    simp [Repogen.positionalArguments, hargs, hpackages, hconfig]⟩

/-- After a passed check, with the packages directory read from the positional
arguments and the config directory given by option. -/
theorem positionalArguments_packages (fs : Repogen.FileSystem) (st : Repogen.Options)
    (hcheck : Repogen.tooFewArguments st = false)
    (hpackages : st.packagesDir = "") (hconfig : st.configDir ≠ "") :
    ∃ a c d rest, st.args = a :: c :: d :: rest ∧
      Repogen.positionalArguments fs st =
        some { packagesDir := fs.makeAbsolute a, configDir := st.configDir,
               repositoryDir := fs.makeAbsolute c, components := d :: rest } := by
  rcases hargs : st.args with _ | ⟨a, _ | ⟨c, _ | ⟨d, rest⟩⟩⟩ <;>
    simp [Repogen.tooFewArguments, hargs, hpackages, hconfig] at hcheck
  exact ⟨a, c, d, rest, rfl, by
    simp [Repogen.positionalArguments, hargs, hpackages, hconfig]⟩

/-- After a passed check, with the packages directory given by option and the
config directory read from the positional arguments. -/
theorem positionalArguments_config (fs : Repogen.FileSystem) (st : Repogen.Options)
    (hcheck : Repogen.tooFewArguments st = false)
    (hpackages : st.packagesDir ≠ "") (hconfig : st.configDir = "") :
    ∃ b c d rest, st.args = b :: c :: d :: rest ∧
      Repogen.positionalArguments fs st =
        some { packagesDir := st.packagesDir, configDir := fs.makeAbsolute b,
               repositoryDir := fs.makeAbsolute c, components := d :: rest } := by
  rcases hargs : st.args with _ | ⟨b, _ | ⟨c, _ | ⟨d, rest⟩⟩⟩ <;>
    simp [Repogen.tooFewArguments, hargs, hpackages, hconfig] at hcheck
  exact ⟨b, c, d, rest, rfl, by
    simp [Repogen.positionalArguments, hargs, hpackages, hconfig]⟩

/-- After a passed check, with both directories given by option. -/
theorem positionalArguments_neither (fs : Repogen.FileSystem) (st : Repogen.Options)
    (hcheck : Repogen.tooFewArguments st = false)
    (hpackages : st.packagesDir ≠ "") (hconfig : st.configDir ≠ "") :
    ∃ c d rest, st.args = c :: d :: rest ∧
      Repogen.positionalArguments fs st =
        some { packagesDir := st.packagesDir, configDir := st.configDir,
               repositoryDir := fs.makeAbsolute c, components := d :: rest } := by
  rcases hargs : st.args with _ | ⟨c, _ | ⟨d, rest⟩⟩ <;>
    simp [Repogen.tooFewArguments, hargs, hpackages, hconfig] at hcheck
  exact ⟨c, d, rest, rfl, by
    simp [Repogen.positionalArguments, hargs, hpackages, hconfig]⟩

/-- After a passed check of the number of arguments every positional access
is inside the list and the component list is not empty. -/
theorem positionalArguments_some (fs : Repogen.FileSystem) (st : Repogen.Options)
    (hcheck : Repogen.tooFewArguments st = false) :
    ∃ p, Repogen.positionalArguments fs st = some p ∧ p.components ≠ [] := by
  by_cases hpackages : st.packagesDir = "" <;> by_cases hconfig : st.configDir = ""
  · obtain ⟨a, b, c, d, rest, -, h⟩ := positionalArguments_both fs st hcheck hpackages hconfig
    exact ⟨_, h, by simp⟩
  · obtain ⟨a, c, d, rest, -, h⟩ :=
      positionalArguments_packages fs st hcheck hpackages hconfig
    exact ⟨_, h, by simp⟩
  · obtain ⟨b, c, d, rest, -, h⟩ := positionalArguments_config fs st hcheck hpackages hconfig
    exact ⟨_, h, by simp⟩
  · obtain ⟨c, d, rest, -, h⟩ := positionalArguments_neither fs st hcheck hpackages hconfig
    exact ⟨_, h, by simp⟩

/-- C30: in `main` of repogen every iteration of the option loop that does
not return makes `args` shorter, so the loop ends within one iteration per
argument whatever the arguments are; after a passed check of the number of
arguments every access `args[argsPosition++]` is inside the list and the
component list `args.mid(argsPosition)` is not empty, in each of the four
combinations of the packages directory and the config directory being given
by option or not; hence `main` ends its argument handling with a returned
value or with a component list that is not empty, and never with an access
past the end. -/
theorem main_arguments_in_bounds (fs : Repogen.FileSystem) (args : List String)
    (st : Repogen.Options) (fuel : Nat) :
    (∀ first rest st', Repogen.optionStep fs st first rest = Except.ok st' →
      st'.args.length < (first :: rest).length) ∧
    (st.args.length ≤ fuel →
      Repogen.optionLoop fs fuel st = Repogen.optionLoop fs st.args.length st ∧
      (Repogen.optionLoop fs fuel st).isSome = true) ∧
    (Repogen.tooFewArguments st = false → st.packagesDir = "" → st.configDir = "" →
      ∃ a b c d rest, st.args = a :: b :: c :: d :: rest ∧
        Repogen.positionalArguments fs st =
          some { packagesDir := fs.makeAbsolute a, configDir := fs.makeAbsolute b,
                 repositoryDir := fs.makeAbsolute c, components := d :: rest }) ∧
    (Repogen.tooFewArguments st = false → st.packagesDir = "" → st.configDir ≠ "" →
      ∃ a c d rest, st.args = a :: c :: d :: rest ∧
        Repogen.positionalArguments fs st =
          some { packagesDir := fs.makeAbsolute a, configDir := st.configDir,
                 repositoryDir := fs.makeAbsolute c, components := d :: rest }) ∧
    (Repogen.tooFewArguments st = false → st.packagesDir ≠ "" → st.configDir = "" →
      ∃ b c d rest, st.args = b :: c :: d :: rest ∧
        Repogen.positionalArguments fs st =
          some { packagesDir := st.packagesDir, configDir := fs.makeAbsolute b,
                 repositoryDir := fs.makeAbsolute c, components := d :: rest }) ∧
    (Repogen.tooFewArguments st = false → st.packagesDir ≠ "" → st.configDir ≠ "" →
      ∃ c d rest, st.args = c :: d :: rest ∧
        Repogen.positionalArguments fs st =
          some { packagesDir := st.packagesDir, configDir := st.configDir,
                 repositoryDir := fs.makeAbsolute c, components := d :: rest }) ∧
    (∃ outcome, Repogen.main fs args = some outcome ∧ outcome ≠ Repogen.Outcome.outOfBounds ∧
      ∀ final positional, outcome = Repogen.Outcome.proceeds final positional →
        positional.components ≠ []) := by
  refine ⟨?_, ?_, positionalArguments_both fs st, positionalArguments_packages fs st,
    positionalArguments_config fs st, positionalArguments_neither fs st, ?_⟩
  · intro first rest st' h
    have := optionStep_shorter fs st st' first rest h
    simp only [List.length_cons]
    omega
  · intro hfuel
    obtain ⟨heq, hsome⟩ := optionLoop_total fs st.args.length st fuel (le_refl _) hfuel
    exact ⟨heq, by rw [heq]; exact hsome⟩
  · have hsome := (optionLoop_total fs args.length { args := args } args.length (le_refl _)
      (le_refl _)).2
    unfold Repogen.main
    cases hloop : Repogen.optionLoop fs args.length { args := args } with
    | none => rw [hloop] at hsome; exact Bool.noConfusion hsome
    | some result =>
      cases result with
      | error code =>
        exact ⟨_, rfl, fun h => Repogen.Outcome.noConfusion h,
          fun _ _ h => Repogen.Outcome.noConfusion h⟩
      | ok final =>
        simp only []
        by_cases hcheck : Repogen.tooFewArguments final = true
        · rw [if_pos hcheck]
          exact ⟨_, rfl, fun h => Repogen.Outcome.noConfusion h,
            fun _ _ h => Repogen.Outcome.noConfusion h⟩
        · rw [if_neg hcheck]
          have hcheck' : Repogen.tooFewArguments final = false := by simpa using hcheck
          obtain ⟨p, hp, hcomponents⟩ := positionalArguments_some fs final hcheck'
          rw [hp]
          refine ⟨_, rfl, fun h => Repogen.Outcome.noConfusion h, ?_⟩
          intro final' positional h
          injection h with _ hpos
          rw [← hpos]
          exact hcomponents

/-- C30 on the arguments of the usage example of repogen: the option loop
ends, with twenty allowed iterations as with one per argument. -/
theorem main_arguments_in_bounds_witness :
    Repogen.optionLoop sampleFileSystem 20 { args := sampleArguments } =
        Repogen.optionLoop sampleFileSystem 8 { args := sampleArguments } ∧
    (Repogen.optionLoop sampleFileSystem 20 { args := sampleArguments }).isSome = true :=
  (main_arguments_in_bounds sampleFileSystem sampleArguments { args := sampleArguments } 20).2.1
    (by decide)

/-- The argument handling of `main` on the usage example of repogen, and on
the old form of the call with both directories as positional arguments. -/
theorem main_usage_example :
    Repogen.main sampleFileSystem sampleArguments =
      some (Repogen.Outcome.proceeds
        { args := ["repository/", "com.nokia.sdk"], packagesDir := "../examples/packages",
          configDir := "../examples/config",
          redirectUpdateUrl := "http://www.some-server.com:8080" }
        { packagesDir := "../examples/packages", configDir := "../examples/config",
          repositoryDir := "repository/", components := ["com.nokia.sdk"] }) ∧
    Repogen.main sampleFileSystem ["packages", "config", "repository/", "com.nokia.sdk"] =
      some (Repogen.Outcome.proceeds
        { args := ["packages", "config", "repository/", "com.nokia.sdk"] }
        { packagesDir := "packages", configDir := "config",
          repositoryDir := "repository/", components := ["com.nokia.sdk"] }) ∧
    Repogen.main sampleFileSystem ["packages", "config", "repository/"] =
      some (Repogen.Outcome.returned 1) := by
  decide

/-! ### The refusal of the package-manager gate -/

/-- One iteration of the gate loop: a package that forces an update ends the
loop with `success` false, any other package leaves `success` as it is. -/
theorem essentialUpdateLoop_cons (ext : External) (installedPackages : LocalPackagesHash)
    (success : Bool) (update : Package) (rest : List Package) :
    essentialUpdateLoop ext installedPackages success (update :: rest) =
      if forcesUpdate ext installedPackages update then false
      else essentialUpdateLoop ext installedPackages success rest := by
  simp only [essentialUpdateLoop, forcesUpdate, flagIsTrue]
  rcases Bool.eq_false_or_eq_true (toLower (update.essential.getD scFalse) == scTrue)
    with he | he <;>
  rcases Bool.eq_false_or_eq_true (toLower (update.forcedUpdate.getD scFalse) == scTrue)
    with hf | hf <;>
  rcases Bool.eq_false_or_eq_true (localsContains installedPackages update.name)
    with hi | hi <;>
  rcases Bool.eq_false_or_eq_true
    (ext.packageNeedsUpdate (localsValue installedPackages update.name) update)
    with hn | hn <;>
  simp only [he, hf, hi, hn, essentialUpdateLoop_false, Bool.or_self,
    Bool.or_true, Bool.true_or, Bool.or_false, Bool.false_or, Bool.and_self, Bool.and_true,
    Bool.true_and, Bool.and_false, Bool.false_and, Bool.not_true, Bool.not_false, if_true,
    if_false, Bool.false_eq_true, decide_eq_true_eq, ge_iff_le] <;>
  by_cases hd : update.releaseDate
      ≤ (localsValue installedPackages update.name).lastUpdateDate <;>
  simp only [hd, if_true, if_false, not_lt.2, lt_of_not_ge] <;>
  simp_all

/-- The gate loop ends with `success` false exactly if it started with false
or the catalog holds a package that forces an update. -/
theorem essentialUpdateLoop_eq_false_iff (ext : External) (installedPackages : LocalPackagesHash)
    (success : Bool) (packages : List Package) :
    essentialUpdateLoop ext installedPackages success packages = false ↔
      success = false ∨ ∃ update ∈ packages, forcesUpdate ext installedPackages update = true := by
  induction packages with
  | nil => simp [essentialUpdateLoop]
  | cons update rest ih =>
    rw [essentialUpdateLoop_cons]
    by_cases h : forcesUpdate ext installedPackages update = true
    · simp [h]
    · simp [h, ih]

/-- The result of `fetchPackagesTree` in package-manager mode after a
successful `fetchAllPackages`. -/
theorem fetchPackagesTree_packageManager (ext : External) (core core' : CoreState)
    (packages : List Package) (installedPackages : LocalPackagesHash)
    (hupdater : isUpdater core = false) (hreinstaller : isReinstaller core = false)
    (hfetch : fetchAllPackages ext core packages installedPackages = (true, core'))
    (hstatus : statusCanceledOrFailed core' = false)
    (hmode : isPackageManager core' = true) :
    (essentialUpdateLoop ext installedPackages true packages = false →
      fetchPackagesTree ext core packages installedPackages =
        (false, setStatus (ext.updateDisplayVersions core') Status.ForceUpdate
          forceUpdateError)) ∧
    (essentialUpdateLoop ext installedPackages true packages = true →
      (fetchPackagesTree ext core packages installedPackages).1 = true) := by
  constructor
  · intro hloop
    simp [fetchPackagesTree, hupdater, hreinstaller, hfetch, hstatus, hmode, hloop]
  · intro hloop
    simp only [fetchPackagesTree, hupdater, hreinstaller, hfetch, hstatus, hmode, hloop,
      Bool.not_false, Bool.and_self, if_true, Bool.false_eq_true, if_false, Bool.not_true,
      Bool.true_and, Bool.false_and]
    split_ifs <;> rfl

/-- The refusal condition, spelled out. -/
theorem forcesUpdate_iff (ext : External) (installedPackages : LocalPackagesHash)
    (update : Package) :
    forcesUpdate ext installedPackages update = true ↔
      (flagIsTrue update.essential = true ∧
        localsContains installedPackages update.name = false) ∨
      ((flagIsTrue update.essential = true ∨ flagIsTrue update.forcedUpdate = true) ∧
        localsContains installedPackages update.name = true ∧
        ext.packageNeedsUpdate (localsValue installedPackages update.name) update = true ∧
        (localsValue installedPackages update.name).lastUpdateDate < update.releaseDate) := by
  simp only [forcesUpdate, Bool.or_eq_true, Bool.and_eq_true, Bool.not_eq_true',
    decide_eq_true_eq, and_assoc]

/-- C25: in `fetchPackagesTree`, outside updater and reinstaller mode and
after `fetchAllPackages` returned true without a canceled or failed status:
in package-manager mode the call returns false with the status ForceUpdate
exactly if the catalog holds a package that is essential and not installed,
or a package that is essential or a forced update, installed, in need of an
update and released strictly later than the local last-update date;
otherwise it returns true, so a catalog whose packages are not essential and
not installed is never refused; in installer mode it returns true whatever
the catalog holds. -/
theorem fetchPackagesTree_refusal (ext : External) (core core' : CoreState)
    (packages : List Package) (installedPackages : LocalPackagesHash)
    (hupdater : isUpdater core = false) (hreinstaller : isReinstaller core = false)
    (hfetch : fetchAllPackages ext core packages installedPackages = (true, core'))
    (hstatus : statusCanceledOrFailed core' = false) :
    (isPackageManager core' = true →
      (((fetchPackagesTree ext core packages installedPackages).1 = false ∧
          (fetchPackagesTree ext core packages installedPackages).2.status
            = Status.ForceUpdate) ↔
        ∃ update ∈ packages,
          (flagIsTrue update.essential = true ∧
            localsContains installedPackages update.name = false) ∨
          ((flagIsTrue update.essential = true ∨ flagIsTrue update.forcedUpdate = true) ∧
            localsContains installedPackages update.name = true ∧
            ext.packageNeedsUpdate (localsValue installedPackages update.name) update = true ∧
            (localsValue installedPackages update.name).lastUpdateDate
              < update.releaseDate)) ∧
      ((¬ ∃ update ∈ packages,
          (flagIsTrue update.essential = true ∧
            localsContains installedPackages update.name = false) ∨
          ((flagIsTrue update.essential = true ∨ flagIsTrue update.forcedUpdate = true) ∧
            localsContains installedPackages update.name = true ∧
            ext.packageNeedsUpdate (localsValue installedPackages update.name) update = true ∧
            (localsValue installedPackages update.name).lastUpdateDate
              < update.releaseDate)) →
        (fetchPackagesTree ext core packages installedPackages).1 = true) ∧
      ((∀ update ∈ packages, flagIsTrue update.essential = false ∧
          localsContains installedPackages update.name = false) →
        (fetchPackagesTree ext core packages installedPackages).1 = true)) ∧
    (isInstaller core' = true →
      (fetchPackagesTree ext core packages installedPackages).1 = true) := by
  have hloop := essentialUpdateLoop_eq_false_iff ext installedPackages true packages
  simp only [Bool.true_eq_false, false_or, forcesUpdate_iff] at hloop
  constructor
  · intro hmode
    obtain ⟨hrefused, hpassed⟩ := fetchPackagesTree_packageManager ext core core' packages
      installedPackages hupdater hreinstaller hfetch hstatus hmode
    have hnone : (¬ ∃ update ∈ packages,
          (flagIsTrue update.essential = true ∧
            localsContains installedPackages update.name = false) ∨
          ((flagIsTrue update.essential = true ∨ flagIsTrue update.forcedUpdate = true) ∧
            localsContains installedPackages update.name = true ∧
            ext.packageNeedsUpdate (localsValue installedPackages update.name) update = true ∧
            (localsValue installedPackages update.name).lastUpdateDate
              < update.releaseDate)) →
        (fetchPackagesTree ext core packages installedPackages).1 = true := by
      intro hno
      apply hpassed
      cases hvalue : essentialUpdateLoop ext installedPackages true packages with
      | true => rfl
      | false => exact absurd (hloop.1 hvalue) hno
    refine ⟨⟨?_, ?_⟩, hnone, ?_⟩
    · rintro ⟨hfalse, -⟩
      by_contra hno
      rw [hnone hno] at hfalse
      exact Bool.noConfusion hfalse
    · intro hsome
      rw [hrefused (hloop.2 hsome)]
      exact ⟨rfl, rfl⟩
    · intro hall
      apply hnone
      rintro ⟨update, hmem, h | h⟩
      · rw [(hall update hmem).1] at h
        exact Bool.noConfusion h.1
      · rw [(hall update hmem).2] at h
        exact Bool.noConfusion h.2.1
  · intro hmode
    have hmanager : isPackageManager core' = false := by
      simp only [isInstaller, decide_eq_true_eq] at hmode
      simp [isPackageManager, hmode]
    simp only [fetchPackagesTree, hupdater, hreinstaller, hfetch, hstatus, hmanager,
      Bool.not_false, Bool.and_self, if_true, Bool.false_eq_true, if_false, Bool.and_false]
    split_ifs <;> rfl

/-- C25 at a catalog with a forced update of a package that is not installed
and an essential update of the installed package tool, released after the last
update of tool: the call is refused because of the second package. -/
theorem fetchPackagesTree_refusal_witness :
    (fetchPackagesTree sampleExternal samplePackageManagerCore sampleGateCatalog
      sampleInstalledPackages).1 = false ∧
    (fetchPackagesTree sampleExternal samplePackageManagerCore sampleGateCatalog
      sampleInstalledPackages).2.status = Status.ForceUpdate :=
  ((fetchPackagesTree_refusal sampleExternal samplePackageManagerCore
    (fetchAllPackages sampleExternal samplePackageManagerCore sampleGateCatalog
      sampleInstalledPackages).2
    sampleGateCatalog sampleInstalledPackages (by decide) (by decide) (by decide)
    (by decide)).1 (by decide)).1.2
    ⟨{ name := "tool", version := "2.0", essential := some "true", releaseDate := 20 },
      by decide, Or.inr (by decide)⟩

/-! ### The package-manager gate and the updater -/

/-- The try block of `fetchUpdaterPackages` leaves the flag
`m_foundEssentialUpdate` alone. -/
theorem fetchUpdaterPackagesFinish_found (ext : External) (core : CoreState)
    (updates : List Component) :
    (fetchUpdaterPackagesFinish ext core updates).2.foundEssentialUpdate
      = core.foundEssentialUpdate := by
  unfold fetchUpdaterPackagesFinish
  by_cases hupdates : updates ≠ []
  · rw [if_pos hupdates]
    simp only []
    split
    · rfl
    · rfl
    · split
      · rfl
      · rfl
      · split_ifs
        · split <;> rfl
        · rfl
  · rw [if_neg hupdates]
    rfl

/-- The body of the first loop of `fetchUpdaterPackages` for an installed
package that is essential or a forced update and needs an update: the flag
`m_foundEssentialUpdate` is set unless the local last-update date is later
than the release date. -/
theorem fetchUpdaterPackage_found (ext : External) (locals : LocalPackagesHash)
    (st : UpdaterLoop) (update : Package) (component : Component)
    (hname : component.name = update.name)
    (hbefore : st.core.foundEssentialUpdate = false)
    (hinstalled : localsContains locals update.name = true)
    (hflag : flagIsTrue update.essential = true ∨ flagIsTrue update.forcedUpdate = true)
    (hneeds : ext.packageNeedsUpdate (localsValue locals update.name) update = true) :
    (fetchUpdaterPackage ext locals st update component).core.foundEssentialUpdate
      = decide ((localsValue locals update.name).lastUpdateDate ≤ update.releaseDate) := by
  have hflag' : (flagIsTrue update.essential || flagIsTrue update.forcedUpdate) = true := by
    rcases hflag with h | h <;> simp [h]
  simp only [fetchUpdaterPackage, hname, hinstalled, hneeds, Bool.true_or, Bool.not_true,
    Bool.false_and, Bool.false_eq_true, if_false, hflag', if_true]
  by_cases hdate : (localsValue locals update.name).lastUpdateDate > update.releaseDate
  · rw [if_pos hdate]
    simp [hbefore, not_le.2 hdate]
  · rw [if_neg hdate]
    simp [not_lt.1 hdate]

/-- With no component registered yet `updateComponentData` succeeds, leaves
the core state alone and keeps the name of the component. -/
theorem updateComponentData_fresh (ext : External) (core : CoreState)
    (locals : LocalPackagesHash) (package : Package) (component : Component) :
    ∃ data final, updateComponentData ext core {} locals package component
        = (true, core, data, final) ∧ final.name = component.name := by
  have hfresh : hashContains ({} : Data).components (packageKey package) = false := rfl
  unfold updateComponentData
  simp only [hfresh, Bool.false_eq_true, if_false]
  refine ⟨_, _, rfl, ?_⟩
  split_ifs <;> first | rfl | (split <;> rfl)

/-- The flag `m_foundEssentialUpdate` after `fetchUpdaterPackages` on a catalog
of one valid package that is installed, essential or a forced update, and in
need of an update. -/
theorem fetchUpdaterPackages_single_found (ext : External) (core : CoreState)
    (locals : LocalPackagesHash) (update : Package)
    (hstatus : statusCanceledOrFailed core = false)
    (hvalid : ext.isValidPackage update.name = true)
    (hinstalled : localsContains locals update.name = true)
    (hflag : flagIsTrue update.essential = true ∨ flagIsTrue update.forcedUpdate = true)
    (hneeds : ext.packageNeedsUpdate (localsValue locals update.name) update = true) :
    (fetchUpdaterPackages ext core [update] locals).2.foundEssentialUpdate
      = decide ((localsValue locals update.name).lastUpdateDate ≤ update.releaseDate) := by
  obtain ⟨data, final, hdata, hname⟩ := updateComponentData_fresh ext
    { clearUpdaterComponentLists core with foundEssentialUpdate := false } locals update
    (loadDataFromPackage update)
  have hstatus' : statusCanceledOrFailed
      { clearUpdaterComponentLists core with foundEssentialUpdate := false } = false := hstatus
  have hname' : final.name = update.name := hname
  simp only [fetchUpdaterPackages, fetchUpdaterPackagesRemotes, hstatus', hvalid, hdata,
    Bool.false_eq_true, if_false, Bool.not_true, fetchUpdaterPackagesFinish_found]
  exact fetchUpdaterPackage_found ext locals _ update final hname' rfl hinstalled hflag hneeds

/-- C26 (amended): for a catalog of one valid package that is installed,
essential or a forced update, and in need of an update, `fetchPackagesTree` in
package-manager mode refuses with ForceUpdate exactly if the release date is
strictly later than the local last-update date, and `fetchUpdaterPackages`
sets `m_foundEssentialUpdate` exactly if the release date is not earlier than
it; the two agree whenever the dates differ, and on equal dates the updater
sets the flag while the package manager is not refused. -/
theorem gate_and_updater_dates (ext : External) (core core' updaterCore : CoreState)
    (locals : LocalPackagesHash) (update : Package)
    (hupdater : isUpdater core = false) (hreinstaller : isReinstaller core = false)
    (hfetch : fetchAllPackages ext core [update] locals = (true, core'))
    (hstatus : statusCanceledOrFailed core' = false)
    (hmode : isPackageManager core' = true)
    (hstatus' : statusCanceledOrFailed updaterCore = false)
    (hvalid : ext.isValidPackage update.name = true)
    (hinstalled : localsContains locals update.name = true)
    (hflag : flagIsTrue update.essential = true ∨ flagIsTrue update.forcedUpdate = true)
    (hneeds : ext.packageNeedsUpdate (localsValue locals update.name) update = true) :
    (((fetchPackagesTree ext core [update] locals).1 = false ∧
        (fetchPackagesTree ext core [update] locals).2.status = Status.ForceUpdate) ↔
      (localsValue locals update.name).lastUpdateDate < update.releaseDate) ∧
    ((fetchUpdaterPackages ext updaterCore [update] locals).2.foundEssentialUpdate = true ↔
      (localsValue locals update.name).lastUpdateDate ≤ update.releaseDate) ∧
    ((localsValue locals update.name).lastUpdateDate ≠ update.releaseDate →
      (((fetchPackagesTree ext core [update] locals).1 = false ∧
          (fetchPackagesTree ext core [update] locals).2.status = Status.ForceUpdate) ↔
        (fetchUpdaterPackages ext updaterCore [update] locals).2.foundEssentialUpdate
          = true)) ∧
    ((localsValue locals update.name).lastUpdateDate = update.releaseDate →
      (fetchPackagesTree ext core [update] locals).1 = true ∧
      (fetchUpdaterPackages ext updaterCore [update] locals).2.foundEssentialUpdate
        = true) := by
  have hloop : essentialUpdateLoop ext locals true [update] = false ↔
      (localsValue locals update.name).lastUpdateDate < update.releaseDate := by
    rw [essentialUpdateLoop_eq_false_iff]
    simp only [Bool.true_eq_false, false_or, List.mem_singleton, exists_eq_left,
      forcesUpdate_iff, hinstalled, hneeds, hflag, true_and, and_false, false_or]
  obtain ⟨hrefused, hpassed⟩ := fetchPackagesTree_packageManager ext core core' [update]
    locals hupdater hreinstaller hfetch hstatus hmode
  have hgate : ((fetchPackagesTree ext core [update] locals).1 = false ∧
        (fetchPackagesTree ext core [update] locals).2.status = Status.ForceUpdate) ↔
      (localsValue locals update.name).lastUpdateDate < update.releaseDate := by
    constructor
    · rintro ⟨hfalse, -⟩
      by_contra hdate
      have htrue : essentialUpdateLoop ext locals true [update] = true := by
        cases hvalue : essentialUpdateLoop ext locals true [update] with
        | true => rfl
        | false => exact absurd (hloop.1 hvalue) hdate
      rw [hpassed htrue] at hfalse
      exact Bool.noConfusion hfalse
    · intro hdate
      rw [hrefused (hloop.2 hdate)]
      exact ⟨rfl, rfl⟩
  have hfound : (fetchUpdaterPackages ext updaterCore [update] locals).2.foundEssentialUpdate
        = true ↔
      (localsValue locals update.name).lastUpdateDate ≤ update.releaseDate := by
    rw [fetchUpdaterPackages_single_found ext updaterCore locals update hstatus' hvalid
      hinstalled hflag hneeds, decide_eq_true_eq]
  refine ⟨hgate, hfound, ?_, ?_⟩
  · intro hne
    rw [hgate, hfound]
    exact ⟨le_of_lt, fun hle => lt_of_le_of_ne hle hne⟩
  · intro heq
    refine ⟨?_, hfound.2 (le_of_eq heq)⟩
    apply hpassed
    cases hvalue : essentialUpdateLoop ext locals true [update] with
    | true => rfl
    | false => exact absurd (hloop.1 hvalue) (by rw [heq]; exact lt_irrefl _)

/-- C26 (amended) at an essential update of the installed package tool that
was released after the last update of tool: the package manager is refused
and the updater sets the flag. -/
theorem gate_and_updater_dates_witness :
    ((fetchPackagesTree sampleExternal samplePackageManagerCore [sampleLaterUpdate]
        sampleInstalledPackages).1 = false ∧
      (fetchPackagesTree sampleExternal samplePackageManagerCore [sampleLaterUpdate]
        sampleInstalledPackages).2.status = Status.ForceUpdate) ∧
    (fetchUpdaterPackages sampleExternal sampleRunningUpdaterCore [sampleLaterUpdate]
      sampleInstalledPackages).2.foundEssentialUpdate = true :=
  ⟨(gate_and_updater_dates sampleExternal samplePackageManagerCore
      (fetchAllPackages sampleExternal samplePackageManagerCore [sampleLaterUpdate]
        sampleInstalledPackages).2
      sampleRunningUpdaterCore sampleInstalledPackages sampleLaterUpdate (by decide)
      (by decide) (by decide) (by decide) (by decide) (by decide) (by decide) (by decide)
      (Or.inl (by decide)) (by decide)).1.2 (by decide),
   (gate_and_updater_dates sampleExternal samplePackageManagerCore
      (fetchAllPackages sampleExternal samplePackageManagerCore [sampleLaterUpdate]
        sampleInstalledPackages).2
      sampleRunningUpdaterCore sampleInstalledPackages sampleLaterUpdate (by decide)
      (by decide) (by decide) (by decide) (by decide) (by decide) (by decide) (by decide)
      (Or.inl (by decide)) (by decide)).2.1.2 (by decide)⟩

/-- C26 (counterexample): an essential update of the installed package tool,
in need of an update, whose release date is the local last-update date of
tool. The package manager is not refused: `fetchPackagesTree` returns true
with the status Success; the updater sets `m_foundEssentialUpdate`. -/
theorem gate_and_updater_differ_on_equal_dates :
    localsContains sampleInstalledPackages sampleSameDayUpdate.name = true ∧
    flagIsTrue sampleSameDayUpdate.essential = true ∧
    sampleExternal.packageNeedsUpdate
      (localsValue sampleInstalledPackages sampleSameDayUpdate.name) sampleSameDayUpdate
        = true ∧
    (localsValue sampleInstalledPackages sampleSameDayUpdate.name).lastUpdateDate
      = sampleSameDayUpdate.releaseDate ∧
    fetchPackagesTree sampleExternal samplePackageManagerCore [sampleSameDayUpdate]
        sampleInstalledPackages
      = (true, setStatus (fetchAllPackages sampleExternal samplePackageManagerCore
          [sampleSameDayUpdate] sampleInstalledPackages).2 Status.Success "") ∧
    (fetchUpdaterPackages sampleExternal sampleRunningUpdaterCore [sampleSameDayUpdate]
      sampleInstalledPackages).2.foundEssentialUpdate = true := by
  decide

/-! ### Display versions -/

/-- A chain starts with its start name. -/
theorem inheritChain_head (components : List (String × Component)) (start : String)
    (names : List String) (last : Component)
    (h : InheritChain components start names last) :
    ∃ rest, names = start :: rest := by
  cases h with
  | last _ _ _ => exact ⟨[], rfl⟩
  | step _ _ rest _ _ _ _ => exact ⟨rest, rfl⟩

/-- A key with a value is among the keys of the list. -/
theorem mem_keys_of_hashValue {K V : Type} [DecidableEq K] (m : List (K × V)) (key : K) (v : V)
    (h : hashValue m key = some v) : key ∈ m.map Prod.fst := by
  induction m with
  | nil => simp [hashValue] at h
  | cons e rest ih =>
    obtain ⟨k, w⟩ := e
    by_cases hk : k = key
    · simp [hk]
    · simp only [hashValue, hk, if_false] at h
      simp [ih h]

/-- A key among the keys of the list has a value. -/
theorem hashValue_of_mem_keys {K V : Type} [DecidableEq K] (m : List (K × V)) (key : K)
    (h : key ∈ m.map Prod.fst) : ∃ v, hashValue m key = some v := by
  induction m with
  | nil => simp at h
  | cons e rest ih =>
    obtain ⟨k, w⟩ := e
    by_cases hk : k = key
    · exact ⟨w, by simp [hashValue, hk]⟩
    · have hrest : key ∈ rest.map Prod.fst := by
        simp only [List.map_cons, List.mem_cons] at h
        rcases h with h | h
        · exact absurd h.symm hk
        · exact h
      obtain ⟨v, hv⟩ := ih hrest
      exact ⟨v, by simp [hashValue, hk, hv]⟩

/-- The names of a chain are keys of the map. -/
theorem inheritChain_keys (components : List (String × Component)) (start : String)
    (names : List String) (last : Component)
    (h : InheritChain components start names last) :
    ∀ name ∈ names, name ∈ components.map Prod.fst := by
  induction h with
  | last name component hcomponent =>
    intro x hx
    simp only [List.mem_singleton] at hx
    subst hx
    exact mem_keys_of_hashValue components _ component hcomponent
  | step name component rest last hcomponent _ _ ih =>
    intro x hx
    rcases List.mem_cons.1 hx with hx | hx
    · subst hx
      exact mem_keys_of_hashValue components _ component hcomponent
    · exact ih x hx

/-- A chain without a repeated name is not longer than the map. -/
theorem inheritChain_length (components : List (String × Component)) (start : String)
    (names : List String) (last : Component)
    (h : InheritChain components start names last) (hnodup : names.Nodup) :
    names.length ≤ components.length := by
  have hsub : names ⊆ components.map Prod.fst := inheritChain_keys components start names last h
  have := (List.subperm_of_subset hnodup hsub).length_le
  simpa using this

/-- Along a chain without a repeated name whose last component inherits from
nothing, `findDisplayVersion` returns the version of the last component. -/
theorem findDisplayVersion_chain_end (components : List (String × Component))
    (versionKey : Component → String) (start : String) (names : List String)
    (last : Component) (h : InheritChain components start names last)
    (hlast : last.inheritVersion = "") :
    ∀ (fuel : Nat) (visited : List String), names.Nodup → (∀ name ∈ names, name ∉ visited) →
      names.length ≤ fuel →
      findDisplayVersion components versionKey fuel start visited
        = some (versionKey last) := by
  induction h with
  | last name component hcomponent =>
    intro fuel visited _ _ hfuel
    obtain ⟨f, rfl⟩ : ∃ f, fuel = f + 1 := ⟨fuel - 1, by simp at hfuel; omega⟩
    simp [findDisplayVersion, hcomponent, hlast]
  | step name component rest last hcomponent hinherit hrest ih =>
    intro fuel visited hnodup hvisited hfuel
    obtain ⟨f, rfl⟩ : ∃ f, fuel = f + 1 := ⟨fuel - 1, by simp at hfuel; omega⟩
    obtain ⟨tail, htail⟩ := inheritChain_head components _ rest last hrest
    have hmem : component.inheritVersion ∈ rest := by rw [htail]; exact List.mem_cons_self _ _
    obtain ⟨hname, hnodup'⟩ := List.nodup_cons.1 hnodup
    have hne : component.inheritVersion ≠ name := fun heq => hname (heq ▸ hmem)
    have hnot : component.inheritVersion ∉ visited :=
      hvisited _ (List.mem_cons_of_mem _ hmem)
    have hcontains : (name :: visited).contains component.inheritVersion = false := by
      simp [hne, hnot]
    simp only [findDisplayVersion, hcomponent, hinherit, if_false, hcontains,
      Bool.false_eq_true]
    apply ih hlast f (name :: visited) hnodup'
    · intro x hx hxv
      rcases List.mem_cons.1 hxv with hxv | hxv
      · exact hname (hxv ▸ hx)
      · exact hvisited x (List.mem_cons_of_mem _ hx) hxv
    · simp at hfuel
      omega

/-- Along a chain without a repeated name whose last component inherits from
a visited name or from a name that is not in the map, `findDisplayVersion`
returns the empty string. -/
theorem findDisplayVersion_chain_broken (components : List (String × Component))
    (versionKey : Component → String) (start : String) (names : List String)
    (last : Component) (h : InheritChain components start names last)
    (hlast : last.inheritVersion ≠ "") :
    ∀ (fuel : Nat) (visited : List String), names.Nodup → (∀ name ∈ names, name ∉ visited) →
      (last.inheritVersion ∈ names ∨ last.inheritVersion ∈ visited ∨
        hashValue components last.inheritVersion = none) →
      names.length + 1 ≤ fuel →
      findDisplayVersion components versionKey fuel start visited = some "" := by
  induction h with
  | last name component hcomponent =>
    intro fuel visited _ _ hbroken hfuel
    obtain ⟨f, rfl⟩ : ∃ f, fuel = f + 2 := ⟨fuel - 2, by simp at hfuel; omega⟩
    by_cases hcontains : (name :: visited).contains component.inheritVersion = true
    · simp only [findDisplayVersion, hcomponent, hlast, if_false, hcontains, if_true]
    · have hmissing : hashValue components component.inheritVersion = none := by
        rcases hbroken with hb | hb | hb
        · exact absurd (by simpa using Or.inl (List.mem_singleton.1 hb)) hcontains
        · exact absurd (by simpa using Or.inr hb) hcontains
        · exact hb
      simp only [findDisplayVersion, hcomponent, hlast, if_false, hcontains, hmissing,
        Bool.false_eq_true]
  | step name component rest last hcomponent hinherit hrest ih =>
    intro fuel visited hnodup hvisited hbroken hfuel
    obtain ⟨f, rfl⟩ : ∃ f, fuel = f + 1 := ⟨fuel - 1, by simp at hfuel; omega⟩
    obtain ⟨tail, htail⟩ := inheritChain_head components _ rest last hrest
    have hmem : component.inheritVersion ∈ rest := by rw [htail]; exact List.mem_cons_self _ _
    obtain ⟨hname, hnodup'⟩ := List.nodup_cons.1 hnodup
    have hne : component.inheritVersion ≠ name := fun heq => hname (heq ▸ hmem)
    have hnot : component.inheritVersion ∉ visited :=
      hvisited _ (List.mem_cons_of_mem _ hmem)
    have hcontains : (name :: visited).contains component.inheritVersion = false := by
      simp [hne, hnot]
    simp only [findDisplayVersion, hcomponent, hinherit, if_false, hcontains,
      Bool.false_eq_true]
    apply ih hlast f (name :: visited) hnodup'
    · intro x hx hxv
      rcases List.mem_cons.1 hxv with hxv | hxv
      · exact hname (hxv ▸ hx)
      · exact hvisited x (List.mem_cons_of_mem _ hx) hxv
    · rcases hbroken with hb | hb | hb
      · rcases List.mem_cons.1 hb with hb | hb
        · exact Or.inr (Or.inl (hb ▸ List.mem_cons_self _ _))
        · exact Or.inl hb
      · exact Or.inr (Or.inl (List.mem_cons_of_mem _ hb))
      · exact Or.inr (Or.inr hb)
    · simp at hfuel
      omega

/-- From every name that is in the map a chain without a repeated name leads
to a component that inherits from nothing, from a name of the chain, from a
visited name, or from a name that is not in the map. -/
theorem inheritChain_exists (components : List (String × Component)) :
    ∀ (n : Nat) (start : String) (visited : List String), start ∉ visited →
      ((components.map Prod.fst).toFinset \ visited.toFinset).card ≤ n →
      hashValue components start = none ∨
      ∃ names last, InheritChain components start names last ∧ names.Nodup ∧
        (∀ name ∈ names, name ∉ visited) ∧
        (last.inheritVersion = "" ∨ last.inheritVersion ∈ names ∨
          last.inheritVersion ∈ visited ∨
          hashValue components last.inheritVersion = none) := by
  intro n
  induction n with
  | zero =>
    intro start visited hstart hcard
    left
    cases hvalue : hashValue components start with
    | none => rfl
    | some component =>
      exfalso
      have hkey := mem_keys_of_hashValue components start component hvalue
      have hmem : start ∈ (components.map Prod.fst).toFinset \ visited.toFinset := by
        simp only [Finset.mem_sdiff, List.mem_toFinset]
        exact ⟨hkey, hstart⟩
      have hpos := Finset.card_pos.2 ⟨start, hmem⟩
      omega
  | succ n ih =>
    intro start visited hstart hcard
    cases hvalue : hashValue components start with
    | none => exact Or.inl rfl
    | some component =>
      right
      have hkey := mem_keys_of_hashValue components start component hvalue
      have hsingle : ∀ name ∈ [start], name ∉ visited := by
        intro x hx
        rw [List.mem_singleton.1 hx]
        exact hstart
      by_cases hempty : component.inheritVersion = ""
      · exact ⟨[start], component, InheritChain.last start component hvalue,
          List.nodup_singleton _, hsingle, Or.inl hempty⟩
      by_cases hself : component.inheritVersion = start
      · exact ⟨[start], component, InheritChain.last start component hvalue,
          List.nodup_singleton _, hsingle, Or.inr (Or.inl (by simp [hself]))⟩
      by_cases hvisited : component.inheritVersion ∈ visited
      · exact ⟨[start], component, InheritChain.last start component hvalue,
          List.nodup_singleton _, hsingle, Or.inr (Or.inr (Or.inl hvisited))⟩
      have hnext : component.inheritVersion ∉ start :: visited := by
        simp [hself, hvisited]
      have hcard' : ((components.map Prod.fst).toFinset \ (start :: visited).toFinset).card
          ≤ n := by
        have hmem : start ∈ (components.map Prod.fst).toFinset \ visited.toFinset := by
          simp only [Finset.mem_sdiff, List.mem_toFinset]
          exact ⟨hkey, hstart⟩
        have heq : (components.map Prod.fst).toFinset \ (start :: visited).toFinset
            = ((components.map Prod.fst).toFinset \ visited.toFinset).erase start := by
          ext x
          simp only [List.toFinset_cons, Finset.mem_sdiff, Finset.mem_insert, List.mem_toFinset,
            Finset.mem_erase]
          tauto
        rw [heq, Finset.card_erase_of_mem hmem]
        omega
      rcases ih component.inheritVersion (start :: visited) hnext hcard' with hnone | hchain
      · exact ⟨[start], component, InheritChain.last start component hvalue,
          List.nodup_singleton _, hsingle, Or.inr (Or.inr (Or.inr hnone))⟩
      · obtain ⟨names, last, hchain, hnodup, hdisjoint, hend⟩ := hchain
        refine ⟨start :: names, last,
          InheritChain.step start component names last hvalue hempty hchain, ?_, ?_, ?_⟩
        · exact List.nodup_cons.2
            ⟨fun hmem => hdisjoint start hmem (List.mem_cons_self _ _), hnodup⟩
        · intro x hx
          rcases List.mem_cons.1 hx with hx | hx
          · rw [hx]; exact hstart
          · exact fun hxv => hdisjoint x hx (List.mem_cons_of_mem _ hxv)
        · rcases hend with h | h | h | h
          · exact Or.inl h
          · exact Or.inr (Or.inl (List.mem_cons_of_mem _ h))
          · rcases List.mem_cons.1 h with h | h
            · exact Or.inr (Or.inl (h ▸ List.mem_cons_self _ _))
            · exact Or.inr (Or.inr (Or.inl h))
          · exact Or.inr (Or.inr (Or.inr h))

/-- C27: `findDisplayVersion`, called with an empty `visited`, ends within
one call per entry of the map and one more, whatever the map and the start
name are, also when the `inheritVersion` references form a cycle or a
component inherits from itself. It returns the empty string when the start
name is not in the map, or when the chain of references from the start name
reaches, without a repeated name, a component that inherits from a name of
the chain or from a name that is not in the map; it returns the value of the
version key of the last component when the chain reaches a component with an
empty `inheritVersion`; one of these cases always holds. -/
theorem findDisplayVersion_terminates (components : List (String × Component))
    (versionKey : Component → String) (start : String) :
    (∃ result, ∀ fuel, components.length + 1 ≤ fuel →
      findDisplayVersion components versionKey fuel start [] = some result) ∧
    (hashValue components start = none → ∀ fuel, components.length + 1 ≤ fuel →
      findDisplayVersion components versionKey fuel start [] = some "") ∧
    (∀ names last, InheritChain components start names last → names.Nodup →
      (last.inheritVersion = "" → ∀ fuel, components.length + 1 ≤ fuel →
        findDisplayVersion components versionKey fuel start [] = some (versionKey last)) ∧
      (last.inheritVersion ≠ "" →
        (last.inheritVersion ∈ names ∨ hashValue components last.inheritVersion = none) →
        ∀ fuel, components.length + 1 ≤ fuel →
          findDisplayVersion components versionKey fuel start [] = some "")) ∧
    (hashValue components start = none ∨
      ∃ names last, InheritChain components start names last ∧ names.Nodup ∧
        (last.inheritVersion = "" ∨ last.inheritVersion ∈ names ∨
          hashValue components last.inheritVersion = none)) := by
  have hmissing : hashValue components start = none → ∀ fuel, components.length + 1 ≤ fuel →
      findDisplayVersion components versionKey fuel start [] = some "" := by
    intro hnone fuel hfuel
    obtain ⟨f, rfl⟩ : ∃ f, fuel = f + 1 := ⟨fuel - 1, by omega⟩
    simp [findDisplayVersion, hnone]
  have hchain : ∀ names last, InheritChain components start names last → names.Nodup →
      (last.inheritVersion = "" → ∀ fuel, components.length + 1 ≤ fuel →
        findDisplayVersion components versionKey fuel start [] = some (versionKey last)) ∧
      (last.inheritVersion ≠ "" →
        (last.inheritVersion ∈ names ∨ hashValue components last.inheritVersion = none) →
        ∀ fuel, components.length + 1 ≤ fuel →
          findDisplayVersion components versionKey fuel start [] = some "") := by
    intro names last hnames hnodup
    have hlength := inheritChain_length components start names last hnames hnodup
    constructor
    · intro hlast fuel hfuel
      exact findDisplayVersion_chain_end components versionKey start names last hnames hlast
        fuel [] hnodup (fun _ _ h => by simp at h) (by omega)
    · intro hlast hbroken fuel hfuel
      apply findDisplayVersion_chain_broken components versionKey start names last hnames hlast
        fuel [] hnodup (fun _ _ h => by simp at h) _ (by omega)
      rcases hbroken with h | h
      · exact Or.inl h
      · exact Or.inr (Or.inr h)
  have hcases : hashValue components start = none ∨
      ∃ names last, InheritChain components start names last ∧ names.Nodup ∧
        (last.inheritVersion = "" ∨ last.inheritVersion ∈ names ∨
          hashValue components last.inheritVersion = none) := by
    rcases inheritChain_exists components _ start [] (by simp) (le_refl _) with h | h
    · exact Or.inl h
    · obtain ⟨names, last, hnames, hnodup, -, hend⟩ := h
      refine Or.inr ⟨names, last, hnames, hnodup, ?_⟩
      rcases hend with h | h | h | h
      · exact Or.inl h
      · exact Or.inr (Or.inl h)
      · simp at h
      · exact Or.inr (Or.inr h)
  refine ⟨?_, hmissing, hchain, hcases⟩
  rcases hcases with h | ⟨names, last, hnames, hnodup, hend⟩
  · exact ⟨"", hmissing h⟩
  · by_cases hlast : last.inheritVersion = ""
    · exact ⟨versionKey last, (hchain names last hnames hnodup).1 hlast⟩
    · refine ⟨"", (hchain names last hnames hnodup).2 hlast ?_⟩
      rcases hend with h | h | h
      · exact absurd h hlast
      · exact Or.inl h
      · exact Or.inr h

/-- C27 in a map in which a and b inherit from each other and c inherits from
d: the empty string for the cycle from a, the version of d for c. -/
theorem findDisplayVersion_terminates_witness :
    findDisplayVersion sampleVersionMap (fun component => component.version) 5 "a" []
      = some "" ∧
    findDisplayVersion sampleVersionMap (fun component => component.version) 5 "c" []
      = some "4.0" :=
  ⟨((findDisplayVersion_terminates sampleVersionMap (fun component => component.version)
      "a").2.2.1 ["a", "b"] { name := "b", version := "2.0", inheritVersion := "a" }
      (InheritChain.step "a" { name := "a", version := "1.0", inheritVersion := "b" } ["b"]
        { name := "b", version := "2.0", inheritVersion := "a" } (by decide) (by decide)
        (InheritChain.last "b" { name := "b", version := "2.0", inheritVersion := "a" }
          (by decide)))
      (by decide)).2 (by decide) (Or.inl (by decide)) 5 (by decide),
   ((findDisplayVersion_terminates sampleVersionMap (fun component => component.version)
      "c").2.2.1 ["c", "d"] { name := "d", version := "4.0" }
      (InheritChain.step "c" { name := "c", version := "3.0", inheritVersion := "d" } ["d"]
        { name := "d", version := "4.0" } (by decide) (by decide)
        (InheritChain.last "d" { name := "d", version := "4.0" } (by decide)))
      (by decide)).1 (by decide) 5 (by decide)⟩

/-! ### Install resolver -/

/-- A component that satisfies a requirement is a component of the list. -/
theorem componentByNameIn_mem (cmp : String → String → Int) (name : String)
    (components : List Component) (found : Component)
    (h : componentByNameIn cmp name components = some found) : found ∈ components := by
  unfold componentByNameIn at h
  split_ifs at h
  exact List.mem_of_find?_eq_some h

/-- The loop over the dependencies ends when every nested call ends. -/
theorem resolveDependencies_isSome (cmp : String → String → Int) (catalog : List Component)
    (visit : ResolverState → Component → Option ResolverState)
    (hvisit : ∀ st found, found ∈ catalog → (visit st found).isSome = true)
    (dependencies : List String) (st : ResolverState) :
    (dependencies.foldl (resolveDependency cmp catalog visit) (some st)).isSome = true := by
  induction dependencies generalizing st with
  | nil => rfl
  | cons dependency rest ih =>
    simp only [List.foldl_cons, resolveDependency]
    cases hfound : componentByNameIn cmp dependency catalog with
    | none => exact ih _
    | some found =>
      have hsome := hvisit st found (componentByNameIn_mem cmp dependency catalog found hfound)
      obtain ⟨st', hst'⟩ := Option.isSome_iff_exists.1 hsome
      simp only [hst']
      exact ih st'

/-- The resolution of a component ends within one nested call per component
that is not under resolution, and one more. -/
theorem resolveComponent_isSome (cmp : String → String → Int) (catalog all : List Component)
    (hcatalog : ∀ component ∈ catalog, component ∈ all) :
    ∀ (fuel : Nat) (path : List Component) (st : ResolverState) (component : Component),
      path.Nodup → (∀ c ∈ path, c ∈ all) → component ∈ all →
      all.length < fuel + path.length →
      (resolveComponent cmp catalog fuel path st component).isSome = true := by
  intro fuel
  induction fuel with
  | zero =>
    intro path st component hnodup hpath _ hfuel
    have := (List.subperm_of_subset hnodup hpath).length_le
    omega
  | succ fuel ih =>
    intro path st component hnodup hpath hall hfuel
    simp only [resolveComponent]
    by_cases hordered : component ∈ st.ordered
    · simp [hordered]
    by_cases hcycle : component ∈ path
    · simp [hordered, hcycle]
    have hsome := resolveDependencies_isSome cmp catalog
      (resolveComponent cmp catalog fuel (component :: path))
      (fun st' found hfound => ih (component :: path) st' found
        (List.nodup_cons.2 ⟨hcycle, hnodup⟩)
        (fun c hc => by
          rcases List.mem_cons.1 hc with hc | hc
          · rw [hc]; exact hall
          · exact hpath c hc)
        (hcatalog found hfound)
        (by simp only [List.length_cons]; omega))
      component.requirements st
    obtain ⟨st', hst'⟩ := Option.isSome_iff_exists.1 hsome
    simp [hordered, hcycle, hst']

/-- The resolution of the selected components ends. -/
theorem resolveComponents_isSome (cmp : String → String → Int) (catalog : List Component)
    (selected : List Component) :
    (resolveComponents cmp catalog selected).isSome = true := by
  have hloop : ∀ (pending : List Component) (st : ResolverState),
      (∀ c ∈ pending, c ∈ selected ++ catalog) →
      (pending.foldl
        (resolveSelected cmp catalog (selected.length + catalog.length + 1))
        (some st)).isSome = true := by
    intro pending
    induction pending with
    | nil => intro st _; rfl
    | cons component rest ih =>
      intro st hpending
      have hsome := resolveComponent_isSome cmp catalog (selected ++ catalog)
        (fun c hc => List.mem_append_right _ hc) (selected.length + catalog.length + 1) [] st
        component List.nodup_nil (fun c hc => by simp at hc)
        (hpending component (List.mem_cons_self _ _)) (by simp)
      obtain ⟨st', hst'⟩ := Option.isSome_iff_exists.1 hsome
      simp only [List.foldl_cons, resolveSelected, hst']
      exact ih st' (fun c hc => hpending c (List.mem_cons_of_mem _ hc))
  exact hloop selected {} (fun c hc => List.mem_append_left _ hc)

/-- A loop that has run out of fuel stays so. -/
theorem resolveDependencies_none (cmp : String → String → Int) (catalog : List Component)
    (visit : ResolverState → Component → Option ResolverState) (dependencies : List String) :
    dependencies.foldl (resolveDependency cmp catalog visit) none = none := by
  induction dependencies with
  | nil => rfl
  | cons dependency rest ih => simpa [List.foldl_cons, resolveDependency] using ih

/-- The loop over the dependencies records errors and drops none, when the
nested calls do so. -/
theorem resolveDependencies_errors (cmp : String → String → Int) (catalog : List Component)
    (visit : ResolverState → Component → Option ResolverState)
    (hvisit : ∀ st found st', visit st found = some st' → st'.errors = [] → st.errors = [])
    (dependencies : List String) (st st' : ResolverState)
    (h : dependencies.foldl (resolveDependency cmp catalog visit) (some st) = some st')
    (herrors : st'.errors = []) : st.errors = [] := by
  induction dependencies generalizing st with
  | nil =>
    simp only [List.foldl_nil, Option.some.injEq] at h
    rw [h]; exact herrors
  | cons dependency rest ih =>
    simp only [List.foldl_cons, resolveDependency] at h
    cases hfound : componentByNameIn cmp dependency catalog with
    | none =>
      simp only [hfound] at h
      have := ih _ h
      simp at this
    | some found =>
      simp only [hfound] at h
      cases hnext : visit st found with
      | none =>
        rw [hnext, resolveDependencies_none] at h
        cases h
      | some next =>
        rw [hnext] at h
        exact hvisit st found next hnext (ih next h)

/-- The resolution of a component records errors and drops none. -/
theorem resolveComponent_errors (cmp : String → String → Int) (catalog : List Component) :
    ∀ (fuel : Nat) (path : List Component) (st : ResolverState) (component : Component)
      (st' : ResolverState),
      resolveComponent cmp catalog fuel path st component = some st' →
      st'.errors = [] → st.errors = [] := by
  intro fuel
  induction fuel with
  | zero =>
    intro path st component st' h
    simp [resolveComponent] at h
  | succ fuel ih =>
    intro path st component st' h herrors
    simp only [resolveComponent] at h
    by_cases hordered : component ∈ st.ordered
    · rw [if_pos hordered] at h
      injection h with h
      rw [h]; exact herrors
    rw [if_neg hordered] at h
    by_cases hcycle : component ∈ path
    · rw [if_pos hcycle] at h
      injection h with h
      rw [← h] at herrors
      simp at herrors
    rw [if_neg hcycle] at h
    cases hdeps : component.requirements.foldl
        (resolveDependency cmp catalog (resolveComponent cmp catalog fuel (component :: path)))
        (some st) with
    | none => rw [hdeps] at h; cases h
    | some st1 =>
      rw [hdeps] at h
      injection h with h
      have herrors1 : st1.errors = [] := by rw [← h] at herrors; exact herrors
      exact resolveDependencies_errors cmp catalog _ (ih (component :: path))
        component.requirements st st1 hdeps herrors1

/-- A topological order stays one when a component that is not in it is
appended after all its dependencies. -/
theorem topologicalOrder_append (cmp : String → String → Int) (catalog : List Component)
    (ordered : List Component) (component : Component)
    (hordered : TopologicalOrder cmp catalog ordered) (hnew : component ∉ ordered)
    (hdeps : ∀ requirement ∈ component.requirements,
      ∃ found, componentByNameIn cmp requirement catalog = some found ∧ found ∈ ordered) :
    TopologicalOrder cmp catalog (ordered ++ [component]) := by
  intro before x after hsplit
  rcases List.eq_nil_or_concat after with hafter | ⟨front, last, hafter⟩
  · subst hafter
    have hboth := List.append_inj' hsplit (by simp)
    obtain ⟨hbefore, hx⟩ := hboth
    simp only [List.cons.injEq, and_true] at hx
    subst hbefore
    subst hx
    exact ⟨hnew, hdeps⟩
  · subst hafter
    have hsplit' : ordered ++ [component] = (before ++ x :: front) ++ [last] := by
      rw [hsplit]; simp
    have hboth := List.append_inj' hsplit' (by simp)
    exact hordered before x front hboth.1

/-- The loop over the dependencies keeps a topological order and resolves
every dependency into the output, when the nested calls keep a topological
order and add the component they are called for. The components that are
added are not under resolution. -/
theorem resolveDependencies_topological (cmp : String → String → Int)
    (catalog path : List Component)
    (visit : ResolverState → Component → Option ResolverState)
    (herrors : ∀ st found st', visit st found = some st' → st'.errors = [] → st.errors = [])
    (hvisit : ∀ st found st', visit st found = some st' → st'.errors = [] →
      TopologicalOrder cmp catalog st.ordered →
      TopologicalOrder cmp catalog st'.ordered ∧ found ∈ st'.ordered ∧
        ∃ added, st'.ordered = st.ordered ++ added ∧ ∀ c ∈ added, c ∉ path)
    (dependencies : List String) (st st' : ResolverState)
    (h : dependencies.foldl (resolveDependency cmp catalog visit) (some st) = some st')
    (hnone : st'.errors = []) (hordered : TopologicalOrder cmp catalog st.ordered) :
    TopologicalOrder cmp catalog st'.ordered ∧
    (∀ dependency ∈ dependencies,
      ∃ found, componentByNameIn cmp dependency catalog = some found ∧ found ∈ st'.ordered) ∧
    ∃ added, st'.ordered = st.ordered ++ added ∧ ∀ c ∈ added, c ∉ path := by
  induction dependencies generalizing st with
  | nil =>
    simp only [List.foldl_nil, Option.some.injEq] at h
    subst h
    exact ⟨hordered, fun _ hd => by simp at hd, [], by simp, fun _ hc => by simp at hc⟩
  | cons dependency rest ih =>
    simp only [List.foldl_cons, resolveDependency] at h
    cases hfound : componentByNameIn cmp dependency catalog with
    | none =>
      simp only [hfound] at h
      have := resolveDependencies_errors cmp catalog visit herrors rest _ st' h hnone
      simp at this
    | some found =>
      simp only [hfound] at h
      cases hnext : visit st found with
      | none =>
        rw [hnext, resolveDependencies_none] at h
        cases h
      | some next =>
        rw [hnext] at h
        have hnext_errors := resolveDependencies_errors cmp catalog visit herrors rest next st'
          h hnone
        obtain ⟨htopo, hmem, added, hadded, hfresh⟩ :=
          hvisit st found next hnext hnext_errors hordered
        obtain ⟨htopo', hdeps', added', hadded', hfresh'⟩ := ih next h htopo
        refine ⟨htopo', ?_, added ++ added', ?_, ?_⟩
        · intro d hd
          rcases List.mem_cons.1 hd with hd | hd
          · subst hd
            exact ⟨found, hfound, by rw [hadded']; exact List.mem_append_left _ hmem⟩
          · exact hdeps' d hd
        · rw [hadded', hadded, List.append_assoc]
        · intro c hc
          rcases List.mem_append.1 hc with hc | hc
          · exact hfresh c hc
          · exact hfresh' c hc

/-- The resolution of a component without an error keeps a topological order
and adds the component; the components that are added are not under
resolution. -/
theorem resolveComponent_topological (cmp : String → String → Int) (catalog : List Component) :
    ∀ (fuel : Nat) (path : List Component) (st : ResolverState) (component : Component)
      (st' : ResolverState),
      resolveComponent cmp catalog fuel path st component = some st' →
      st'.errors = [] → TopologicalOrder cmp catalog st.ordered →
      TopologicalOrder cmp catalog st'.ordered ∧ component ∈ st'.ordered ∧
        ∃ added, st'.ordered = st.ordered ++ added ∧ ∀ c ∈ added, c ∉ path := by
  intro fuel
  induction fuel with
  | zero =>
    intro path st component st' h
    simp [resolveComponent] at h
  | succ fuel ih =>
    intro path st component st' h herrors hordered
    simp only [resolveComponent] at h
    by_cases hin : component ∈ st.ordered
    · rw [if_pos hin] at h
      injection h with h
      subst h
      exact ⟨hordered, hin, [], by simp, fun _ hc => by simp at hc⟩
    rw [if_neg hin] at h
    by_cases hcycle : component ∈ path
    · rw [if_pos hcycle] at h
      injection h with h
      rw [← h] at herrors
      simp at herrors
    rw [if_neg hcycle] at h
    cases hdeps : component.requirements.foldl
        (resolveDependency cmp catalog (resolveComponent cmp catalog fuel (component :: path)))
        (some st) with
    | none => rw [hdeps] at h; cases h
    | some st1 =>
      rw [hdeps] at h
      injection h with h
      have herrors1 : st1.errors = [] := by rw [← h] at herrors; exact herrors
      obtain ⟨htopo, hresolved, added, hadded, hfresh⟩ :=
        resolveDependencies_topological cmp catalog (component :: path)
          (resolveComponent cmp catalog fuel (component :: path))
          (resolveComponent_errors cmp catalog fuel (component :: path))
          (ih (component :: path)) component.requirements st st1 hdeps herrors1 hordered
      have hnew : component ∉ st1.ordered := by
        rw [hadded]
        intro hmem
        rcases List.mem_append.1 hmem with hmem | hmem
        · exact hin hmem
        · exact hfresh component hmem (List.mem_cons_self _ _)
      subst h
      refine ⟨topologicalOrder_append cmp catalog st1.ordered component htopo hnew hresolved,
        by simp, added ++ [component], by simp [hadded], ?_⟩
      intro c hc
      rcases List.mem_append.1 hc with hc | hc
      · exact fun hpath => hfresh c hc (List.mem_cons_of_mem _ hpath)
      · rw [List.mem_singleton.1 hc]
        exact hcycle

/-- The loop over the selected components, once out of fuel, stays so. -/
theorem resolveSelected_none (cmp : String → String → Int) (catalog : List Component)
    (fuel : Nat) (pending : List Component) :
    pending.foldl (resolveSelected cmp catalog fuel) none = none := by
  induction pending with
  | nil => rfl
  | cons _ _ ih => simpa [List.foldl_cons, resolveSelected] using ih

/-- The loop over the selected components records errors and drops none. -/
theorem resolveSelected_errors (cmp : String → String → Int) (catalog : List Component)
    (fuel : Nat) (pending : List Component) (st st' : ResolverState)
    (h : pending.foldl (resolveSelected cmp catalog fuel) (some st) = some st')
    (herrors : st'.errors = []) : st.errors = [] := by
  induction pending generalizing st with
  | nil =>
    simp only [List.foldl_nil, Option.some.injEq] at h
    rw [h]; exact herrors
  | cons component rest ih =>
    simp only [List.foldl_cons, resolveSelected] at h
    cases hnext : resolveComponent cmp catalog fuel [] st component with
    | none =>
      rw [hnext, resolveSelected_none] at h
      cases h
    | some next =>
      rw [hnext] at h
      exact resolveComponent_errors cmp catalog fuel [] st component next hnext (ih next h)

/-- The loop over the selected components, ended without an error, keeps a
topological order and adds every selected component. -/
theorem resolveSelected_topological (cmp : String → String → Int) (catalog : List Component)
    (fuel : Nat) (pending : List Component) (st st' : ResolverState)
    (h : pending.foldl (resolveSelected cmp catalog fuel) (some st) = some st')
    (herrors : st'.errors = []) (hordered : TopologicalOrder cmp catalog st.ordered) :
    TopologicalOrder cmp catalog st'.ordered ∧
      (∀ component ∈ pending, component ∈ st'.ordered) ∧
      ∃ added, st'.ordered = st.ordered ++ added := by
  induction pending generalizing st with
  | nil =>
    simp only [List.foldl_nil, Option.some.injEq] at h
    subst h
    exact ⟨hordered, fun _ hc => by simp at hc, [], by simp⟩
  | cons component rest ih =>
    simp only [List.foldl_cons, resolveSelected] at h
    cases hnext : resolveComponent cmp catalog fuel [] st component with
    | none =>
      rw [hnext, resolveSelected_none] at h
      cases h
    | some next =>
      rw [hnext] at h
      have hnext_errors := resolveSelected_errors cmp catalog fuel rest next st' h herrors
      obtain ⟨htopo, hmem, added, hadded, -⟩ :=
        resolveComponent_topological cmp catalog fuel [] st component next hnext hnext_errors
          hordered
      obtain ⟨hfinal, hall, added', hadded'⟩ := ih next h htopo
      refine ⟨hfinal, ?_, added ++ added', by rw [hadded', hadded, List.append_assoc]⟩
      intro c hc
      rcases List.mem_cons.1 hc with hc | hc
      · rw [hc, hadded']
        exact List.mem_append_left _ hmem
      · exact hall c hc

/-- The empty list is a topological order. -/
theorem topologicalOrder_nil (cmp : String → String → Int) (catalog : List Component) :
    TopologicalOrder cmp catalog [] := by
  intro before component after hsplit
  simp at hsplit

/-- In a topological order a component that is listed after another one is
neither that one nor listed before it. -/
theorem topologicalOrder_after (cmp : String → String → Int) (catalog : List Component)
    (ordered before after : List Component) (component later : Component)
    (hordered : TopologicalOrder cmp catalog ordered)
    (hsplit : ordered = before ++ component :: after) (hlater : later ∈ after) :
    later ∉ before ∧ later ≠ component := by
  obtain ⟨front, back, hafter⟩ := List.append_of_mem hlater
  have hsplit' : ordered = (before ++ component :: front) ++ later :: back := by
    rw [hsplit, hafter]; simp
  have hnot := (hordered _ later back hsplit').1
  constructor
  · exact fun h => hnot (List.mem_append_left _ h)
  · intro h
    apply hnot
    rw [h]
    simp

/-- The output of the modelled install resolver without an error is a
topological order. -/
theorem installResolver_topological (cmp : String → String → Int) (catalog : List Component)
    (selected : List Component) (h : (installResolver cmp catalog selected).1 = true) :
    TopologicalOrder cmp catalog (installResolver cmp catalog selected).2 := by
  unfold installResolver at h ⊢
  cases hresolved : resolveComponents cmp catalog selected with
  | none => rw [hresolved] at h; cases h
  | some st =>
    rw [hresolved] at h
    simp only [decide_eq_true_eq] at h
    exact (resolveSelected_topological cmp catalog _ selected {} st hresolved h
      (topologicalOrder_nil cmp catalog)).1

/-- The loop over the requirements records no error when every requirement is
satisfied by a component for which the nested call records none. -/
theorem resolveDependencies_accepted (cmp : String → String → Int) (catalog : List Component)
    (visit : ResolverState → Component → Option ResolverState) (good : Component → Prop)
    (hvisit : ∀ st found st', good found → visit st found = some st' → st.errors = [] →
      st'.errors = [])
    (requirements : List String)
    (hresolved : ∀ requirement ∈ requirements,
      ∃ found, componentByNameIn cmp requirement catalog = some found ∧ good found)
    (st st' : ResolverState)
    (h : requirements.foldl (resolveDependency cmp catalog visit) (some st) = some st')
    (hbefore : st.errors = []) : st'.errors = [] := by
  induction requirements generalizing st with
  | nil =>
    simp only [List.foldl_nil, Option.some.injEq] at h
    rw [← h]; exact hbefore
  | cons requirement rest ih =>
    obtain ⟨found, hfound, hgood⟩ := hresolved requirement (List.mem_cons_self _ _)
    simp only [List.foldl_cons, resolveDependency, hfound] at h
    cases hnext : visit st found with
    | none =>
      rw [hnext, resolveDependencies_none] at h
      cases h
    | some next =>
      rw [hnext] at h
      exact ih (fun r hr => hresolved r (List.mem_cons_of_mem _ hr)) next h
        (hvisit st found next hgood hnext hbefore)

/-- The resolution of a component records no error when the components it
reaches have only requirements that the catalog satisfies and are on no cycle
of the dependency graph. The components under resolution lead to the
component along the edges of the graph. -/
theorem resolveComponent_accepted (cmp : String → String → Int) (catalog : List Component)
    (good : Component → Prop)
    (hclosed : ∀ c found, good c → DependsOn cmp catalog c found → good found)
    (hresolvable : ∀ c, good c → ∀ requirement ∈ c.requirements,
      (componentByNameIn cmp requirement catalog).isSome = true)
    (hacyclic : ∀ c, good c → ¬ Relation.TransGen (DependsOn cmp catalog) c c) :
    ∀ (fuel : Nat) (path : List Component) (st : ResolverState) (component : Component)
      (st' : ResolverState),
      resolveComponent cmp catalog fuel path st component = some st' →
      st.errors = [] → good component →
      (∀ x ∈ path, Relation.TransGen (DependsOn cmp catalog) x component) →
      st'.errors = [] := by
  intro fuel
  induction fuel with
  | zero =>
    intro path st component st' h
    simp [resolveComponent] at h
  | succ fuel ih =>
    intro path st component st' h hbefore hgood hpath
    simp only [resolveComponent] at h
    by_cases hin : component ∈ st.ordered
    · rw [if_pos hin] at h
      injection h with h
      rw [← h]; exact hbefore
    rw [if_neg hin] at h
    by_cases hcycle : component ∈ path
    · exact absurd (hpath component hcycle) (hacyclic component hgood)
    rw [if_neg hcycle] at h
    cases hdeps : component.requirements.foldl
        (resolveDependency cmp catalog (resolveComponent cmp catalog fuel (component :: path)))
        (some st) with
    | none => rw [hdeps] at h; cases h
    | some st1 =>
      rw [hdeps] at h
      injection h with h
      rw [← h]
      apply resolveDependencies_accepted cmp catalog
        (resolveComponent cmp catalog fuel (component :: path))
        (fun found => good found ∧ DependsOn cmp catalog component found) _
        component.requirements _ st st1 hdeps hbefore
      · intro st0 found st0' hfound hvisit hst0
        apply ih (component :: path) st0 found st0' hvisit hst0 hfound.1
        intro x hx
        rcases List.mem_cons.1 hx with hx | hx
        · rw [hx]
          exact Relation.TransGen.single hfound.2
        · exact Relation.TransGen.tail (hpath x hx) hfound.2
      · intro requirement hrequirement
        obtain ⟨found, hfound⟩ := Option.isSome_iff_exists.1
          (hresolvable component hgood requirement hrequirement)
        have hedge : DependsOn cmp catalog component found :=
          ⟨requirement, hrequirement, hfound⟩
        exact ⟨found, hfound, hclosed component found hgood hedge, hedge⟩

/-- The loop over the selected components records no error under the
conditions of `resolveComponent_accepted`. -/
theorem resolveSelected_accepted (cmp : String → String → Int) (catalog : List Component)
    (good : Component → Prop)
    (hclosed : ∀ c found, good c → DependsOn cmp catalog c found → good found)
    (hresolvable : ∀ c, good c → ∀ requirement ∈ c.requirements,
      (componentByNameIn cmp requirement catalog).isSome = true)
    (hacyclic : ∀ c, good c → ¬ Relation.TransGen (DependsOn cmp catalog) c c)
    (fuel : Nat) (pending : List Component) (hpending : ∀ c ∈ pending, good c)
    (st st' : ResolverState)
    (h : pending.foldl (resolveSelected cmp catalog fuel) (some st) = some st')
    (hbefore : st.errors = []) : st'.errors = [] := by
  induction pending generalizing st with
  | nil =>
    simp only [List.foldl_nil, Option.some.injEq] at h
    rw [← h]; exact hbefore
  | cons component rest ih =>
    simp only [List.foldl_cons, resolveSelected] at h
    cases hnext : resolveComponent cmp catalog fuel [] st component with
    | none =>
      rw [hnext, resolveSelected_none] at h
      cases h
    | some next =>
      rw [hnext] at h
      exact ih (fun c hc => hpending c (List.mem_cons_of_mem _ hc)) next h
        (resolveComponent_accepted cmp catalog good hclosed hresolvable hacyclic fuel [] st
          component next hnext hbefore (hpending component (List.mem_cons_self _ _))
          (fun x hx => by simp at hx))

/-- The modelled install resolver accepts every valid selection: when every
requirement of a component that the selection reaches is satisfied by a
component of the catalog, and no such component is on a cycle of the
dependency graph, the resolution ends without an error. -/
theorem installResolver_accepted (cmp : String → String → Int) (catalog : List Component)
    (selected : List Component)
    (hresolvable : ∀ c, Reachable cmp catalog selected c → ∀ requirement ∈ c.requirements,
      (componentByNameIn cmp requirement catalog).isSome = true)
    (hacyclic : ∀ c, Reachable cmp catalog selected c →
      ¬ Relation.TransGen (DependsOn cmp catalog) c c) :
    (installResolver cmp catalog selected).1 = true := by
  obtain ⟨st, hst⟩ := Option.isSome_iff_exists.1 (resolveComponents_isSome cmp catalog selected)
  have herrors : st.errors = [] :=
    resolveSelected_accepted cmp catalog (Reachable cmp catalog selected)
      (fun c found hc hedge => by
        obtain ⟨root, hroot, hreach⟩ := hc
        exact ⟨root, hroot, Relation.ReflTransGen.tail hreach hedge⟩)
      hresolvable hacyclic _ selected
      (fun c hc => ⟨c, hc, Relation.ReflTransGen.refl⟩) {} st hst rfl
  simp [installResolver, hst, herrors]

/-- The modelled install resolver lists every selected component when it
records no error. -/
theorem installResolver_selected (cmp : String → String → Int) (catalog : List Component)
    (selected : List Component) (h : (installResolver cmp catalog selected).1 = true) :
    ∀ component ∈ selected, component ∈ (installResolver cmp catalog selected).2 := by
  unfold installResolver at h ⊢
  cases hresolved : resolveComponents cmp catalog selected with
  | none => rw [hresolved] at h; cases h
  | some st =>
    rw [hresolved] at h
    simp only [decide_eq_true_eq] at h
    exact (resolveSelected_topological cmp catalog _ selected {} st hresolved h
      (topologicalOrder_nil cmp catalog)).2.1

/-- A selection is valid when a rank falls along every edge of the dependency
graph that starts at a selected component or at a component of the catalog,
and every requirement of these components is satisfied by a component of the
catalog. -/
theorem reachable_of_rank (cmp : String → String → Int) (catalog selected : List Component)
    (rank : Component → Nat)
    (hcheck : ∀ c ∈ selected ++ catalog, ∀ requirement ∈ c.requirements,
      (componentByNameIn cmp requirement catalog).map
        (fun found => decide (rank found < rank c)) = some true) :
    (∀ c, Reachable cmp catalog selected c → ∀ requirement ∈ c.requirements,
      (componentByNameIn cmp requirement catalog).isSome = true) ∧
    (∀ c, Reachable cmp catalog selected c →
      ¬ Relation.TransGen (DependsOn cmp catalog) c c) := by
  have hedge : ∀ c found, c ∈ selected ++ catalog → DependsOn cmp catalog c found →
      rank found < rank c ∧ found ∈ selected ++ catalog := by
    intro c found hc hdep
    obtain ⟨requirement, hrequirement, hfound⟩ := hdep
    have := hcheck c hc requirement hrequirement
    rw [hfound] at this
    simp only [Option.map_some', Option.some.injEq, decide_eq_true_eq] at this
    exact ⟨this, List.mem_append_right _ (componentByNameIn_mem cmp requirement catalog found
      hfound)⟩
  have hmember : ∀ c, Reachable cmp catalog selected c → c ∈ selected ++ catalog := by
    rintro c ⟨root, hroot, hreach⟩
    induction hreach with
    | refl => exact List.mem_append_left _ hroot
    | tail _ hstep ih => exact (hedge _ _ ih hstep).2
  constructor
  · intro c hc requirement hrequirement
    have := hcheck c (hmember c hc) requirement hrequirement
    cases hfound : componentByNameIn cmp requirement catalog with
    | none => rw [hfound] at this; simp at this
    | some found => rfl
  · intro c hc hcycle
    have hfalls : ∀ x, Relation.TransGen (DependsOn cmp catalog) c x →
        rank x < rank c ∧ x ∈ selected ++ catalog := by
      intro x hx
      induction hx with
      | single hstep => exact hedge _ _ (hmember c hc) hstep
      | tail _ hstep ih =>
        have := hedge _ _ ih.2 hstep
        exact ⟨lt_trans this.1 ih.1, this.2⟩
    exact lt_irrefl _ (hfalls c hcycle).1

/-- C22: with the install resolver of the specification over a catalog, for
every valid selection, that is, when every dependency requirement
(auto-dependencies included) of a component that the selection reaches in the
dependency graph is satisfied by a component of the catalog and no such
component is on a cycle of the graph: `calculateComponentsToInstall` returns
true, and the list that `orderedComponentsToInstall` returns after it holds
every selected component and is a topological order of the dependency graph:
no component is listed twice, and every dependency requirement of a listed
component is satisfied by a component that is listed before it and not after
it. The selection is the list of components handed to the resolver. -/
theorem orderedComponentsToInstall_topological (ext : External) (core : CoreState)
    (catalog selected : List Component)
    (hresolver : ext.installResolver = installResolver ext.compareVersion catalog)
    (hselected : (calculateComponentsToInstall ext core).2.installerCalculator.appended
      = selected)
    (hresolvable : ∀ component, Reachable ext.compareVersion catalog selected component →
      ∀ requirement ∈ component.dependencies ++ component.autoDependencies,
        (componentByNameIn ext.compareVersion requirement catalog).isSome = true)
    (hacyclic : ∀ component, Reachable ext.compareVersion catalog selected component →
      ¬ Relation.TransGen (DependsOn ext.compareVersion catalog) component component) :
    (calculateComponentsToInstall ext core).1 = true ∧
    (∀ component ∈ selected,
      component ∈ orderedComponentsToInstall ext (calculateComponentsToInstall ext core).2) ∧
    ∀ before component after,
      orderedComponentsToInstall ext (calculateComponentsToInstall ext core).2
        = before ++ component :: after →
      component ∉ before ∧ component ∉ after ∧
      ∀ requirement ∈ component.dependencies ++ component.autoDependencies,
        ∃ found, componentByNameIn ext.compareVersion requirement catalog = some found ∧
          found ∈ before ∧ found ∉ after := by
  have haccepted : (installResolver ext.compareVersion catalog selected).1 = true :=
    installResolver_accepted ext.compareVersion catalog selected hresolvable hacyclic
  have hordered : orderedComponentsToInstall ext (calculateComponentsToInstall ext core).2
      = (installResolver ext.compareVersion catalog selected).2 := by
    unfold orderedComponentsToInstall
    rw [hselected, hresolver]
  have htopo := installResolver_topological ext.compareVersion catalog selected haccepted
  rw [← hordered] at htopo
  refine ⟨?_, ?_, ?_⟩
  · by_cases hdone : core.componentsToInstallCalculated = true
    · simp [calculateComponentsToInstall, hdone]
    · have hdone' : core.componentsToInstallCalculated = false := by simpa using hdone
      simp only [calculateComponentsToInstall, hdone', Bool.not_false, if_true,
        appendComponentsToInstall, clearInstallerCalculator, List.nil_append] at hselected ⊢
      rw [hselected, hresolver]
      exact haccepted
  · rw [hordered]
    exact installResolver_selected ext.compareVersion catalog selected haccepted
  · intro before component after hsplit
    obtain ⟨hbefore, hdeps⟩ := htopo before component after hsplit
    refine ⟨hbefore, ?_, ?_⟩
    · intro hafter
      exact (topologicalOrder_after ext.compareVersion catalog _ before after component
        component htopo hsplit hafter).2 rfl
    · intro requirement hrequirement
      obtain ⟨found, hfound, hmem⟩ := hdeps requirement hrequirement
      refine ⟨found, hfound, hmem, ?_⟩
      intro hafter
      exact (topologicalOrder_after ext.compareVersion catalog _ before after component found
        htopo hsplit hafter).1 hmem

/-- C22 on a catalog in which plugin needs tools and has app as its
auto-dependency, app needs lib and tools, and tools needs lib, with all four
selected, plugin first: the selection is accepted, lib, tools and app are
listed before plugin, and the auto-dependency of plugin is satisfied by a
component listed before it. -/
theorem orderedComponentsToInstall_topological_witness :
    orderedComponentsToInstall sampleResolverExternal
        (calculateComponentsToInstall sampleResolverExternal sampleResolverCore).2
      = [sampleLib, sampleTools, sampleApp, samplePlugin] ∧
    (calculateComponentsToInstall sampleResolverExternal sampleResolverCore).1 = true ∧
    ∃ found, componentByNameIn sampleResolverExternal.compareVersion "app"
        sampleCatalog = some found ∧
      found ∈ [sampleLib, sampleTools, sampleApp] ∧ found ∉ ([] : List Component) :=
  ⟨by decide,
   (orderedComponentsToInstall_topological sampleResolverExternal sampleResolverCore
      sampleCatalog sampleCatalog (by rfl) (by decide)
      (reachable_of_rank KDUpdater.compareVersion sampleCatalog sampleCatalog sampleRank
        (by decide)).1
      (reachable_of_rank KDUpdater.compareVersion sampleCatalog sampleCatalog sampleRank
        (by decide)).2).1,
   (orderedComponentsToInstall_topological sampleResolverExternal sampleResolverCore
      sampleCatalog sampleCatalog (by rfl) (by decide)
      (reachable_of_rank KDUpdater.compareVersion sampleCatalog sampleCatalog sampleRank
        (by decide)).1
      (reachable_of_rank KDUpdater.compareVersion sampleCatalog sampleCatalog sampleRank
        (by decide)).2).2.2
      [sampleLib, sampleTools, sampleApp] samplePlugin [] (by decide) |>.2.2 "app"
        (by decide)⟩

/-- The modelled install resolver on a cycle and on a requirement that no
component satisfies: the resolution ends, reports an error and returns the
partial result. -/
theorem installResolver_errors :
    installResolver KDUpdater.compareVersion sampleCyclicCatalog
        [{ name := "ping", version := "1.0", dependencies := ["pong"] }]
      = (false, [{ name := "pong", version := "1.0", dependencies := ["ping"] },
                 { name := "ping", version := "1.0", dependencies := ["pong"] }]) ∧
    installResolver KDUpdater.compareVersion sampleCyclicCatalog
        [{ name := "solo", version := "1.0", dependencies := ["missing"] }]
      = (false, [{ name := "solo", version := "1.0", dependencies := ["missing"] }]) := by
  decide

end QInstaller
